import Mathlib

/-!
# Verification of levanter's torch-serialization layer and gradient accumulation

This development embeds (shallowly) the code of
`src/levanter/compat/torch_serialization.py` — the state-dict codec, the
linear-layer flattening adapter and the stack/unstack adapter — together with
a spec-modelled `accumulate_gradients_sharded` (whose implementation file is
not part of the excerpt), and proves or refutes the frozen claims about them.

Modelling conventions:
* tensors are opaque values (`Val`) for the codec and the stack/unstack
  adapter; for the linear-layer adapter they are named arrays over `Int`
  entries with explicit shape/index arithmetic;
* Python `dict`s are association lists with insertion-order semantics
  (`dictInsert` replaces in place or appends, like Python assignment);
* fallible code returns `Except Err`;
* `jnp.array` applied to a value already holding tensor data is the identity
  on the numeric contents, so it is modelled as the identity.
-/

/-- Python-level error classes raised by the embedded code. -/
inductive Err where
  /-- Python `ValueError`. -/
  | valueError : Err
  /-- Python `AssertionError` (a failed `assert`). -/
  | assertionError : Err
  /-- Python `KeyError` from a failed `dict[...]` lookup. -/
  | keyError : Err
  /-- Python `TypeError` (e.g. iterating a non-iterable). -/
  | typeError : Err
deriving DecidableEq, Repr

/-- An opaque tensor value, as stored in a state dict.  `atom` models an
ndarray with no further leading structure of interest; `stk vs` models an
ndarray whose leading axis enumerates the values `vs` (the result of
`numpy.stack(vs, axis=0)`). -/
inductive Val where
  | atom : Int → Val
  | stk : List Val → Val
deriving Repr

mutual

/-- Boolean equality on tensor values. -/
def Val.beq : Val → Val → Bool
  | .atom a, .atom b => a = b
  | .stk xs, .stk ys => Val.beqList xs ys
  | _, _ => false

/-- Boolean equality on lists of tensor values. -/
def Val.beqList : List Val → List Val → Bool
  | [], [] => true
  | x :: xs, y :: ys => Val.beq x y && Val.beqList xs ys
  | _, _ => false

end

mutual

theorem Val.beq_iff : ∀ a b : Val, Val.beq a b = true ↔ a = b
  | .atom a, .atom b => by simp [Val.beq]
  | .atom _, .stk _ => by simp [Val.beq]
  | .stk _, .atom _ => by simp [Val.beq]
  | .stk xs, .stk ys => by simp [Val.beq, Val.beqList_iff xs ys]

theorem Val.beqList_iff : ∀ xs ys : List Val, Val.beqList xs ys = true ↔ xs = ys
  | [], [] => by simp [Val.beqList]
  | [], _ :: _ => by simp [Val.beqList]
  | _ :: _, [] => by simp [Val.beqList]
  | x :: xs, y :: ys => by
      simp [Val.beqList, Val.beq_iff x y, Val.beqList_iff xs ys]

end

instance : DecidableEq Val := fun a b =>
  decidable_of_iff (Val.beq a b = true) (Val.beq_iff a b)


/-- A Python `dict` as an insertion-ordered association list.  Keys are
unique in any dict actually built by Python; predicates below track this. -/
abbrev PyDict (α : Type) := List (String × α)

/-- Python `d[k] = v`: replace in place if the key is present, else append. -/
def dictInsert {α : Type} : PyDict α → String → α → PyDict α
  | [], k, v => [(k, v)]
  | (k', v') :: rest, k, v =>
      if k' = k then (k, v) :: rest else (k', v') :: dictInsert rest k v

/-- Python `d.get(k)` / `d[k]`: first (and, for real dicts, only) binding. -/
def dictGet {α : Type} : PyDict α → String → Option α
  | [], _ => none
  | (k', v') :: rest, k => if k' = k then some v' else dictGet rest k

/-- The keys of a dict, in order. -/
def dictKeys {α : Type} (d : PyDict α) : List String := d.map Prod.fst

/-- Key uniqueness, the invariant of every real Python dict. -/
def NodupKeys {α : Type} (d : PyDict α) : Prop := (dictKeys d).Nodup

/-- Extensional equality of dicts: Python `d1 == d2` (order-insensitive,
assuming unique keys). -/
def DictEqv {α : Type} (d₁ d₂ : PyDict α) : Prop :=
  ∀ k, dictGet d₁ k = dictGet d₂ k

theorem dictGet_append_left {α : Type} {d₁ : PyDict α} (d₂ : PyDict α)
    {k : String} {v : α} (h : dictGet d₁ k = some v) :
    dictGet (d₁ ++ d₂) k = some v := by
  induction d₁ with
  | nil => simp [dictGet] at h
  | cons e rest ih =>
      obtain ⟨k', v'⟩ := e
      by_cases hk : k' = k
      · simpa [dictGet, hk] using by simpa [dictGet, hk] using h
      · simp only [dictGet, hk, if_false, List.cons_append] at h ⊢
        exact ih h

theorem dictGet_append_right {α : Type} {d₁ : PyDict α} (d₂ : PyDict α)
    {k : String} (h : dictGet d₁ k = none) :
    dictGet (d₁ ++ d₂) k = dictGet d₂ k := by
  induction d₁ with
  | nil => simp
  | cons e rest ih =>
      obtain ⟨k', v'⟩ := e
      by_cases hk : k' = k
      · simp [dictGet, hk] at h
      · simp only [dictGet, hk, if_false, List.cons_append] at h ⊢
        exact ih h

/-- A fresh-key insert is an append. -/
theorem dictInsert_fresh {α : Type} {d : PyDict α} {k : String} (v : α)
    (h : dictGet d k = none) : dictInsert d k v = d ++ [(k, v)] := by
  induction d with
  | nil => rfl
  | cons e rest ih =>
      obtain ⟨k', v'⟩ := e
      by_cases hk : k' = k
      · simp [dictGet, hk] at h
      · simp only [dictInsert, hk, if_false, List.cons_append, List.cons.injEq, true_and]
        exact ih (by simpa [dictGet, hk] using h)

theorem dictGet_eq_none_iff {α : Type} {d : PyDict α} {k : String} :
    dictGet d k = none ↔ k ∉ dictKeys d := by
  induction d with
  | nil => simp [dictGet, dictKeys]
  | cons e rest ih =>
      obtain ⟨k', v'⟩ := e
      by_cases hk : k' = k
      · subst hk; simp [dictGet, dictKeys]
      · simp [dictGet, dictKeys, hk, ih, Ne.symm hk]

theorem dictGet_isSome_of_mem {α : Type} {d : PyDict α} {k : String}
    (h : k ∈ dictKeys d) : ∃ v, dictGet d k = some v := by
  rcases hg : dictGet d k with _ | v
  · exact absurd (dictGet_eq_none_iff.mp hg) (by simpa using h)
  · exact ⟨v, rfl⟩

theorem mem_of_dictGet_eq_some {α : Type} {d : PyDict α} {k : String} {v : α}
    (h : dictGet d k = some v) : (k, v) ∈ d := by
  induction d with
  | nil => simp [dictGet] at h
  | cons e rest ih =>
      obtain ⟨k', v'⟩ := e
      by_cases hk : k' = k
      · simp only [dictGet, hk, if_true, Option.some.injEq] at h
        subst hk; subst h; exact List.mem_cons_self _ _
      · simp only [dictGet, hk, if_false] at h
        exact List.mem_cons_of_mem _ (ih h)

theorem dictGet_eq_some_of_mem {α : Type} {d : PyDict α} {k : String} {v : α}
    (hnd : NodupKeys d) (h : (k, v) ∈ d) : dictGet d k = some v := by
  induction d with
  | nil => simp at h
  | cons e rest ih =>
      obtain ⟨k', v'⟩ := e
      rcases List.mem_cons.mp h with he | hrest
      · obtain ⟨rfl, rfl⟩ := Prod.mk.injEq .. ▸ he
        simp [dictGet]
      · have hk : k' ≠ k := by
          rintro rfl
          exact (List.nodup_cons.mp hnd).1 (by
            simpa [dictKeys] using List.mem_map_of_mem Prod.fst hrest)
        simp only [dictGet, hk, if_false]
        exact ih (List.nodup_cons.mp hnd).2 hrest

/-! ## Decimal numerals

Python renders block indices with `f"{i}"` (canonical decimal, no leading
zeros) and parses them with `int(...)` (plain decimal, leading zeros
allowed).  We model rendering with `natDigits` (big-endian character list)
and parsing with `digitsToNat`. -/

/-- The numeric value of a decimal digit character. -/
def digitVal (c : Char) : Nat := c.toNat - 48

/-- Python `int(s)` on a nonempty string of decimal digits. -/
def digitsToNat (l : List Char) : Nat := l.foldl (fun acc c => 10 * acc + digitVal c) 0

/-- Python `f"{n}"`: the canonical decimal rendering of `n`, big-endian. -/
def natDigits (n : Nat) : List Char :=
  if n = 0 then ['0'] else ((Nat.digits 10 n).map Nat.digitChar).reverse

/-- Python `f"{n}"` as a string. -/
def natStr (n : Nat) : String := String.mk (natDigits n)

theorem digitVal_digitChar {d : Nat} (h : d < 10) : digitVal (Nat.digitChar d) = d := by
  interval_cases d <;> decide

theorem isDigit_digitChar {d : Nat} (h : d < 10) : (Nat.digitChar d).isDigit = true := by
  interval_cases d <;> decide

theorem digitsToNat_append (l₁ l₂ : List Char) :
    digitsToNat (l₁ ++ l₂) =
      l₂.foldl (fun acc c => 10 * acc + digitVal c) (digitsToNat l₁) := by
  simp [digitsToNat, List.foldl_append]

theorem digitsToNat_natDigits (n : Nat) : digitsToNat (natDigits n) = n := by
  rcases Nat.eq_zero_or_pos n with rfl | hpos
  · decide
  · have hne : n ≠ 0 := Nat.pos_iff_ne_zero.mp hpos
    have key : ∀ ds : List Nat, (∀ d ∈ ds, d < 10) →
        digitsToNat ((ds.map Nat.digitChar).reverse) = Nat.ofDigits 10 ds := by
      intro ds
      induction ds with
      | nil => intro _; decide
      | cons d rest ih =>
          intro hd
          have hd10 : d < 10 := hd d (List.mem_cons_self _ _)
          have hrest := ih (fun x hx => hd x (List.mem_cons_of_mem _ hx))
          simp only [List.map_cons, List.reverse_cons, digitsToNat_append, hrest]
          simp only [digitsToNat] at hrest ⊢
          simp [List.foldl, hrest, digitVal_digitChar hd10, Nat.ofDigits_cons]
          ring
    have hlt : ∀ d ∈ Nat.digits 10 n, d < 10 :=
      fun d hd => Nat.digits_lt_base (by norm_num) hd
    simp only [natDigits, hne, if_false, key _ hlt, Nat.ofDigits_digits]

theorem natDigits_ne_nil (n : Nat) : natDigits n ≠ [] := by
  rcases Nat.eq_zero_or_pos n with rfl | hpos
  · decide
  · have hne : n ≠ 0 := Nat.pos_iff_ne_zero.mp hpos
    simp [natDigits, hne, Nat.digits_ne_nil_iff_ne_zero.mpr hne]

theorem natDigits_all_digit (n : Nat) : ∀ c ∈ natDigits n, c.isDigit = true := by
  rcases Nat.eq_zero_or_pos n with rfl | hpos
  · decide
  · have hne : n ≠ 0 := Nat.pos_iff_ne_zero.mp hpos
    intro c hc
    simp only [natDigits, hne, if_false, List.mem_reverse, List.mem_map] at hc
    obtain ⟨d, hd, rfl⟩ := hc
    exact isDigit_digitChar (Nat.digits_lt_base (by norm_num) hd)

theorem natDigits_injective : Function.Injective natDigits := by
  intro m n h
  have := digitsToNat_natDigits m
  rw [h, digitsToNat_natDigits] at this
  exact this.symm

/-- `natDigits` never contains a `'.'` (it is all digits). -/
theorem natDigits_no_dot (n : Nat) : ∀ c ∈ natDigits n, c ≠ '.' := by
  intro c hc
  have := natDigits_all_digit n c hc
  intro hdot
  rw [hdot] at this
  simp [Char.isDigit] at this

/-! ## `apply_prefix` and key construction -/

/-- `apply_prefix` from `torch_serialization.py`:
`None` prefix returns the leaf, `None` leaf returns the prefix, otherwise
`f"{prefix}.{leaf}"`. -/
def apply_prefix : Option String → Option String → Option String
  | none, leaf => leaf
  | some p, none => some p
  | some p, some l => some (p ++ "." ++ l)

/-- `apply_prefix` specialised to a present leaf (always yields a string). -/
def applyPrefixLeaf (pfx : Option String) (leaf : String) : String :=
  match pfx with
  | none => leaf
  | some p => p ++ "." ++ leaf

theorem apply_prefix_some (p : Option String) (l : String) :
    apply_prefix p (some l) = some (applyPrefixLeaf p l) := by
  cases p <;> rfl

/-! ## The stack/unstack adapter

Embedding of `unstack_state_dict` and `stack_state_dict`.  State-dict values
are `Option Val` (`none` is Python `None`).  Keys are compared and split by
character exactly as Python string slicing and `re` matching do; state-dict
keys contain no newline characters, so `.*` in the pattern reaches the end of
the key. -/

/-- Split `cs` as `digits ++ '.' :: rest` where `digits` is the maximal
nonempty run of decimal digits.  This is what `re.match` does for the segment
`(\d+)\.` of the pattern: the group is greedy, and since `'.'` is not a
digit, backtracking can only succeed at the maximal run. -/
def splitIndex (cs : List Char) : Option (List Char × List Char) :=
  let ds := cs.takeWhile Char.isDigit
  if ds.isEmpty then none
  else
    match cs.drop ds.length with
    | c :: rest => if c = '.' then some (ds, rest) else none
    | [] => none

/-- `re.match(rf"{re.escape(escP)}\.(\d+)\.(.*)", k)` from `stack_state_dict`,
returning `(int(group(1)), group(2))` on a match.  `re.escape` makes the
prefix a literal; `match` anchors at the start of `k` only. -/
def matchStacked (escP : String) (k : String) : Option (Nat × String) :=
  let pd := escP.data ++ ['.']
  if pd.isPrefixOf k.data then
    match splitIndex (k.data.drop pd.length) with
    | some (ds, rest) => some (digitsToNat ds, String.mk rest)
    | none => none
  else none

/-- Accumulator state inside `stack_state_dict`'s first loop:
`vectorized` is `vectorized_dict`, `groups` is `tensors_to_vectorize`. -/
structure StackAcc where
  vectorized : PyDict (Option Val)
  groups : PyDict (List (Option Val))
deriving Repr

/-- One iteration of the key-grouping loop of `stack_state_dict`: match the
key against the pattern; on a match, grow the group's slot list with `None`
padding to cover the index, `assert` the slot is still `None` (the
"Duplicate key" assertion), and write the value into the slot; otherwise copy
the entry into `vectorized_dict`. -/
def stackStep (escP : String) (acc : StackAcc) (kv : String × Option Val) :
    Except Err StackAcc :=
  match matchStacked escP kv.1 with
  | some (blockIdx, blockKey) =>
      let tensors := (dictGet acc.groups blockKey).getD []
      let tensors :=
        if tensors.length ≤ blockIdx
        then tensors ++ List.replicate (blockIdx + 1 - tensors.length) none
        else tensors
      match tensors.getD blockIdx none with
      | some _ => .error .assertionError
      | none =>
          .ok { acc with groups := dictInsert acc.groups blockKey (tensors.set blockIdx kv.2) }
  | none => .ok { acc with vectorized := dictInsert acc.vectorized kv.1 kv.2 }

/-- `numpy.stack(tensors, axis=0)` on the collected slots.  The state-dict
values being stacked are arrays with at least one dimension, so a `None`
left in a slot (a gap in the index run) makes `numpy.stack` raise
(`np.asanyarray(None)` is 0-d, mismatching every other shape), as does an
empty list. -/
def allSome : List (Option Val) → Option (List Val)
  | [] => some []
  | none :: _ => none
  | some v :: rest => (allSome rest).map (v :: ·)

def npStack (ts : List (Option Val)) : Except Err Val :=
  match allSome ts with
  | some vs => if vs.isEmpty then .error .valueError else .ok (.stk vs)
  | none => .error .valueError

/-- `stack_state_dict(state_dict, prefix)`: group keys
`prefix.<digits>.<rest>` by `<rest>`, join each group's values along a new
leading axis in index order, and pass other keys through unchanged. -/
def stack_state_dict (sd : PyDict (Option Val)) (pfx : Option String) :
    Except Err (PyDict (Option Val)) := do
  let escP := pfx.getD ""
  let acc ← sd.foldlM (stackStep escP) ⟨[], []⟩
  acc.groups.foldlM
    (fun vd kv => do
      let v ← npStack kv.2
      pure (dictInsert vd (applyPrefixLeaf pfx kv.1) (some v)))
    acc.vectorized

/-- The per-index entries `f"{pfx}{i}.{rest}"` produced by
`unstack_state_dict` for one stacked value (`pfx` already ends in `"."`). -/
def expandEntries (pfx : String) (restKey : String) (vs : List Val) :
    List (String × Option Val) :=
  vs.enum.map (fun iv => (pfx ++ natStr iv.1 ++ "." ++ restKey, some iv.2))

/-- One iteration of `unstack_state_dict`'s loop: a key starting with
`prefix + "."` whose value is not `None` is re-expanded into per-index keys
(enumerating the value's leading axis; enumerating a 0-d array raises
`TypeError`); any other entry is copied unchanged. -/
def unstackStep (pfx : String) (nd : PyDict (Option Val)) (kv : String × Option Val) :
    Except Err (PyDict (Option Val)) :=
  if pfx.data.isPrefixOf kv.1.data ∧ kv.2 ≠ none then
    match kv.2 with
    | some (.atom _) => .error .typeError
    | some (.stk vs) =>
        .ok ((expandEntries pfx (String.mk (kv.1.data.drop pfx.data.length)) vs).foldl
          (fun d e => dictInsert d e.1 e.2) nd)
    | none => .ok nd
  else .ok (dictInsert nd kv.1 kv.2)

/-- `unstack_state_dict(state_dict, prefix)`: apply `unstackStep` with
`prefix = apply_prefix(prefix, "")` to every entry in order. -/
def unstack_state_dict (sd : PyDict (Option Val)) (pfx0 : Option String) :
    Except Err (PyDict (Option Val)) :=
  let pfx := match pfx0 with
    | none => ""
    | some q => q ++ "."
  sd.foldlM (unstackStep pfx) []

/-! ## Key parsing and rendering lemmas -/

/-- The canonical stacked key `f"{p}.{i}.{r}"` with `i` rendered in canonical
decimal. -/
def mkKey (p : String) (i : Nat) (r : String) : String :=
  String.mk (p.data ++ '.' :: (natDigits i ++ '.' :: r.data))

theorem takeWhile_all_append {p : Char → Bool} :
    ∀ (l : List Char) {x : Char} (r : List Char), (∀ c ∈ l, p c = true) → p x = false →
      (l ++ x :: r).takeWhile p = l
  | [], x, r, _, hx => by simp [List.takeWhile_cons, hx]
  | a :: l, x, r, hl, hx => by
      have ha : p a = true := hl a (List.mem_cons_self _ _)
      simp only [List.cons_append, List.takeWhile_cons, ha, if_true]
      rw [takeWhile_all_append l r (fun c hc => hl c (List.mem_cons_of_mem _ hc)) hx]

theorem splitIndex_exact {ds rest : List Char} (hne : ds ≠ [])
    (hdig : ∀ c ∈ ds, c.isDigit = true) :
    splitIndex (ds ++ '.' :: rest) = some (ds, rest) := by
  have htw : (ds ++ '.' :: rest).takeWhile Char.isDigit = ds :=
    takeWhile_all_append ds rest hdig (by decide)
  have hdrop : (ds ++ '.' :: rest).drop ds.length = '.' :: rest := List.drop_left ds _
  simp [splitIndex, htw, hdrop, List.isEmpty_iff, hne]

theorem splitIndex_some_elim {cs ds rest : List Char}
    (h : splitIndex cs = some (ds, rest)) :
    ds ≠ [] ∧ (∀ c ∈ ds, c.isDigit = true) ∧ cs = ds ++ '.' :: rest := by
  simp only [splitIndex] at h
  by_cases hemp : (cs.takeWhile Char.isDigit).isEmpty
  · simp [hemp] at h
  · simp only [hemp, if_false] at h
    rcases hd : cs.drop (cs.takeWhile Char.isDigit).length with _ | ⟨c, rest'⟩ <;>
      rw [hd] at h
    · simp at h
    · by_cases hc : c = '.'
      · subst hc
        simp only [if_true, Option.some.injEq, Prod.mk.injEq] at h
        obtain ⟨rfl, rfl⟩ := h
        obtain ⟨u, hu⟩ := List.takeWhile_prefix (p := Char.isDigit) (l := cs)
        have hdu : cs.drop (cs.takeWhile Char.isDigit).length = u := by
          nth_rewrite 2 [← hu]
          rw [List.drop_left]
        rw [hdu] at hd
        refine ⟨by simpa [List.isEmpty_iff] using hemp,
          fun u' hu' => List.mem_takeWhile_imp hu', ?_⟩
        conv_lhs => rw [← hu]
        rw [hd]
      · simp [hc] at h
  
theorem matchStacked_mk {p : String} {ds rest : List Char} (hne : ds ≠ [])
    (hdig : ∀ c ∈ ds, c.isDigit = true) :
    matchStacked p (String.mk (p.data ++ '.' :: (ds ++ '.' :: rest)))
      = some (digitsToNat ds, String.mk rest) := by
  have hassoc : p.data ++ '.' :: (ds ++ '.' :: rest)
      = (p.data ++ ['.']) ++ (ds ++ '.' :: rest) := by simp
  have hpre : (p.data ++ ['.']).isPrefixOf (p.data ++ '.' :: (ds ++ '.' :: rest)) = true := by
    rw [List.isPrefixOf_iff_prefix]
    exact ⟨ds ++ '.' :: rest, hassoc.symm⟩
  have hdrop : (p.data ++ '.' :: (ds ++ '.' :: rest)).drop (p.data ++ ['.']).length
      = ds ++ '.' :: rest := by
    rw [hassoc, List.drop_left]
  simp only [matchStacked, hpre, if_true, hdrop, splitIndex_exact hne hdig]

theorem matchStacked_mkKey (p : String) (i : Nat) (r : String) :
    matchStacked p (mkKey p i r) = some (i, r) := by
  have h : matchStacked p (String.mk (p.data ++ '.' :: (natDigits i ++ '.' :: r.data)))
      = some (digitsToNat (natDigits i), String.mk r.data) :=
    matchStacked_mk (natDigits_ne_nil i) (natDigits_all_digit i)
  simpa [mkKey, digitsToNat_natDigits] using h

theorem matchStacked_not_startsWith {p k : String}
    (h : ¬ (p.data ++ ['.']) <+: k.data) : matchStacked p k = none := by
  have hb : (p.data ++ ['.']).isPrefixOf k.data = false := by
    rw [Bool.eq_false_iff]
    intro hc
    exact h (List.isPrefixOf_iff_prefix.mp hc)
  simp [matchStacked, hb]

theorem matchStacked_some_elim {p k : String} {i : Nat} {r : String}
    (h : matchStacked p k = some (i, r)) :
    ∃ ds : List Char, ds ≠ [] ∧ (∀ c ∈ ds, c.isDigit = true) ∧
      k.data = p.data ++ '.' :: (ds ++ '.' :: r.data) ∧ i = digitsToNat ds := by
  simp only [matchStacked] at h
  by_cases hpre : (p.data ++ ['.']).isPrefixOf k.data
  · simp only [hpre, if_true] at h
    rcases hsplit : splitIndex (k.data.drop (p.data ++ ['.']).length) with _ | ⟨ds, rest⟩ <;>
      rw [hsplit] at h
    · simp at h
    · simp only [Option.some.injEq, Prod.mk.injEq] at h
      obtain ⟨hi, hr⟩ := h
      obtain ⟨hne, hdig, hcs⟩ := splitIndex_some_elim hsplit
      obtain ⟨t, ht⟩ := List.isPrefixOf_iff_prefix.mp hpre
      have hdropt : k.data.drop (p.data ++ ['.']).length = t := by
        rw [← ht, List.drop_left]
      rw [hdropt] at hcs
      refine ⟨ds, hne, hdig, ?_, hi.symm⟩
      have hrd : r.data = rest := by rw [← hr]
      rw [← ht, hcs, hrd]
      simp
  · simp [hpre] at h

theorem dotfree_append_inj :
    ∀ (a b x y : List Char), (∀ c ∈ a, c ≠ '.') → (∀ c ∈ b, c ≠ '.') →
      a ++ '.' :: x = b ++ '.' :: y → a = b ∧ x = y
  | [], [], x, y, _, _, h => by
      simp only [List.nil_append] at h
      exact ⟨rfl, by injection h⟩
  | [], c :: bs, x, y, _, hb, h => by
      exfalso
      simp only [List.nil_append, List.cons_append] at h
      have : '.' = c := by injection h
      exact hb c (List.mem_cons_self _ _) this.symm
  | c :: as, [], x, y, ha, _, h => by
      exfalso
      simp only [List.nil_append, List.cons_append] at h
      have : c = '.' := by injection h
      exact ha c (List.mem_cons_self _ _) this
  | c :: as, c' :: bs, x, y, ha, hb, h => by
      simp only [List.cons_append, List.cons.injEq] at h
      obtain ⟨rfl, h2⟩ := h
      obtain ⟨h3, h4⟩ := dotfree_append_inj as bs x y
        (fun u hu => ha u (List.mem_cons_of_mem _ hu))
        (fun u hu => hb u (List.mem_cons_of_mem _ hu)) h2
      exact ⟨by rw [h3], h4⟩

theorem mkKey_inj {p : String} {i j : Nat} {r s : String}
    (h : mkKey p i r = mkKey p j s) : i = j ∧ r = s := by
  have hd : p.data ++ '.' :: (natDigits i ++ '.' :: r.data)
      = p.data ++ '.' :: (natDigits j ++ '.' :: s.data) := congrArg String.data h
  have h0 := List.append_cancel_left hd
  have h1 : natDigits i ++ '.' :: r.data = natDigits j ++ '.' :: s.data := by
    injection h0
  obtain ⟨hij, hrs⟩ := dotfree_append_inj (natDigits i) (natDigits j) r.data s.data
    (natDigits_no_dot i) (natDigits_no_dot j) h1
  exact ⟨natDigits_injective hij, String.ext hrs⟩

/-- A parsed key whose digit run is canonical (no leading zeros) is the
`mkKey` of its parse. -/
theorem matchStacked_canonical {p k : String} {i : Nat} {r : String}
    (h : matchStacked p k = some (i, r))
    (hcanon : ∀ ds : List Char, ds ≠ [] → (∀ c ∈ ds, c.isDigit = true) →
      k.data = p.data ++ '.' :: (ds ++ '.' :: r.data) → ds = natDigits (digitsToNat ds)) :
    k = mkKey p i r := by
  obtain ⟨ds, hne, hdig, hk, hi⟩ := matchStacked_some_elim h
  have hds := hcanon ds hne hdig hk
  apply String.ext
  show k.data = p.data ++ '.' :: (natDigits i ++ '.' :: r.data)
  rw [hk, hi, ← hds]

/-! ## Characterising `stack_state_dict`'s grouping loop -/

theorem dictGet_dictInsert_self {α : Type} (d : PyDict α) (k : String) (v : α) :
    dictGet (dictInsert d k v) k = some v := by
  induction d with
  | nil => simp [dictInsert, dictGet]
  | cons e rest ih =>
      obtain ⟨k', v'⟩ := e
      by_cases hk : k' = k
      · simp [dictInsert, dictGet, hk]
      · simp [dictInsert, dictGet, hk, ih]

theorem dictGet_dictInsert_ne {α : Type} (d : PyDict α) {k k' : String} (v : α)
    (h : k' ≠ k) : dictGet (dictInsert d k v) k' = dictGet d k' := by
  induction d with
  | nil => simp [dictInsert, dictGet, Ne.symm h]
  | cons e rest ih =>
      obtain ⟨k₀, v₀⟩ := e
      by_cases hk : k₀ = k
      · subst hk
        simp [dictInsert, dictGet, Ne.symm h]
      · simp only [dictInsert, hk, if_false]
        by_cases hk' : k₀ = k'
        · subst hk'
          simp [dictGet]
        · simp [dictGet, hk', ih]

/-- The first entry of `es` whose key matches `(j, r)` under the pattern,
if any (outer `Option`), and its state-dict value (inner `Option Val`). -/
def findMatch (P : String) (es : PyDict (Option Val)) (j : Nat) (r : String) :
    Option (Option Val) :=
  es.findSome? (fun kv => if matchStacked P kv.1 = some (j, r) then some kv.2 else none)

/-- The slot content `tensors_to_vectorize[r][j]` will end up holding:
`none` both for an untouched padding slot and for a matched entry whose
state-dict value was Python `None` (the code cannot tell these apart). -/
def slotOf (P : String) (es : PyDict (Option Val)) (j : Nat) (r : String) : Option Val :=
  (findMatch P es j r).join

/-- One past the largest index matched for rest-key `r`, i.e. the final
length of `tensors_to_vectorize[r]` (0 when `r` never occurs). -/
def groupLen (P : String) (es : PyDict (Option Val)) (r : String) : Nat :=
  es.foldl
    (fun L kv =>
      match matchStacked P kv.1 with
      | some (j, r') => if r' = r then max L (j + 1) else L
      | none => L) 0

/-- No two distinct keys of `es` parse to the same `(index, rest)` pair. -/
def DistinctMatches (P : String) (es : PyDict (Option Val)) : Prop :=
  ∀ kv₁ ∈ es, ∀ kv₂ ∈ es, ∀ pr : Nat × String,
    matchStacked P kv₁.1 = some pr → matchStacked P kv₂.1 = some pr → kv₁.1 = kv₂.1

theorem findSome?_append {α β : Type} (l₁ l₂ : List α) (f : α → Option β) :
    (l₁ ++ l₂).findSome? f =
      match l₁.findSome? f with
      | some b => some b
      | none => l₂.findSome? f := by
  induction l₁ with
  | nil => simp [List.findSome?]
  | cons a l ih =>
      rcases hf : f a with _ | b
      · simpa [List.findSome?_cons, hf] using ih
      · simp [List.findSome?_cons, hf]

theorem findMatch_append_miss {P : String} {es : PyDict (Option Val)}
    {kv : String × Option Val} {j : Nat} {r : String}
    (h : ¬ matchStacked P kv.1 = some (j, r)) :
    findMatch P (es ++ [kv]) j r = findMatch P es j r := by
  rw [findMatch, findSome?_append]
  have h2 : List.findSome?
      (fun kv => if matchStacked P kv.1 = some (j, r) then some kv.2 else none) [kv]
      = none := by
    simp [List.findSome?, h]
  rw [h2]
  rcases hf : List.findSome?
      (fun kv => if matchStacked P kv.1 = some (j, r) then some kv.2 else none) es
    with _ | v <;> rw [findMatch, hf]

theorem findMatch_append_hit {P : String} {es : PyDict (Option Val)}
    {kv : String × Option Val} {j : Nat} {r : String}
    (h : matchStacked P kv.1 = some (j, r)) (h0 : findMatch P es j r = none) :
    findMatch P (es ++ [kv]) j r = some kv.2 := by
  rw [findMatch, findSome?_append]
  have h2 : List.findSome?
      (fun kv => if matchStacked P kv.1 = some (j, r) then some kv.2 else none) [kv]
      = some kv.2 := by
    simp [List.findSome?, h]
  rw [findMatch] at h0
  rw [h0, h2]

theorem findMatch_eq_none_iff {P : String} {es : PyDict (Option Val)} {j : Nat}
    {r : String} :
    findMatch P es j r = none ↔ ∀ kv ∈ es, matchStacked P kv.1 ≠ some (j, r) := by
  simp only [findMatch, List.findSome?_eq_none_iff]
  constructor
  · intro h kv hkv hm
    have := h kv hkv
    simp [hm] at this
  · intro h kv hkv
    simp [h kv hkv]

/-- The generalised form of `groupLen` over an arbitrary initial value. -/
theorem groupLenAux_ge_init (P : String) (es : PyDict (Option Val)) (r : String) :
    ∀ n : Nat, n ≤ es.foldl
      (fun L kv =>
        match matchStacked P kv.1 with
        | some (j, r') => if r' = r then max L (j + 1) else L
        | none => L) n := by
  induction es with
  | nil => intro n; simp
  | cons kv rest ih =>
      intro n
      simp only [List.foldl_cons]
      rcases hm : matchStacked P kv.1 with _ | ⟨j, r'⟩
      · exact ih n
      · by_cases hr : r' = r
        · simp only [hr, if_true]
          exact le_trans (Nat.le_max_left _ _) (ih _)
        · simp only [hr, if_false]
          exact ih n

theorem lt_groupLenAux_of_mem (P : String) {es : PyDict (Option Val)} {kv₀ : String × Option Val}
    (hmem : kv₀ ∈ es) {j : Nat} {r : String} (hm : matchStacked P kv₀.1 = some (j, r)) :
    ∀ n : Nat, j < es.foldl
      (fun L kv =>
        match matchStacked P kv.1 with
        | some (j, r') => if r' = r then max L (j + 1) else L
        | none => L) n := by
  induction es with
  | nil => simp at hmem
  | cons kv rest ih =>
      intro n
      simp only [List.foldl_cons]
      rcases List.mem_cons.mp hmem with rfl | hrest
      · rw [hm]
        simp only [if_pos rfl]
        calc j < max n (j + 1) := lt_of_lt_of_le (Nat.lt_succ_self j) (Nat.le_max_right _ _)
        _ ≤ _ := groupLenAux_ge_init P rest r _
      · exact ih hrest _

theorem lt_groupLen_of_mem {P : String} {es : PyDict (Option Val)}
    {kv₀ : String × Option Val} (hmem : kv₀ ∈ es) {j : Nat} {r : String}
    (hm : matchStacked P kv₀.1 = some (j, r)) : j < groupLen P es r :=
  lt_groupLenAux_of_mem P hmem hm 0

theorem groupLen_append_none {P : String} {es : PyDict (Option Val)}
    {kv : String × Option Val} (r : String) (hm : matchStacked P kv.1 = none) :
    groupLen P (es ++ [kv]) r = groupLen P es r := by
  simp only [groupLen, List.foldl_append, List.foldl_cons, List.foldl_nil, hm]

theorem groupLen_append_some {P : String} {es : PyDict (Option Val)}
    {kv : String × Option Val} {j : Nat} {r' : String} (r : String)
    (hm : matchStacked P kv.1 = some (j, r')) :
    groupLen P (es ++ [kv]) r =
      if r' = r then max (groupLen P es r) (j + 1) else groupLen P es r := by
  simp only [groupLen, List.foldl_append, List.foldl_cons, List.foldl_nil, hm]

theorem groupLen_pos_iff {P : String} {es : PyDict (Option Val)} {r : String} :
    0 < groupLen P es r ↔ ∃ kv ∈ es, ∃ j, matchStacked P kv.1 = some (j, r) := by
  constructor
  · induction es using List.reverseRecOn with
    | nil => intro h; simp [groupLen] at h
    | append_singleton es kv ih =>
        intro h
        rcases hm : matchStacked P kv.1 with _ | ⟨j, r'⟩
        · rw [groupLen_append_none r hm] at h
          obtain ⟨kv', h1, h2⟩ := ih h
          exact ⟨kv', List.mem_append_left _ h1, h2⟩
        · by_cases hr : r' = r
          · subst hr
            exact ⟨kv, List.mem_append_right _ (List.mem_singleton_self _), j, hm⟩
          · rw [groupLen_append_some r hm, if_neg hr] at h
            obtain ⟨kv', h1, h2⟩ := ih h
            exact ⟨kv', List.mem_append_left _ h1, h2⟩
  · rintro ⟨kv, hmem, j, hm⟩
    exact lt_of_le_of_lt (Nat.zero_le j) (lt_groupLen_of_mem hmem hm)

theorem slotOf_eq_none_of_ge {P : String} {es : PyDict (Option Val)} {j : Nat}
    {r : String} (h : groupLen P es r ≤ j) : slotOf P es j r = none := by
  have hfm : findMatch P es j r = none := by
    rw [findMatch_eq_none_iff]
    intro kv hkv hm
    exact absurd (lt_groupLen_of_mem hkv hm) (not_lt.mpr h)
  simp [slotOf, hfm]

theorem getD_range_map {L : Nat} {f : Nat → Option Val} {i : Nat} :
    ((List.range L).map f).getD i none = if i < L then f i else none := by
  rw [List.getD_eq_getElem?_getD, List.getElem?_map]
  by_cases h : i < L
  · simp [List.getElem?_range h, h]
  · have hnone : (List.range L)[i]? = none := by
      rw [List.getElem?_eq_none]
      simpa using not_lt.mp h
    simp [hnone, h]

/-- The `None`-padding extension step of `stack_state_dict`'s loop. -/
def extendTens (tens : List (Option Val)) (i : Nat) : List (Option Val) :=
  if tens.length ≤ i then tens ++ List.replicate (i + 1 - tens.length) none else tens

theorem stackStep_none_eval {P : String} {acc : StackAcc} {k : String} {v : Option Val}
    (hm : matchStacked P k = none) :
    stackStep P acc (k, v) = .ok { acc with vectorized := dictInsert acc.vectorized k v } := by
  simp only [stackStep, hm]

theorem stackStep_some_eval {P : String} {acc : StackAcc} {k : String} {v : Option Val}
    {i : Nat} {r0 : String} (hm : matchStacked P k = some (i, r0))
    {tens : List (Option Val)} (htens : (dictGet acc.groups r0).getD [] = tens)
    (hslot : (extendTens tens i).getD i none = none) :
    stackStep P acc (k, v)
      = .ok { acc with groups := dictInsert acc.groups r0 ((extendTens tens i).set i v) } := by
  simp only [extendTens] at hslot
  simp only [stackStep, hm, htens, extendTens, hslot]

theorem stackStep_dup_eval {P : String} {acc : StackAcc} {k : String} {v : Option Val}
    {i : Nat} {r0 : String} (hm : matchStacked P k = some (i, r0))
    {tens : List (Option Val)} (htens : (dictGet acc.groups r0).getD [] = tens)
    {w : Val} (hslot : (extendTens tens i).getD i none = some w) :
    stackStep P acc (k, v) = .error .assertionError := by
  simp only [extendTens] at hslot
  simp only [stackStep, hm, htens, hslot]

theorem length_extendTens (tens : List (Option Val)) (i : Nat) :
    (extendTens tens i).length = max tens.length (i + 1) := by
  simp only [extendTens]
  by_cases h : tens.length ≤ i <;> simp [h] <;> omega

theorem getD_extendTens (tens : List (Option Val)) (i n : Nat) :
    (extendTens tens i).getD n none = tens.getD n none := by
  simp only [extendTens]
  by_cases h : tens.length ≤ i
  · simp only [if_pos h]
    rw [List.getD_eq_getElem?_getD, List.getD_eq_getElem?_getD]
    by_cases hn : n < tens.length
    · rw [List.getElem?_append_left hn]
    · rw [List.getElem?_append_right (not_lt.mp hn), List.getElem?_replicate,
        List.getElem?_eq_none (not_lt.mp hn)]
      by_cases h2 : n - tens.length < i + 1 - tens.length <;> simp [h2]
  · simp only [if_neg h]

theorem getElem?_extendTens (tens : List (Option Val)) (i n : Nat) :
    (extendTens tens i)[n]? =
      if n < tens.length then tens[n]?
      else if n < max tens.length (i + 1) then some none else none := by
  simp only [extendTens]
  by_cases h : tens.length ≤ i
  · rw [if_pos h]
    by_cases hn : n < tens.length
    · rw [List.getElem?_append_left hn, if_pos hn]
    · rw [List.getElem?_append_right (not_lt.mp hn), if_neg hn, List.getElem?_replicate]
      have hmax : max tens.length (i + 1) = i + 1 := by omega
      rw [hmax]
      by_cases h2 : n < i + 1
      · rw [if_pos (by omega), if_pos h2]
      · rw [if_neg (by omega), if_neg h2]
  · rw [if_neg h]
    have hmax : max tens.length (i + 1) = tens.length := by omega
    rw [hmax]
    by_cases hn : n < tens.length
    · rw [if_pos hn]
    · rw [if_neg hn, if_neg hn, List.getElem?_eq_none (not_lt.mp hn)]

theorem mem_dictKeys_dictInsert {α : Type} {d : PyDict α} {k a : String} {v : α} :
    a ∈ dictKeys (dictInsert d k v) ↔ a ∈ dictKeys d ∨ a = k := by
  induction d with
  | nil => simp [dictInsert, dictKeys]
  | cons e rest ih =>
      obtain ⟨k', v'⟩ := e
      by_cases hk : k' = k
      · subst hk
        have hred : dictInsert ((k', v') :: rest) k' v = (k', v) :: rest := by
          simp [dictInsert]
        rw [hred]
        simp only [dictKeys, List.map_cons, List.mem_cons]
        tauto
      · simp only [dictInsert, hk, if_false, dictKeys, List.map_cons, List.mem_cons]
        rw [show (List.map Prod.fst (dictInsert rest k v)) = dictKeys (dictInsert rest k v) from rfl]
        rw [ih]
        tauto

theorem NodupKeys_dictInsert {α : Type} {d : PyDict α} (k : String) (v : α)
    (h : NodupKeys d) : NodupKeys (dictInsert d k v) := by
  induction d with
  | nil => simp [dictInsert, NodupKeys, dictKeys]
  | cons e rest ih =>
      obtain ⟨k', v'⟩ := e
      by_cases hk : k' = k
      · subst hk
        simpa [dictInsert, NodupKeys, dictKeys] using h
      · simp only [dictInsert, hk, if_false]
        simp only [NodupKeys, dictKeys, List.map_cons, List.nodup_cons] at h ⊢
        refine ⟨?_, ih h.2⟩
        rw [show (List.map Prod.fst (dictInsert rest k v)) = dictKeys (dictInsert rest k v) from rfl,
          mem_dictKeys_dictInsert]
        rintro (hmem | rfl)
        · exact h.1 hmem
        · exact hk rfl

/-- Full characterisation of the grouping loop of `stack_state_dict` when no
two distinct keys denote the same `(index, rest)` pair: the loop succeeds,
`vectorized_dict` holds exactly the non-matching entries, and each group `r`
holds `groupLen` slots with `slotOf` contents. -/
theorem stackFold_ok (P : String) (es : PyDict (Option Val)) :
    NodupKeys es → DistinctMatches P es →
    ∃ acc : StackAcc,
      es.foldlM (stackStep P) (⟨[], []⟩ : StackAcc) = .ok acc ∧
      acc.vectorized = es.filter (fun kv => (matchStacked P kv.1).isNone) ∧
      (∀ r, dictGet acc.groups r =
        if groupLen P es r = 0 then none
        else some ((List.range (groupLen P es r)).map (fun j => slotOf P es j r))) ∧
      NodupKeys acc.groups := by
  induction es using List.reverseRecOn with
  | nil =>
      intro _ _
      refine ⟨⟨[], []⟩, rfl, rfl, fun r => ?_, List.nodup_nil⟩
      simp [groupLen, dictGet]
  | append_singleton es kv ih =>
      intro hnd hdm
      obtain ⟨k, v⟩ := kv
      have hnd' : NodupKeys es := by
        simp only [NodupKeys, dictKeys, List.map_append] at hnd
        exact (List.nodup_append.mp hnd).1
      have hfresh : k ∉ dictKeys es := by
        simp only [NodupKeys, dictKeys, List.map_append] at hnd
        intro hmem
        exact (List.nodup_append.mp hnd).2.2 hmem (by simp)
      have hdm' : DistinctMatches P es := fun a ha b hb pr h1 h2 =>
        hdm a (List.mem_append_left _ ha) b (List.mem_append_left _ hb) pr h1 h2
      obtain ⟨acc, hfold, hvec, hgr, hgnd⟩ := ih hnd' hdm'
      rcases hm : matchStacked P k with _ | ⟨i, r0⟩
      · -- non-matching entry: goes to vectorized_dict
        refine ⟨{ acc with vectorized := dictInsert acc.vectorized k v }, ?_, ?_, ?_, hgnd⟩
        · rw [List.foldlM_append, hfold]
          show List.foldlM (stackStep P) acc [(k, v)] = _
          rw [List.foldlM_cons, stackStep_none_eval hm]
          rfl
        · have hfree : dictGet acc.vectorized k = none := by
            rw [hvec, dictGet_eq_none_iff]
            intro hk
            obtain ⟨kv', hmem, hfst⟩ := List.mem_map.mp hk
            exact hfresh (hfst ▸ List.mem_map_of_mem Prod.fst (List.mem_of_mem_filter hmem))
          rw [dictInsert_fresh v hfree, hvec, List.filter_append]
          simp [hm]
        · intro r
          rw [groupLen_append_none r hm]
          have hs : ∀ j, slotOf P (es ++ [(k, v)]) j r = slotOf P es j r := fun j => by
            unfold slotOf
            rw [findMatch_append_miss (by simp [hm])]
          simp only [hs]
          exact hgr r
      · -- matching entry: goes into its group's slot list
        set L0 := groupLen P es r0 with hL0
        set tens := (List.range L0).map (fun j => slotOf P es j r0) with htensdef
        have htens : (dictGet acc.groups r0).getD [] = tens := by
          rw [hgr r0]
          by_cases h0 : L0 = 0
          · rw [if_pos h0, htensdef, h0]
            simp
          · rw [if_neg h0]
            rfl
        have hnomatch : findMatch P es i r0 = none := by
          rw [findMatch_eq_none_iff]
          intro kv' hkv' hm'
          have heqk : kv'.1 = k := hdm kv' (List.mem_append_left _ hkv') (k, v)
            (List.mem_append_right _ (List.mem_singleton_self _)) (i, r0) hm' hm
          exact hfresh (heqk ▸ List.mem_map_of_mem Prod.fst hkv')
        have hslotnone : slotOf P es i r0 = none := by
          simp [slotOf, hnomatch]
        have hlen : tens.length = L0 := by simp [htensdef]
        have hgetd : (extendTens tens i).getD i none = none := by
          rw [getD_extendTens, htensdef, getD_range_map]
          by_cases h : i < L0 <;> simp [h, hslotnone]
        refine ⟨{ acc with groups := dictInsert acc.groups r0 ((extendTens tens i).set i v) },
          ?_, ?_, ?_, NodupKeys_dictInsert _ _ hgnd⟩
        · rw [List.foldlM_append, hfold]
          show List.foldlM (stackStep P) acc [(k, v)] = _
          rw [List.foldlM_cons, stackStep_some_eval hm htens hgetd]
          rfl
        · rw [hvec, List.filter_append]
          simp [hm]
        · intro r
          by_cases hr : r = r0
          · subst hr
            rw [dictGet_dictInsert_self]
            have hL1 : groupLen P (es ++ [(k, v)]) r = max L0 (i + 1) := by
              rw [groupLen_append_some r hm, if_pos rfl]
            have hpos : groupLen P (es ++ [(k, v)]) r ≠ 0 := by omega
            rw [if_neg hpos, hL1]
            congr 1
            apply List.ext_getElem?
            intro n
            rw [List.getElem?_set, List.getElem?_map]
            have hextlen : (extendTens tens i).length = max L0 (i + 1) := by
              rw [length_extendTens, hlen]
            by_cases hni : i = n
            · subst hni
              rw [if_pos rfl, if_pos (by omega : i < (extendTens tens i).length)]
              have hri : (List.range (max L0 (i + 1)))[i]? = some i :=
                List.getElem?_range (by omega)
              rw [hri]
              have : slotOf P (es ++ [(k, v)]) i r = v := by
                unfold slotOf
                rw [findMatch_append_hit hm hnomatch]
                rfl
              simp [this]
            · rw [if_neg hni]
              have hmiss : ¬ matchStacked P k = some (n, r) := by
                rw [hm]
                intro hc
                exact hni (congrArg Prod.fst (Option.some.inj hc))
              have hs : slotOf P (es ++ [(k, v)]) n r = slotOf P es n r := by
                unfold slotOf
                rw [findMatch_append_miss hmiss]
              rw [getElem?_extendTens, hlen]
              by_cases hn0 : n < L0
              · rw [if_pos hn0]
                have hrn : (List.range (max L0 (i + 1)))[n]? = some n :=
                  List.getElem?_range (by omega)
                rw [hrn, htensdef, List.getElem?_map]
                have hrn0 : (List.range L0)[n]? = some n := List.getElem?_range hn0
                rw [hrn0]
                simp [hs]
              · rw [if_neg hn0]
                by_cases hn1 : n < max L0 (i + 1)
                · rw [if_pos hn1]
                  have hrn : (List.range (max L0 (i + 1)))[n]? = some n :=
                    List.getElem?_range hn1
                  rw [hrn]
                  have : slotOf P es n r = none := slotOf_eq_none_of_ge (not_lt.mp hn0)
                  simp [hs, this]
                · rw [if_neg hn1]
                  have hrn : (List.range (max L0 (i + 1)))[n]? = none := by
                    rw [List.getElem?_eq_none]
                    simpa using not_lt.mp hn1
                  rw [hrn]
                  rfl
          · rw [dictGet_dictInsert_ne _ _ hr]
            have hgl : groupLen P (es ++ [(k, v)]) r = groupLen P es r := by
              rw [groupLen_append_some r hm, if_neg (fun h => hr h.symm)]
            rw [hgl]
            have hs : ∀ j, slotOf P (es ++ [(k, v)]) j r = slotOf P es j r := fun j => by
              have hmiss : ¬ matchStacked P k = some (j, r) := by
                rw [hm]
                intro hc
                exact hr (congrArg Prod.snd (Option.some.inj hc)).symm
              unfold slotOf
              rw [findMatch_append_miss hmiss]
            simp only [hs]
            exact hgr r

theorem reduceOption_map_some {α : Type} (vs : List α) :
    (vs.map some).reduceOption = vs := by
  induction vs with
  | nil => rfl
  | cons a l ih => simp [List.reduceOption_cons_of_some, ih]

theorem allSome_map_some (vs : List Val) : allSome (vs.map some) = some vs := by
  induction vs with
  | nil => rfl
  | cons a l ih => simp [allSome, ih]

theorem npStack_of_all_some (vs : List Val) (hne : vs ≠ []) :
    npStack (vs.map some) = .ok (.stk vs) := by
  simp [npStack, allSome_map_some, List.isEmpty_iff, hne]

theorem npStack_error_valueError {ts : List (Option Val)} {e : Err}
    (h : npStack ts = .error e) : e = .valueError := by
  unfold npStack at h
  rcases hm : allSome ts with _ | vs <;> simp only [hm] at h
  · injection h with h; exact h.symm
  · by_cases hemp : vs.isEmpty
    · rw [if_pos hemp] at h
      injection h with h; exact h.symm
    · rw [if_neg hemp] at h
      cases h

theorem allSome_of_mem_none {ts : List (Option Val)} (h : none ∈ ts) :
    allSome ts = none := by
  induction ts with
  | nil => simp at h
  | cons a l ih =>
      rcases List.mem_cons.mp h with rfl | hl
      · rfl
      · rcases a with _ | w
        · rfl
        · simp [allSome, ih hl]

theorem npStack_of_mem_none {ts : List (Option Val)} (h : none ∈ ts) :
    npStack ts = .error .valueError := by
  simp [npStack, allSome_of_mem_none h]

theorem applyPrefixLeaf_some_eq (p r : String) :
    applyPrefixLeaf (some p) r = String.mk (p.data ++ '.' :: r.data) := by
  apply String.ext
  show (p ++ "." ++ r).data = p.data ++ '.' :: r.data
  rw [String.data_append, String.data_append]
  have hdot : ("." : String).data = ['.'] := rfl
  rw [hdot, List.append_assoc]
  rfl

theorem applyPrefixLeaf_inj (pfx : Option String) :
    Function.Injective (applyPrefixLeaf pfx) := by
  intro a b h
  cases pfx with
  | none => exact h
  | some p =>
      rw [applyPrefixLeaf_some_eq, applyPrefixLeaf_some_eq] at h
      have hd : p.data ++ '.' :: a.data = p.data ++ '.' :: b.data := congrArg String.data h
      have h2 := List.append_cancel_left hd
      apply String.ext
      injection h2

/-- The second loop of `stack_state_dict`: `numpy.stack` each group and store
it under `apply_prefix(prefix, block_key)`.  When every group holds a full,
nonempty run of values the loop appends the stacked entries to
`vectorized_dict`. -/
theorem foldGroups_ok (f : String → String) (hf : Function.Injective f)
    (g : PyDict (List (Option Val))) :
    ∀ init : PyDict (Option Val),
    (∀ kv ∈ g, ∃ vs : List Val, vs ≠ [] ∧ kv.2 = vs.map some) →
    (∀ kv ∈ g, dictGet init (f kv.1) = none) →
    NodupKeys g →
    g.foldlM (fun vd kv => do
        let v ← npStack kv.2
        pure (dictInsert vd (f kv.1) (some v))) init
      = .ok (init ++ g.map (fun kv => (f kv.1, some (Val.stk kv.2.reduceOption)))) := by
  induction g with
  | nil => intro init _ _ _; simp [List.foldlM_nil]; rfl
  | cons kv g' ih =>
      intro init hvals hfresh hnd
      obtain ⟨vs, hvne, hkv2⟩ := hvals kv (List.mem_cons_self _ _)
      have hnp : npStack kv.2 = .ok (.stk vs) := by
        rw [hkv2]; exact npStack_of_all_some vs hvne
      rw [List.foldlM_cons]
      have hstep : (do
          let v ← npStack kv.2
          pure (dictInsert init (f kv.1) (some v)) : Except Err (PyDict (Option Val)))
          = .ok (dictInsert init (f kv.1) (some (.stk vs))) := by
        rw [hnp]; rfl
      rw [hstep]
      show List.foldlM _ (dictInsert init (f kv.1) (some (.stk vs))) g' = _
      have hins : dictInsert init (f kv.1) (some (Val.stk vs))
          = init ++ [(f kv.1, some (Val.stk vs))] :=
        dictInsert_fresh _ (hfresh kv (List.mem_cons_self _ _))
      rw [hins]
      have hnd' : NodupKeys g' := (List.nodup_cons.mp hnd).2
      have hkey : kv.1 ∉ dictKeys g' := (List.nodup_cons.mp hnd).1
      have hfresh' : ∀ kv' ∈ g', dictGet (init ++ [(f kv.1, some (Val.stk vs))]) (f kv'.1) = none := by
        intro kv' hkv'
        rw [dictGet_append_right _ (hfresh kv' (List.mem_cons_of_mem _ hkv'))]
        have hne : f kv.1 ≠ f kv'.1 := by
          intro hc
          exact hkey ((hf hc) ▸ List.mem_map_of_mem Prod.fst hkv')
        simp [dictGet, hne]
      have hvals' : ∀ kv' ∈ g', ∃ vs : List Val, vs ≠ [] ∧ kv'.2 = vs.map some :=
        fun kv' h => hvals kv' (List.mem_cons_of_mem _ h)
      rw [ih _ hvals' hfresh' hnd']
      have hval : some (Val.stk kv.2.reduceOption) = some (Val.stk vs) := by
        rw [hkv2, reduceOption_map_some]
      simp [hval, List.append_assoc]

/-- The largest index of a group is attained by some entry. -/
theorem groupLen_attained {P : String} {es : PyDict (Option Val)} {r : String} :
    0 < groupLen P es r →
    ∃ kv ∈ es, matchStacked P kv.1 = some (groupLen P es r - 1, r) := by
  induction es using List.reverseRecOn with
  | nil => intro h; simp [groupLen] at h
  | append_singleton es kv ih =>
      intro h
      rcases hm : matchStacked P kv.1 with _ | ⟨j, r'⟩
      · rw [groupLen_append_none r hm] at h ⊢
        obtain ⟨kv', h1, h2⟩ := ih h
        exact ⟨kv', List.mem_append_left _ h1, h2⟩
      · by_cases hr : r' = r
        · rw [groupLen_append_some r hm, if_pos hr] at h ⊢
          by_cases hcmp : groupLen P es r ≤ j + 1
          · rw [max_eq_right hcmp]
            refine ⟨kv, List.mem_append_right _ (List.mem_singleton_self _), ?_⟩
            rw [hm, hr]
            simp
          · rw [max_eq_left (le_of_not_le hcmp)]
            obtain ⟨kv', h1, h2⟩ := ih (by omega)
            exact ⟨kv', List.mem_append_left _ h1, h2⟩
        · rw [groupLen_append_some r hm, if_neg hr] at h ⊢
          obtain ⟨kv', h1, h2⟩ := ih h
          exact ⟨kv', List.mem_append_left _ h1, h2⟩

/-- Under distinct matches and unique keys, the slot finder returns exactly
the matching entry's value. -/
theorem findMatch_eq_of_mem {P : String} {es : PyDict (Option Val)}
    (hnd : NodupKeys es) (hdm : DistinctMatches P es) {k : String} {v : Option Val}
    {j : Nat} {r : String} (hmem : (k, v) ∈ es)
    (hm : matchStacked P k = some (j, r)) : findMatch P es j r = some v := by
  induction es with
  | nil => simp at hmem
  | cons kv es' ih =>
      obtain ⟨k0, v0⟩ := kv
      have hnd' : NodupKeys es' := (List.nodup_cons.mp hnd).2
      have hk0 : k0 ∉ dictKeys es' := (List.nodup_cons.mp hnd).1
      by_cases hhit : matchStacked P k0 = some (j, r)
      · have hkeq : k0 = k :=
          hdm (k0, v0) (List.mem_cons_self _ _)
            (k, v) hmem (j, r) hhit hm
        subst hkeq
        have hv : v0 = v := by
          rcases List.mem_cons.mp hmem with he | hrest
          · exact (Prod.mk.injEq .. ▸ he.symm).2
          · exact absurd (List.mem_map_of_mem Prod.fst hrest) hk0
        subst hv
        simp [findMatch, List.findSome?_cons, hhit]
      · have hne : (k, v) ∈ es' := by
          rcases List.mem_cons.mp hmem with he | hrest
          · exfalso
            have : k0 = k := (Prod.mk.injEq .. ▸ he.symm).1
            exact hhit (this ▸ hm)
          · exact hrest
        have hdm' : DistinctMatches P es' := fun a ha b hb pr h1 h2 =>
          hdm a (List.mem_cons_of_mem _ ha) b (List.mem_cons_of_mem _ hb) pr h1 h2
        have := ih hnd' hdm' hne
        simpa [findMatch, List.findSome?_cons, hhit] using this

theorem eq_reduceOption_map_some {ts : List (Option Val)}
    (h : ∀ x ∈ ts, x ≠ none) : ts = ts.reduceOption.map some := by
  induction ts with
  | nil => rfl
  | cons a l ih =>
      rcases a with _ | w
      · exact absurd rfl (h none (List.mem_cons_self _ _))
      · simp only [List.reduceOption_cons_of_some, List.map_cons, List.cons.injEq, true_and]
        exact ih (fun x hx => h x (List.mem_cons_of_mem _ hx))

/-- The final slot list of group `r` after the grouping loop. -/
def stackedSlots (p : String) (sd : PyDict (Option Val)) (r : String) : List (Option Val) :=
  (List.range (groupLen p sd r)).map (fun j => slotOf p sd j r)

/-- Characterisation of `stack_state_dict` on a well-formed "unstacked" dict:
unique keys (`H1`); every key matching `prefix.<digits>.<rest>` is canonically
rendered and holds a non-`None` value (`H2`); indices are downward closed, so
each group is a dense `0..N-1` run (`H3`); and every key that starts with
`prefix + "."` does match the pattern (`H4`).  Then stacking succeeds and the
result consists of exactly the non-matching entries plus one stacked entry
per group. -/
theorem findMatch_some_elim {P : String} {es : PyDict (Option Val)} {j : Nat}
    {r : String} {v : Option Val} (h : findMatch P es j r = some v) :
    ∃ k, (k, v) ∈ es ∧ matchStacked P k = some (j, r) := by
  induction es with
  | nil => simp [findMatch, List.findSome?] at h
  | cons kv es' ih =>
      rw [findMatch, List.findSome?_cons] at h
      by_cases hm : matchStacked P kv.1 = some (j, r)
      · rw [if_pos hm] at h
        injection h with h
        subst h
        exact ⟨kv.1, by simp, hm⟩
      · rw [if_neg hm] at h
        obtain ⟨k, hmem, hk⟩ := ih h
        exact ⟨k, List.mem_cons_of_mem _ hmem, hk⟩

theorem dictEqv_of_mem_iff {α : Type} {d₁ d₂ : PyDict α} (h₁ : NodupKeys d₁)
    (h₂ : NodupKeys d₂) (h : ∀ kv, kv ∈ d₁ ↔ kv ∈ d₂) : DictEqv d₁ d₂ := by
  intro k
  rcases hg : dictGet d₁ k with _ | v
  · rcases hg2 : dictGet d₂ k with _ | v2
    · rfl
    · exfalso
      have hmem : (k, v2) ∈ d₁ := (h _).mpr (mem_of_dictGet_eq_some hg2)
      rw [dictGet_eq_some_of_mem h₁ hmem] at hg
      cases hg
  · rw [dictGet_eq_some_of_mem h₂ ((h _).mp (mem_of_dictGet_eq_some hg))]

theorem getElem?_stackedSlots {p : String} {sd : PyDict (Option Val)} {r : String}
    {j : Nat} :
    (stackedSlots p sd r)[j]? =
      if j < groupLen p sd r then some (slotOf p sd j r) else none := by
  rw [stackedSlots, List.getElem?_map]
  by_cases h : j < groupLen p sd r
  · rw [List.getElem?_range h, if_pos h]
    rfl
  · rw [if_neg h, List.getElem?_eq_none (by simpa using not_lt.mp h)]
    rfl

theorem slotOf_eq_some_iff {p : String} {sd : PyDict (Option Val)}
    (H1 : NodupKeys sd) (hdm : DistinctMatches p sd)
    (H2 : ∀ kv ∈ sd, ∀ pr : Nat × String, matchStacked p kv.1 = some pr →
      kv.1 = mkKey p pr.1 pr.2) {j : Nat} {r : String} {w : Val} :
    slotOf p sd j r = some w ↔ (mkKey p j r, some w) ∈ sd := by
  constructor
  · intro h
    rcases hfm : findMatch p sd j r with _ | v
    · simp [slotOf, hfm] at h
    · obtain ⟨k, hmem, hmk⟩ := findMatch_some_elim hfm
      have hk : k = mkKey p j r := H2 (k, v) hmem (j, r) hmk
      have hv : v = some w := by
        rw [slotOf, hfm] at h
        simpa [Option.join] using h
      rw [← hk, ← hv]
      exact hmem
  · intro hmem
    have := findMatch_eq_of_mem H1 hdm hmem (matchStacked_mkKey p j r)
    rw [slotOf, this]
    simp [Option.join]

/-- Under density, every slot of a live group holds a value. -/
theorem stackedSlots_all_some {p : String} {sd : PyDict (Option Val)}
    (H1 : NodupKeys sd) (hdm : DistinctMatches p sd)
    (H2 : ∀ kv ∈ sd, ∀ pr : Nat × String, matchStacked p kv.1 = some pr →
      kv.1 = mkKey p pr.1 pr.2 ∧ kv.2 ≠ none)
    (H3 : ∀ kv ∈ sd, ∀ pr : Nat × String, matchStacked p kv.1 = some pr →
      ∀ j ≤ pr.1, mkKey p j pr.2 ∈ dictKeys sd)
    (r : String) (hpos : 0 < groupLen p sd r) :
    ∀ x ∈ stackedSlots p sd r, x ≠ none := by
  intro x hx
  simp only [stackedSlots, List.mem_map, List.mem_range] at hx
  obtain ⟨j, hj, rfl⟩ := hx
  obtain ⟨kv0, hkv0, hm0⟩ := groupLen_attained hpos
  have hjmem : mkKey p j r ∈ dictKeys sd :=
    H3 kv0 hkv0 (groupLen p sd r - 1, r) hm0 j (by omega)
  obtain ⟨v, hv⟩ := dictGet_isSome_of_mem hjmem
  have hmemv : (mkKey p j r, v) ∈ sd := mem_of_dictGet_eq_some hv
  have hmkm : matchStacked p (mkKey p j r) = some (j, r) := matchStacked_mkKey p j r
  have hfm : findMatch p sd j r = some v := findMatch_eq_of_mem H1 hdm hmemv hmkm
  have hvne : v ≠ none := (H2 _ hmemv (j, r) hmkm).2
  rw [slotOf, hfm]
  simpa [Option.join] using hvne

theorem reduceOption_getElem?_iff {ts : List (Option Val)}
    (h : ∀ x ∈ ts, x ≠ none) {j : Nat} {w : Val} :
    ts.reduceOption[j]? = some w ↔ ts[j]? = some (some w) := by
  have hts := eq_reduceOption_map_some h
  conv_rhs => rw [hts]
  rw [List.getElem?_map]
  rcases hro : ts.reduceOption[j]? with _ | w' <;> simp

theorem stack_char (p : String) (sd : PyDict (Option Val))
    (H1 : NodupKeys sd)
    (H2 : ∀ kv ∈ sd, ∀ pr : Nat × String, matchStacked p kv.1 = some pr →
      kv.1 = mkKey p pr.1 pr.2 ∧ kv.2 ≠ none)
    (H3 : ∀ kv ∈ sd, ∀ pr : Nat × String, matchStacked p kv.1 = some pr →
      ∀ j ≤ pr.1, mkKey p j pr.2 ∈ dictKeys sd)
    (H4 : ∀ kv ∈ sd, (p.data ++ ['.']) <+: kv.1.data → matchStacked p kv.1 ≠ none) :
    ∃ out, stack_state_dict sd (some p) = .ok out ∧ NodupKeys out ∧
      (∀ kv : String × Option Val, kv ∈ out ↔
        ((kv ∈ sd ∧ matchStacked p kv.1 = none) ∨
         (∃ r : String, 0 < groupLen p sd r ∧
           kv.1 = String.mk (p.data ++ '.' :: r.data) ∧
           kv.2 = some (.stk (stackedSlots p sd r).reduceOption)))) := by
  have hdm : DistinctMatches p sd := by
    intro kv₁ h₁ kv₂ h₂ pr m₁ m₂
    rw [(H2 kv₁ h₁ pr m₁).1, (H2 kv₂ h₂ pr m₂).1]
  obtain ⟨acc, hfold, hvec, hgr, hgnd⟩ := stackFold_ok p sd H1 hdm
  have hslots : ∀ r, 0 < groupLen p sd r → ∀ x ∈ stackedSlots p sd r, x ≠ none :=
    fun r hpos => stackedSlots_all_some H1 hdm H2 H3 r hpos
  have hgroupval : ∀ kv ∈ acc.groups,
      0 < groupLen p sd kv.1 ∧ kv.2 = stackedSlots p sd kv.1 := by
    intro kv hkv
    have hget : dictGet acc.groups kv.1 = some kv.2 :=
      dictGet_eq_some_of_mem hgnd (by exact (Prod.mk.eta ▸ hkv))
    rw [hgr kv.1] at hget
    by_cases h0 : groupLen p sd kv.1 = 0
    · rw [if_pos h0] at hget
      cases hget
    · rw [if_neg h0] at hget
      exact ⟨Nat.pos_of_ne_zero h0, by
        injection hget with hg
        exact hg.symm⟩
  have hvals : ∀ kv ∈ acc.groups, ∃ vs : List Val, vs ≠ [] ∧ kv.2 = vs.map some := by
    intro kv hkv
    obtain ⟨hpos, hval⟩ := hgroupval kv hkv
    refine ⟨kv.2.reduceOption, ?_, ?_⟩
    · intro hnil
      have hlen : kv.2 ≠ [] := by
        rw [hval]
        simp only [stackedSlots]
        intro hc
        have := congrArg List.length hc
        simp at this
        omega
      have := @eq_reduceOption_map_some kv.2 (by
        rw [hval]; exact hslots kv.1 hpos)
      rw [hnil] at this
      exact hlen (by simpa using this)
    · exact eq_reduceOption_map_some (by rw [hval]; exact hslots kv.1 hpos)
  have hfresh : ∀ kv ∈ acc.groups,
      dictGet acc.vectorized (applyPrefixLeaf (some p) kv.1) = none := by
    intro kv hkv
    rw [hvec, dictGet_eq_none_iff]
    intro hk
    simp only [dictKeys, List.mem_map] at hk
    obtain ⟨kv', hmem', hfst⟩ := hk
    have hkv'sd : kv' ∈ sd := List.mem_of_mem_filter hmem'
    have hnone : (matchStacked p kv'.1).isNone = true := (List.mem_filter.mp hmem').2
    have hpre : (p.data ++ ['.']) <+: kv'.1.data := by
      rw [hfst, applyPrefixLeaf_some_eq]
      exact ⟨kv.1.data, by simp⟩
    exact H4 kv' hkv'sd hpre (Option.isNone_iff_eq_none.mp hnone)
  have hmain : stack_state_dict sd (some p)
      = acc.groups.foldlM (fun vd kv => do
          let v ← npStack kv.2
          pure (dictInsert vd (applyPrefixLeaf (some p) kv.1) (some v))) acc.vectorized := by
    unfold stack_state_dict
    simp only [Option.getD_some, hfold]
    rfl
  refine ⟨acc.vectorized ++ acc.groups.map
      (fun kv => (applyPrefixLeaf (some p) kv.1, some (Val.stk kv.2.reduceOption))),
    ?_, ?_, ?_⟩
  · rw [hmain]
    exact foldGroups_ok _ (applyPrefixLeaf_inj (some p)) acc.groups acc.vectorized
      hvals hfresh hgnd
  · -- NodupKeys of the output
    have hv_nodup : (dictKeys acc.vectorized).Nodup := by
      rw [hvec]
      exact ((List.filter_sublist sd).map Prod.fst).nodup H1
    have hv_noprefix : ∀ x ∈ dictKeys acc.vectorized, ¬ (p.data ++ ['.']) <+: x.data := by
      intro x hx hpre
      rw [hvec] at hx
      simp only [dictKeys, List.mem_map] at hx
      obtain ⟨kv', hmem', rfl⟩ := hx
      exact H4 kv' (List.mem_of_mem_filter hmem') hpre
        (Option.isNone_iff_eq_none.mp (List.mem_filter.mp hmem').2)
    have hm_keys : dictKeys (acc.groups.map
        (fun kv => (applyPrefixLeaf (some p) kv.1, some (Val.stk kv.2.reduceOption))))
        = (dictKeys acc.groups).map (applyPrefixLeaf (some p)) := by
      simp [dictKeys, List.map_map, Function.comp]
    have hm_nodup : (dictKeys (acc.groups.map
        (fun kv => (applyPrefixLeaf (some p) kv.1, some (Val.stk kv.2.reduceOption))))).Nodup := by
      rw [hm_keys]
      exact hgnd.map (applyPrefixLeaf_inj (some p))
    rw [NodupKeys, dictKeys, List.map_append, List.nodup_append]
    refine ⟨hv_nodup, hm_nodup, ?_⟩
    intro x hx hx'
    have hx2 : x ∈ (dictKeys acc.groups).map (applyPrefixLeaf (some p)) := by
      rw [← hm_keys]; exact hx'
    obtain ⟨r, _, rfl⟩ := List.mem_map.mp hx2
    refine hv_noprefix _ hx ?_
    rw [applyPrefixLeaf_some_eq]
    exact ⟨r.data, by simp⟩
  · intro kv
    rw [List.mem_append]
    constructor
    · rintro (hv | hm)
      · left
        rw [hvec] at hv
        exact ⟨List.mem_of_mem_filter hv,
          Option.isNone_iff_eq_none.mp (List.mem_filter.mp hv).2⟩
      · right
        obtain ⟨ge, hge, himg⟩ := List.mem_map.mp hm
        obtain ⟨hpos, hval⟩ := hgroupval ge hge
        refine ⟨ge.1, hpos, ?_, ?_⟩
        · rw [← himg, applyPrefixLeaf_some_eq]
        · rw [← himg, hval]
    · rintro (⟨hmem, hnone⟩ | ⟨r, hpos, hkey, hval⟩)
      · left
        rw [hvec, List.mem_filter]
        exact ⟨hmem, by simp [hnone]⟩
      · right
        have hget : dictGet acc.groups r = some (stackedSlots p sd r) := by
          rw [hgr r, if_neg (by omega), stackedSlots]
        have hmem' : (r, stackedSlots p sd r) ∈ acc.groups := mem_of_dictGet_eq_some hget
        rw [List.mem_map]
        refine ⟨(r, stackedSlots p sd r), hmem', ?_⟩
        obtain ⟨k, v⟩ := kv
        simp only at hkey hval
        rw [hkey, hval, applyPrefixLeaf_some_eq]

/-! ## Characterising `unstack_state_dict` -/

theorem data_append_dot (p : String) : (p ++ ".").data = p.data ++ ['.'] := by
  rw [String.data_append]

theorem expandKey_eq_mkKey (p : String) (i : Nat) (r : String) :
    (p ++ ".") ++ natStr i ++ "." ++ r = mkKey p i r := by
  apply String.ext
  rw [String.data_append, String.data_append, String.data_append, data_append_dot]
  show p.data ++ ['.'] ++ natDigits i ++ ".".data ++ r.data = p.data ++ '.' :: (natDigits i ++ '.' :: r.data)
  have hdot : ("." : String).data = ['.'] := rfl
  rw [hdot]
  simp

theorem mem_expandEntries {p restKey : String} {vs : List Val} {kv : String × Option Val} :
    kv ∈ expandEntries (p ++ ".") restKey vs ↔
      ∃ j w, vs[j]? = some w ∧ kv = (mkKey p j restKey, some w) := by
  constructor
  · intro h
    simp only [expandEntries, List.mem_map] at h
    obtain ⟨iv, hmem, rfl⟩ := h
    refine ⟨iv.1, iv.2, List.mem_enum_iff_getElem?.mp hmem, ?_⟩
    rw [expandKey_eq_mkKey]
  · rintro ⟨j, w, hget, hkv⟩
    simp only [expandEntries, List.mem_map]
    refine ⟨(j, w), ?_, ?_⟩
    · rw [List.mem_enum_iff_getElem?]
      exact hget
    · rw [hkv, expandKey_eq_mkKey]

/-- The keys produced for one stacked entry are `mkKey p j restKey`. -/
theorem keys_expandEntries (p restKey : String) (vs : List Val) :
    (expandEntries (p ++ ".") restKey vs).map Prod.fst
      = (List.range vs.length).map (fun j => mkKey p j restKey) := by
  simp only [expandEntries, List.map_map]
  have : (Prod.fst ∘ fun iv : Nat × Val => ((p ++ ".") ++ natStr iv.1 ++ "." ++ restKey, some iv.2))
      = (fun j => mkKey p j restKey) ∘ Prod.fst := by
    funext iv
    simp [Function.comp, expandKey_eq_mkKey]
  rw [this, ← List.map_map, List.enum_map_fst]

/-- The image of one state-dict entry under `unstack_state_dict`. -/
def blockOf (p : String) (kv : String × Option Val) : PyDict (Option Val) :=
  if (p.data ++ ['.']).isPrefixOf kv.1.data then
    match kv.2 with
    | some (.stk vs) =>
        expandEntries (p ++ ".") (String.mk (kv.1.data.drop (p.data.length + 1))) vs
    | _ => [kv]
  else [kv]

/-- The full unstacked dict: each entry replaced by its block, in order. -/
def unstackedOf (p : String) (sd : PyDict (Option Val)) : PyDict (Option Val) :=
  sd.flatMap (blockOf p)

/-- A key that starts with `p ++ "."` is `p ++ "." ++ rest` for its rest. -/
theorem key_decomp {p k : String} (h : (p.data ++ ['.']) <+: k.data) :
    k = String.mk (p.data ++ '.' :: k.data.drop (p.data.length + 1)) := by
  obtain ⟨t, ht⟩ := h
  have hdrop : k.data.drop (p.data.length + 1) = t := by
    rw [← ht]
    have : p.data.length + 1 = (p.data ++ ['.']).length := by simp
    rw [this, List.drop_left]
  apply String.ext
  rw [hdrop, ← ht]
  simp

theorem mkKey_prefix (p : String) (j : Nat) (r : String) :
    (p.data ++ ['.']) <+: (mkKey p j r).data :=
  ⟨natDigits j ++ '.' :: r.data, by simp [mkKey]⟩

theorem mem_keys_blockOf {p : String} {kv : String × Option Val} {x : String}
    (hwf : (p.data ++ ['.']) <+: kv.1.data → ∃ vs, vs ≠ [] ∧ kv.2 = some (.stk vs))
    (hx : x ∈ dictKeys (blockOf p kv)) :
    (¬ (p.data ++ ['.']) <+: kv.1.data ∧ x = kv.1) ∨
    ((p.data ++ ['.']) <+: kv.1.data ∧
      ∃ j, x = mkKey p j (String.mk (kv.1.data.drop (p.data.length + 1)))) := by
  by_cases hpre : (p.data ++ ['.']).isPrefixOf kv.1.data = true
  · have hpre' := List.isPrefixOf_iff_prefix.mp hpre
    obtain ⟨vs, hvne, hv2⟩ := hwf hpre'
    right
    refine ⟨hpre', ?_⟩
    simp only [blockOf, hpre, if_true, hv2] at hx
    rw [dictKeys, keys_expandEntries] at hx
    obtain ⟨j, _, rfl⟩ := List.mem_map.mp hx
    exact ⟨j, rfl⟩
  · left
    simp only [blockOf, hpre, if_false] at hx
    refine ⟨fun hc => hpre (List.isPrefixOf_iff_prefix.mpr hc), ?_⟩
    simpa [dictKeys] using hx

theorem nodupKeys_blockOf {p : String} {kv : String × Option Val}
    (hwf : (p.data ++ ['.']) <+: kv.1.data → ∃ vs, vs ≠ [] ∧ kv.2 = some (.stk vs)) :
    (dictKeys (blockOf p kv)).Nodup := by
  by_cases hpre : (p.data ++ ['.']).isPrefixOf kv.1.data = true
  · obtain ⟨vs, hvne, hv2⟩ := hwf (List.isPrefixOf_iff_prefix.mp hpre)
    simp only [blockOf, hpre, if_true, hv2]
    rw [dictKeys, keys_expandEntries]
    exact (List.nodup_range _).map (fun a b h => (mkKey_inj h).1)
  · simp [blockOf, hpre, dictKeys]

theorem NodupKeys_unstackedOf (p : String) (sd : PyDict (Option Val))
    (U1 : NodupKeys sd)
    (U2 : ∀ kv ∈ sd, (p.data ++ ['.']) <+: kv.1.data →
      ∃ vs, vs ≠ [] ∧ kv.2 = some (.stk vs)) :
    NodupKeys (unstackedOf p sd) := by
  rw [NodupKeys, dictKeys, unstackedOf, List.map_flatMap]
  rw [List.nodup_flatMap]
  constructor
  · intro kv hkv
    exact nodupKeys_blockOf (U2 kv hkv)
  · have hpw : List.Pairwise (fun a b : String × Option Val => a.1 ≠ b.1) sd :=
      List.pairwise_map.mp U1
    refine hpw.imp_of_mem ?_
    intro a b ha hb hne x hxa hxb
    rcases mem_keys_blockOf (U2 a ha) hxa with ⟨hnp_a, rfl⟩ | ⟨hp_a, ja, hka⟩
    · rcases mem_keys_blockOf (U2 b hb) hxb with ⟨_, hkb⟩ | ⟨hp_b, jb, hkb⟩
      · exact hne (hkb ▸ rfl)
      · exact hnp_a (hkb ▸ mkKey_prefix p jb _)
    · rcases mem_keys_blockOf (U2 b hb) hxb with ⟨hnp_b, hkb⟩ | ⟨hp_b, jb, hkb⟩
      · exact hnp_b (by rw [← hkb, hka]; exact mkKey_prefix p ja _)
      · rw [hka] at hkb
        obtain ⟨-, hr⟩ := mkKey_inj hkb
        apply hne
        rw [key_decomp hp_a, key_decomp hp_b]
        have : a.1.data.drop (p.data.length + 1) = b.1.data.drop (p.data.length + 1) := by
          have := congrArg String.data hr
          simpa using this
        rw [this]

theorem foldl_dictInsert_fresh {α : Type} :
    ∀ (es : List (String × α)) (d : PyDict α),
    (∀ e ∈ es, dictGet d e.1 = none) → (es.map Prod.fst).Nodup →
    es.foldl (fun acc e => dictInsert acc e.1 e.2) d = d ++ es
  | [], d, _, _ => by simp
  | e :: es, d, hfr, hnd => by
      simp only [List.foldl_cons]
      rw [dictInsert_fresh e.2 (hfr e (List.mem_cons_self _ _))]
      have hnd' : (es.map Prod.fst).Nodup := (List.nodup_cons.mp hnd).2
      have hfr' : ∀ e' ∈ es, dictGet (d ++ [(e.1, e.2)]) e'.1 = none := by
        intro e' he'
        rw [dictGet_append_right _ (hfr e' (List.mem_cons_of_mem _ he'))]
        have hne : e.1 ≠ e'.1 := by
          intro hc
          exact (List.nodup_cons.mp hnd).1 (hc ▸ List.mem_map_of_mem Prod.fst he')
        simp [dictGet, hne]
      have := foldl_dictInsert_fresh es (d ++ [(e.1, e.2)]) hfr' hnd'
      rw [this]
      simp

theorem unstackStep_insert {pfx : String} {nd : PyDict (Option Val)} {k : String}
    {v : Option Val} (h : pfx.data.isPrefixOf k.data = false) :
    unstackStep pfx nd (k, v) = .ok (dictInsert nd k v) := by
  simp [unstackStep, h]

theorem unstackStep_expand {pfx : String} {nd : PyDict (Option Val)} {k : String}
    {vs : List Val} (h : pfx.data.isPrefixOf k.data = true) :
    unstackStep pfx nd (k, some (.stk vs))
      = .ok ((expandEntries pfx (String.mk (k.data.drop pfx.data.length)) vs).foldl
          (fun d e => dictInsert d e.1 e.2) nd) := by
  simp [unstackStep, h]

theorem unstack_fold (p : String) (sd : PyDict (Option Val)) :
    NodupKeys sd →
    (∀ kv ∈ sd, (p.data ++ ['.']) <+: kv.1.data →
      ∃ vs, vs ≠ [] ∧ kv.2 = some (.stk vs)) →
    sd.foldlM (unstackStep (p ++ ".")) [] = .ok (unstackedOf p sd) := by
  induction sd using List.reverseRecOn with
  | nil => intro _ _; rfl
  | append_singleton es kv ih =>
      intro hnd hwf
      obtain ⟨k, v⟩ := kv
      have hnd' : NodupKeys es := by
        simp only [NodupKeys, dictKeys, List.map_append] at hnd
        exact (List.nodup_append.mp hnd).1
      have hwf' : ∀ kv ∈ es, (p.data ++ ['.']) <+: kv.1.data →
          ∃ vs, vs ≠ [] ∧ kv.2 = some (.stk vs) :=
        fun kv h => hwf kv (List.mem_append_left _ h)
      rw [List.foldlM_append, ih hnd' hwf']
      show List.foldlM (unstackStep (p ++ ".")) (unstackedOf p es) [(k, v)] = _
      rw [List.foldlM_cons]
      have hnall := NodupKeys_unstackedOf p (es ++ [(k, v)]) hnd hwf
      have hsplit : unstackedOf p (es ++ [(k, v)])
          = unstackedOf p es ++ blockOf p (k, v) := by
        simp [unstackedOf, List.flatMap_append]
      have hdisj : ∀ x ∈ dictKeys (blockOf p (k, v)), x ∉ dictKeys (unstackedOf p es) := by
        rw [hsplit, NodupKeys, dictKeys, List.map_append, List.nodup_append] at hnall
        intro x hxb hxe
        exact hnall.2.2 hxe hxb
      by_cases hpre : (p ++ ".").data.isPrefixOf k.data = true
      · have hpb : (p.data ++ ['.']).isPrefixOf k.data = true := by
          rw [← data_append_dot]; exact hpre
        have hpre' : (p.data ++ ['.']) <+: k.data := List.isPrefixOf_iff_prefix.mp hpb
        obtain ⟨vs, hvne, hv⟩ :=
          hwf (k, v) (List.mem_append_right _ (List.mem_singleton_self _)) hpre'
        simp only at hv
        subst hv
        rw [unstackStep_expand hpre]
        have hblock : blockOf p (k, some (.stk vs))
            = expandEntries (p ++ ".")
                (String.mk (k.data.drop ((p ++ ".").data.length))) vs := by
          simp only [blockOf, hpb, if_true]
          rw [data_append_dot]
          simp
        have hfr : ∀ e ∈ expandEntries (p ++ ".")
            (String.mk (k.data.drop ((p ++ ".").data.length))) vs,
            dictGet (unstackedOf p es) e.1 = none := by
          intro e he
          rw [dictGet_eq_none_iff]
          intro hk
          refine hdisj e.1 ?_ hk
          rw [hblock]
          exact List.mem_map_of_mem Prod.fst he
        have hndk : ((expandEntries (p ++ ".")
            (String.mk (k.data.drop ((p ++ ".").data.length))) vs).map Prod.fst).Nodup := by
          have hn := @nodupKeys_blockOf p (k, some (.stk vs))
            (fun _ => ⟨vs, hvne, rfl⟩)
          rw [hblock] at hn
          exact hn
        rw [foldl_dictInsert_fresh _ _ hfr hndk, hsplit, hblock]
        rfl
      · have hpreF : (p ++ ".").data.isPrefixOf k.data = false := by
          rw [Bool.eq_false_iff]; exact hpre
        have hpbF : (p.data ++ ['.']).isPrefixOf k.data = false := by
          rw [← data_append_dot]; exact hpreF
        rw [unstackStep_insert hpreF]
        have hblock : blockOf p (k, v) = [(k, v)] := by
          simp [blockOf, hpbF]
        have hfresh : dictGet (unstackedOf p es) k = none := by
          rw [dictGet_eq_none_iff]
          intro hk
          refine hdisj k ?_ hk
          rw [hblock]
          simp [dictKeys]
        rw [dictInsert_fresh v hfresh, hsplit, hblock]
        rfl

/-- `unstack_state_dict` on a well-formed stacked dict replaces every entry
by its block of per-index entries, in order. -/
theorem unstack_char (p : String) (sd : PyDict (Option Val))
    (U1 : NodupKeys sd)
    (U2 : ∀ kv ∈ sd, (p.data ++ ['.']) <+: kv.1.data →
      ∃ vs, vs ≠ [] ∧ kv.2 = some (.stk vs)) :
    unstack_state_dict sd (some p) = .ok (unstackedOf p sd) :=
  unstack_fold p sd U1 U2

theorem mem_unstackedOf {p : String} {sd : PyDict (Option Val)}
    (U2 : ∀ kv ∈ sd, (p.data ++ ['.']) <+: kv.1.data →
      ∃ vs, vs ≠ [] ∧ kv.2 = some (.stk vs)) {kv : String × Option Val} :
    kv ∈ unstackedOf p sd ↔
      (∃ e ∈ sd, ¬ (p.data ++ ['.']) <+: e.1.data ∧ kv = e) ∨
      (∃ e ∈ sd, ∃ vs j w, (p.data ++ ['.']) <+: e.1.data ∧ e.2 = some (.stk vs) ∧
        vs[j]? = some w ∧
        kv = (mkKey p j (String.mk (e.1.data.drop (p.data.length + 1))), some w)) := by
  rw [unstackedOf, List.mem_flatMap]
  constructor
  · rintro ⟨e, he, hkv⟩
    by_cases hpre : (p.data ++ ['.']).isPrefixOf e.1.data = true
    · have hpre' := List.isPrefixOf_iff_prefix.mp hpre
      obtain ⟨vs, hvne, hv2⟩ := U2 e he hpre'
      simp only [blockOf, hpre, if_true, hv2] at hkv
      obtain ⟨j, w, hget, hkv'⟩ := mem_expandEntries.mp hkv
      exact Or.inr ⟨e, he, vs, j, w, hpre', hv2, hget, hkv'⟩
    · simp only [blockOf, hpre, Bool.false_eq_true, if_false, List.mem_singleton] at hkv
      exact Or.inl ⟨e, he, fun hc => hpre (List.isPrefixOf_iff_prefix.mpr hc), hkv⟩
  · rintro (⟨e, he, hnp, rfl⟩ | ⟨e, he, vs, j, w, hpre', hv2, hget, hkv⟩)
    · refine ⟨kv, he, ?_⟩
      have hpre : (p.data ++ ['.']).isPrefixOf kv.1.data = false := by
        rw [Bool.eq_false_iff]
        intro hc
        exact hnp (List.isPrefixOf_iff_prefix.mp hc)
      simp [blockOf, hpre]
    · refine ⟨e, he, ?_⟩
      have hpre : (p.data ++ ['.']).isPrefixOf e.1.data = true :=
        List.isPrefixOf_iff_prefix.mpr hpre'
      simp only [blockOf, hpre, if_true, hv2]
      exact mem_expandEntries.mpr ⟨j, w, hget, hkv⟩

/-- Distinct matches hold for any dict whose matching keys are canonical. -/
theorem distinctMatches_of_canonical {p : String} {sd : PyDict (Option Val)}
    (h : ∀ kv ∈ sd, ∀ pr : Nat × String, matchStacked p kv.1 = some pr →
      kv.1 = mkKey p pr.1 pr.2) : DistinctMatches p sd := by
  intro kv₁ h₁ kv₂ h₂ pr m₁ m₂
  rw [h kv₁ h₁ pr m₁, h kv₂ h₂ pr m₂]

theorem drop_stackedKey (p r : String) :
    String.mk ((String.mk (p.data ++ '.' :: r.data)).data.drop (p.data.length + 1)) = r := by
  apply String.ext
  show (p.data ++ '.' :: r.data).drop (p.data.length + 1) = r.data
  have hassoc : p.data ++ '.' :: r.data = (p.data ++ ['.']) ++ r.data := by simp
  have hlen2 : p.data.length + 1 = (p.data ++ ['.']).length := by simp
  rw [hassoc, hlen2, List.drop_left]

theorem stackedKey_prefix (p r : String) :
    (p.data ++ ['.']) <+: (String.mk (p.data ++ '.' :: r.data)).data :=
  ⟨r.data, by simp⟩

/-- Round trip on the unstacked side: stacking a well-formed unstacked dict
and then unstacking it reproduces the dict (as a Python `==` of dicts). -/
theorem stack_unstack_roundtrip (p : String) (U : PyDict (Option Val))
    (H1 : NodupKeys U)
    (H2 : ∀ kv ∈ U, ∀ pr : Nat × String, matchStacked p kv.1 = some pr →
      kv.1 = mkKey p pr.1 pr.2 ∧ kv.2 ≠ none)
    (H3 : ∀ kv ∈ U, ∀ pr : Nat × String, matchStacked p kv.1 = some pr →
      ∀ j ≤ pr.1, mkKey p j pr.2 ∈ dictKeys U)
    (H4 : ∀ kv ∈ U, (p.data ++ ['.']) <+: kv.1.data → matchStacked p kv.1 ≠ none) :
    ∃ V W, stack_state_dict U (some p) = .ok V ∧
      unstack_state_dict V (some p) = .ok W ∧ DictEqv W U := by
  have hdm : DistinctMatches p U :=
    distinctMatches_of_canonical (fun kv h pr hm => (H2 kv h pr hm).1)
  have hcanon : ∀ kv ∈ U, ∀ pr : Nat × String, matchStacked p kv.1 = some pr →
      kv.1 = mkKey p pr.1 pr.2 := fun kv h pr hm => (H2 kv h pr hm).1
  obtain ⟨V, hstack, hVnd, hVmem⟩ := stack_char p U H1 H2 H3 H4
  have hU2V : ∀ kv ∈ V, (p.data ++ ['.']) <+: kv.1.data →
      ∃ vs, vs ≠ [] ∧ kv.2 = some (.stk vs) := by
    intro kv hkv hpre
    rcases (hVmem kv).mp hkv with ⟨hmem, hnone⟩ | ⟨r, hpos, hkey, hval⟩
    · exact absurd hnone (H4 kv hmem hpre)
    · refine ⟨(stackedSlots p U r).reduceOption, ?_, hval⟩
      intro hnil
      have hall := stackedSlots_all_some H1 hdm H2 H3 r hpos
      have hmap := eq_reduceOption_map_some hall
      rw [hnil] at hmap
      have hlen := congrArg List.length hmap
      simp only [stackedSlots, List.length_map, List.length_range] at hlen
      simp at hlen
      omega
  have hunstack := unstack_char p V hVnd hU2V
  refine ⟨V, unstackedOf p V, hstack, hunstack, ?_⟩
  have hWnd : NodupKeys (unstackedOf p V) := NodupKeys_unstackedOf p V hVnd hU2V
  apply dictEqv_of_mem_iff hWnd H1
  intro kv
  rw [mem_unstackedOf hU2V]
  constructor
  · rintro (⟨e, he, hnp, rfl⟩ | ⟨e, he, vs, j, w, hpre, hv2, hget, rfl⟩)
    · rcases (hVmem kv).mp he with ⟨hmem, _⟩ | ⟨r, _, hkey, _⟩
      · exact hmem
      · exact absurd (hkey ▸ stackedKey_prefix p r) hnp
    · rcases (hVmem e).mp he with ⟨hmem, hnone⟩ | ⟨r, hpos, hkey, hval⟩
      · exact absurd hnone (H4 e hmem hpre)
      · have hrest : String.mk (e.1.data.drop (p.data.length + 1)) = r := by
          rw [hkey]
          exact drop_stackedKey p r
        have hvs : vs = (stackedSlots p U r).reduceOption := by
          rw [hv2] at hval
          exact Val.stk.inj (Option.some.inj hval)
        have hall := stackedSlots_all_some H1 hdm H2 H3 r hpos
        have hslot : slotOf p U j r = some w := by
          have h1 : (stackedSlots p U r).reduceOption[j]? = some w := by
            rw [← hvs]; exact hget
          have h2 := (reduceOption_getElem?_iff hall).mp h1
          rw [getElem?_stackedSlots] at h2
          by_cases hj : j < groupLen p U r
          · rw [if_pos hj] at h2
            exact Option.some.inj h2
          · rw [if_neg hj] at h2
            cases h2
        have hmemU := (slotOf_eq_some_iff H1 hdm hcanon).mp hslot
        rw [hrest]
        exact hmemU
  · intro hmem
    rcases hm : matchStacked p kv.1 with _ | ⟨i, r⟩
    · left
      refine ⟨kv, (hVmem kv).mpr (Or.inl ⟨hmem, hm⟩), ?_, rfl⟩
      intro hpre
      exact H4 kv hmem hpre hm
    · obtain ⟨hkey, hvne⟩ := H2 kv hmem (i, r) hm
      right
      have hpos : 0 < groupLen p U r := groupLen_pos_iff.mpr ⟨kv, hmem, i, hm⟩
      have hall := stackedSlots_all_some H1 hdm H2 H3 r hpos
      rcases hv : kv.2 with _ | w
      · exact absurd hv hvne
      · have hkvmem : (mkKey p i r, some w) ∈ U := by
          rw [← hkey, ← hv]
          simpa using hmem
        have hslot : slotOf p U i r = some w :=
          (slotOf_eq_some_iff H1 hdm hcanon).mpr hkvmem
        have hi : i < groupLen p U r := lt_groupLen_of_mem hmem hm
        refine ⟨(String.mk (p.data ++ '.' :: r.data),
            some (.stk (stackedSlots p U r).reduceOption)),
          (hVmem _).mpr (Or.inr ⟨r, hpos, rfl, rfl⟩),
          (stackedSlots p U r).reduceOption, i, w, stackedKey_prefix p r, rfl, ?_, ?_⟩
        · apply (reduceOption_getElem?_iff hall).mpr
          rw [getElem?_stackedSlots, if_pos hi, hslot]
        · rw [drop_stackedKey p r]
          exact Prod.ext hkey hv

theorem val_eq_of_mem_nodup {α : Type} {d : PyDict α} (hnd : NodupKeys d)
    {k : String} {v₁ v₂ : α} (h₁ : (k, v₁) ∈ d) (h₂ : (k, v₂) ∈ d) : v₁ = v₂ := by
  have e₁ := dictGet_eq_some_of_mem hnd h₁
  have e₂ := dictGet_eq_some_of_mem hnd h₂
  rw [e₁] at e₂
  exact Option.some.inj e₂

theorem unstackedOf_canonical {p : String} {S : PyDict (Option Val)}
    (S2 : ∀ kv ∈ S, (p.data ++ ['.']) <+: kv.1.data →
      ∃ vs, vs ≠ [] ∧ kv.2 = some (.stk vs)) :
    ∀ kv ∈ unstackedOf p S, ∀ pr : Nat × String, matchStacked p kv.1 = some pr →
      kv.1 = mkKey p pr.1 pr.2 ∧ kv.2 ≠ none := by
  intro kv hkv pr hm
  obtain ⟨i, r⟩ := pr
  rcases (mem_unstackedOf S2).mp hkv with ⟨e, he, hnp, rfl⟩ |
    ⟨e, he, vs, j, w, hpre, hv2, hget, rfl⟩
  · exfalso
    obtain ⟨ds, _, _, hkd, _⟩ := matchStacked_some_elim hm
    exact hnp ⟨ds ++ '.' :: r.data, by rw [hkd]; simp⟩
  · rw [matchStacked_mkKey] at hm
    have hpr := Option.some.inj hm
    obtain ⟨rfl, rfl⟩ : j = i ∧ String.mk (e.1.data.drop (p.data.length + 1)) = r := by
      exact ⟨congrArg Prod.fst hpr, congrArg Prod.snd hpr⟩
    exact ⟨rfl, by simp⟩

theorem unstackedOf_H4 {p : String} {S : PyDict (Option Val)}
    (S2 : ∀ kv ∈ S, (p.data ++ ['.']) <+: kv.1.data →
      ∃ vs, vs ≠ [] ∧ kv.2 = some (.stk vs)) :
    ∀ kv ∈ unstackedOf p S, (p.data ++ ['.']) <+: kv.1.data →
      matchStacked p kv.1 ≠ none := by
  intro kv hkv hpre
  rcases (mem_unstackedOf S2).mp hkv with ⟨e, he, hnp, rfl⟩ |
    ⟨e, he, vs, j, w, _, _, _, rfl⟩
  · exact absurd hpre hnp
  · rw [matchStacked_mkKey]
    simp

theorem unstackedOf_H3 {p : String} {S : PyDict (Option Val)}
    (S2 : ∀ kv ∈ S, (p.data ++ ['.']) <+: kv.1.data →
      ∃ vs, vs ≠ [] ∧ kv.2 = some (.stk vs)) :
    ∀ kv ∈ unstackedOf p S, ∀ pr : Nat × String, matchStacked p kv.1 = some pr →
      ∀ j ≤ pr.1, mkKey p j pr.2 ∈ dictKeys (unstackedOf p S) := by
  intro kv hkv pr hm j hj
  obtain ⟨i, r⟩ := pr
  rcases (mem_unstackedOf S2).mp hkv with ⟨e, he, hnp, rfl⟩ |
    ⟨e, he, vs, i', w, hpre, hv2, hget, rfl⟩
  · exfalso
    obtain ⟨ds, _, _, hkd, _⟩ := matchStacked_some_elim hm
    exact hnp ⟨ds ++ '.' :: r.data, by rw [hkd]; simp⟩
  · rw [matchStacked_mkKey] at hm
    have hpr := Option.some.inj hm
    have hi : i' = i := congrArg Prod.fst hpr
    have hr : String.mk (e.1.data.drop (p.data.length + 1)) = r := congrArg Prod.snd hpr
    have hilen : i' < vs.length := by
      rcases List.getElem?_eq_some_iff.mp hget with ⟨hlt, _⟩
      exact hlt
    have hjlen : j < vs.length := by omega
    obtain ⟨wj, hwj⟩ : ∃ wj, vs[j]? = some wj :=
      ⟨vs[j], List.getElem?_eq_getElem hjlen⟩
    have hmemV : (mkKey p j (String.mk (e.1.data.drop (p.data.length + 1))), some wj)
        ∈ unstackedOf p S :=
      (mem_unstackedOf S2).mpr (Or.inr ⟨e, he, vs, j, wj, hpre, hv2, hwj, rfl⟩)
    rw [← hr]
    exact List.mem_map_of_mem Prod.fst hmemV

/-- The slots that `stack_state_dict` recollects from an unstacked dict are
exactly the original stacked value, in order. -/
theorem stackedSlots_unstackedOf (p : String) (S : PyDict (Option Val))
    (S1 : NodupKeys S)
    (S2 : ∀ kv ∈ S, (p.data ++ ['.']) <+: kv.1.data →
      ∃ vs, vs ≠ [] ∧ kv.2 = some (.stk vs))
    {e : String × Option Val} (he : e ∈ S) {vs : List Val}
    (hpre : (p.data ++ ['.']) <+: e.1.data) (hv2 : e.2 = some (.stk vs))
    (hvne : vs ≠ []) :
    0 < groupLen p (unstackedOf p S) (String.mk (e.1.data.drop (p.data.length + 1))) ∧
    groupLen p (unstackedOf p S) (String.mk (e.1.data.drop (p.data.length + 1)))
      = vs.length ∧
    stackedSlots p (unstackedOf p S) (String.mk (e.1.data.drop (p.data.length + 1)))
      = vs.map some := by
  set r := String.mk (e.1.data.drop (p.data.length + 1)) with hrdef
  set V := unstackedOf p S with hVdef
  have hVnd : NodupKeys V := NodupKeys_unstackedOf p S S1 S2
  have hcanon := unstackedOf_canonical S2
  have hdmV : DistinctMatches p V :=
    distinctMatches_of_canonical (fun kv h pr hm => (hcanon kv h pr hm).1)
  have hexp : ∀ j, ∀ hj : j < vs.length, (mkKey p j r, some (vs.get ⟨j, hj⟩)) ∈ V := by
    intro j hj
    exact (mem_unstackedOf S2).mpr (Or.inr
      ⟨e, he, vs, j, vs.get ⟨j, hj⟩, hpre, hv2, by
        rw [List.getElem?_eq_getElem hj]
        rfl, rfl⟩)
  have hmatched : ∀ kv ∈ V, ∀ j : Nat, matchStacked p kv.1 = some (j, r) →
      ∃ hj : j < vs.length, kv = (mkKey p j r, some (vs.get ⟨j, hj⟩)) := by
    intro kv hkv j hm
    rcases (mem_unstackedOf S2).mp hkv with ⟨e', he', hnp, rfl⟩ |
      ⟨e', he', vs', j', w', hpre', hv2', hget', rfl⟩
    · exfalso
      obtain ⟨ds, _, _, hkd, _⟩ := matchStacked_some_elim hm
      exact hnp ⟨ds ++ '.' :: r.data, by rw [hkd]; simp⟩
    · rw [matchStacked_mkKey] at hm
      have hpr := Option.some.inj hm
      have hj' : j' = j := congrArg Prod.fst hpr
      have hr' : String.mk (e'.1.data.drop (p.data.length + 1)) = r := congrArg Prod.snd hpr
      have hke' : e'.1 = String.mk (p.data ++ '.' :: r.data) := by
        conv_lhs => rw [key_decomp hpre']
        rw [← hr']
      have hke : e.1 = String.mk (p.data ++ '.' :: r.data) := by
        conv_lhs => rw [key_decomp hpre]
      have hkeys : e'.1 = e.1 := by rw [hke', hke]
      have he'' : (e.1, e'.2) ∈ S := by
        rw [← hkeys]
        simpa using he'
      have he2 : (e.1, e.2) ∈ S := by simpa using he
      have hveq : e'.2 = e.2 := val_eq_of_mem_nodup S1 he'' he2
      have hvs' : vs' = vs := by
        rw [hveq, hv2] at hv2'
        exact (Val.stk.inj (Option.some.inj hv2')).symm
      subst hvs'
      subst hj'
      obtain ⟨hjlen, hw⟩ := List.getElem?_eq_some_iff.mp hget'
      refine ⟨hjlen, ?_⟩
      rw [hr', ← hw]
      rfl
  have h0 : 0 < vs.length := List.length_pos.mpr hvne
  have hpos : 0 < groupLen p V r :=
    groupLen_pos_iff.mpr ⟨_, hexp 0 h0, 0, matchStacked_mkKey p 0 r⟩
  have hub : groupLen p V r ≤ vs.length := by
    obtain ⟨kv0, hkv0, hm0⟩ := groupLen_attained hpos
    obtain ⟨hj, _⟩ := hmatched kv0 hkv0 _ hm0
    omega
  have hlb : vs.length ≤ groupLen p V r := by
    have hlast := hexp (vs.length - 1) (by omega)
    have := lt_groupLen_of_mem hlast (matchStacked_mkKey p (vs.length - 1) r)
    omega
  have hLen : groupLen p V r = vs.length := le_antisymm hub hlb
  have hslot : ∀ j, ∀ hj : j < vs.length, slotOf p V j r = some (vs.get ⟨j, hj⟩) := by
    intro j hj
    rw [slotOf, findMatch_eq_of_mem hVnd hdmV (hexp j hj) (matchStacked_mkKey p j r)]
    simp [Option.join]
  refine ⟨hpos, hLen, ?_⟩
  apply List.ext_getElem?
  intro n
  rw [getElem?_stackedSlots, hLen, List.getElem?_map]
  by_cases hn : n < vs.length
  · rw [if_pos hn, hslot n hn, List.getElem?_eq_getElem hn]
    rfl
  · rw [if_neg hn, List.getElem?_eq_none (not_lt.mp hn)]
    rfl

/-- Round trip on the stacked side: unstacking a well-formed stacked dict and
then stacking it reproduces the dict (as a Python `==` of dicts). -/
theorem unstack_stack_roundtrip (p : String) (S : PyDict (Option Val))
    (S1 : NodupKeys S)
    (S2 : ∀ kv ∈ S, (p.data ++ ['.']) <+: kv.1.data →
      ∃ vs, vs ≠ [] ∧ kv.2 = some (.stk vs)) :
    ∃ V W, unstack_state_dict S (some p) = .ok V ∧
      stack_state_dict V (some p) = .ok W ∧ DictEqv W S := by
  have hunstack := unstack_char p S S1 S2
  have hVnd : NodupKeys (unstackedOf p S) := NodupKeys_unstackedOf p S S1 S2
  obtain ⟨W, hstack, hWnd, hWmem⟩ := stack_char p (unstackedOf p S) hVnd
    (unstackedOf_canonical S2) (unstackedOf_H3 S2) (unstackedOf_H4 S2)
  refine ⟨unstackedOf p S, W, hunstack, hstack, ?_⟩
  apply dictEqv_of_mem_iff hWnd S1
  intro kv
  rw [hWmem kv]
  constructor
  · rintro (⟨hmemV, hnone⟩ | ⟨r, hpos, hkey, hval⟩)
    · rcases (mem_unstackedOf S2).mp hmemV with ⟨e, he, hnp, rfl⟩ |
        ⟨e, he, vs, j, w, hpre, hv2, hget, rfl⟩
      · exact he
      · rw [matchStacked_mkKey] at hnone
        cases hnone
    · obtain ⟨kv0, hkv0, hm0⟩ := groupLen_attained hpos
      rcases (mem_unstackedOf S2).mp hkv0 with ⟨e, he, hnp, rfl⟩ |
        ⟨e, he, vs, j', w', hpre, hv2, hget, rfl⟩
      · exfalso
        obtain ⟨ds, _, _, hkd, _⟩ := matchStacked_some_elim hm0
        exact hnp ⟨ds ++ '.' :: r.data, by rw [hkd]; simp⟩
      · rw [matchStacked_mkKey] at hm0
        have hr : String.mk (e.1.data.drop (p.data.length + 1)) = r :=
          congrArg Prod.snd (Option.some.inj hm0)
        have hvne : vs ≠ [] := by
          intro hnil
          rw [hnil] at hget
          simp at hget
        obtain ⟨_, hLen, hSlots⟩ := stackedSlots_unstackedOf p S S1 S2 he hpre hv2 hvne
        rw [hr] at hSlots
        have hval' : kv.2 = some (.stk vs) := by
          rw [hval, hSlots, reduceOption_map_some]
        have hkey' : kv.1 = e.1 := by
          rw [hkey]
          conv_rhs => rw [key_decomp hpre]
          rw [← hr]
        have hkve : kv = e := Prod.ext hkey' (hval'.trans hv2.symm)
        rw [hkve]
        exact he
  · intro hmem
    by_cases hpre : (p.data ++ ['.']) <+: kv.1.data
    · obtain ⟨vs, hvne, hv2⟩ := S2 kv hmem hpre
      right
      obtain ⟨hpos, hLen, hSlots⟩ := stackedSlots_unstackedOf p S S1 S2 hmem hpre hv2 hvne
      refine ⟨String.mk (kv.1.data.drop (p.data.length + 1)), hpos, ?_, ?_⟩
      · conv_lhs => rw [key_decomp hpre]
      · rw [hSlots, reduceOption_map_some]
        exact hv2
    · left
      refine ⟨(mem_unstackedOf S2).mpr (Or.inl ⟨kv, hmem, hpre, rfl⟩), ?_⟩
      rcases hm : matchStacked p kv.1 with _ | ⟨i, r⟩
      · rfl
      · exfalso
        obtain ⟨ds, _, _, hkd, _⟩ := matchStacked_some_elim hm
        exact hpre ⟨ds ++ '.' :: r.data, by rw [hkd]; simp⟩

/-- **C4.** For every state dict whose keys under a prefix carry a dense,
duplicate-free index run `0..N-1`, `unstack_state_dict` and `stack_state_dict`
are mutually inverse and preserve the exact key set and values: unstacking a
stacked dict (e.g. key `blocks.w` holding a stacked tensor) then stacking
reproduces it exactly (as Python dict equality), and stacking an unstacked
dict (keys `blocks.0.w`, `blocks.1.w`, …) then unstacking reproduces it
exactly; keys not matching the prefix pass through unchanged (they are in the
`DictEqv`-preserved key set on both sides). -/
theorem C4_stack_unstack_inverse :
    (∀ (p : String) (U : PyDict (Option Val)),
      NodupKeys U →
      (∀ kv ∈ U, ∀ pr : Nat × String, matchStacked p kv.1 = some pr →
        kv.1 = mkKey p pr.1 pr.2 ∧ kv.2 ≠ none) →
      (∀ kv ∈ U, ∀ pr : Nat × String, matchStacked p kv.1 = some pr →
        ∀ j ≤ pr.1, mkKey p j pr.2 ∈ dictKeys U) →
      (∀ kv ∈ U, (p.data ++ ['.']) <+: kv.1.data → matchStacked p kv.1 ≠ none) →
      ∃ V W, stack_state_dict U (some p) = .ok V ∧
        unstack_state_dict V (some p) = .ok W ∧ DictEqv W U) ∧
    (∀ (p : String) (S : PyDict (Option Val)),
      NodupKeys S →
      (∀ kv ∈ S, (p.data ++ ['.']) <+: kv.1.data →
        ∃ vs, vs ≠ [] ∧ kv.2 = some (.stk vs)) →
      ∃ V W, unstack_state_dict S (some p) = .ok V ∧
        stack_state_dict V (some p) = .ok W ∧ DictEqv W S) :=
  ⟨stack_unstack_roundtrip, unstack_stack_roundtrip⟩

/-- Witness for C4 at the spec's own example shapes: an unstacked dict with
keys `blocks.0.w`, `blocks.1.w` plus a passthrough key, and a stacked dict
with key `blocks.w` holding a 2-slot stacked value plus a passthrough key. -/
theorem C4_stack_unstack_inverse_witness :
    (∃ V W, stack_state_dict
        [("blocks.0.w", some (Val.atom 1)), ("blocks.1.w", some (Val.atom 2)),
          ("other", some (Val.atom 5))] (some "blocks") = .ok V ∧
        unstack_state_dict V (some "blocks") = .ok W ∧
        DictEqv W [("blocks.0.w", some (Val.atom 1)), ("blocks.1.w", some (Val.atom 2)),
          ("other", some (Val.atom 5))]) ∧
    (∃ V W, unstack_state_dict
        [("blocks.w", some (Val.stk [Val.atom 1, Val.atom 2])),
          ("other", some (Val.atom 5))] (some "blocks") = .ok V ∧
        stack_state_dict V (some "blocks") = .ok W ∧
        DictEqv W [("blocks.w", some (Val.stk [Val.atom 1, Val.atom 2])),
          ("other", some (Val.atom 5))]) := by
  have hmk1 : mkKey "blocks" 1 "w" = "blocks.1.w" := by
    norm_num [mkKey, natDigits]
    decide
  have hm0 : matchStacked "blocks" "blocks.0.w" = some (0, "w") := by decide
  have hm1 : matchStacked "blocks" "blocks.1.w" = some (1, "w") := by decide
  have hno : matchStacked "blocks" "other" = none := by decide
  constructor
  · apply C4_stack_unstack_inverse.1 "blocks"
    · unfold NodupKeys dictKeys
      decide
    · intro kv hkv pr hm
      simp only [List.mem_cons, List.not_mem_nil, or_false] at hkv
      rcases hkv with rfl | rfl | rfl
      · have hpr : pr = (0, "w") := (Option.some.inj (hm0.symm.trans hm)).symm
        subst hpr
        exact ⟨by decide, by decide⟩
      · have hpr : pr = (1, "w") := (Option.some.inj (hm1.symm.trans hm)).symm
        subst hpr
        exact ⟨hmk1.symm, by decide⟩
      · exact Option.noConfusion (hno.symm.trans hm)
    · intro kv hkv pr hm j hj
      simp only [List.mem_cons, List.not_mem_nil, or_false] at hkv
      rcases hkv with rfl | rfl | rfl
      · have hpr : pr = (0, "w") := (Option.some.inj (hm0.symm.trans hm)).symm
        subst hpr
        have hj0 : j = 0 := Nat.le_zero.mp hj
        subst hj0
        decide
      · have hpr : pr = (1, "w") := (Option.some.inj (hm1.symm.trans hm)).symm
        subst hpr
        interval_cases j
        · decide
        · rw [hmk1]
          decide
      · exact Option.noConfusion (hno.symm.trans hm)
    · intro kv hkv hp
      simp only [List.mem_cons, List.not_mem_nil, or_false] at hkv
      rcases hkv with rfl | rfl | rfl
      · decide
      · decide
      · exact absurd hp (by decide)
  · apply C4_stack_unstack_inverse.2 "blocks"
    · unfold NodupKeys dictKeys
      decide
    · intro kv hkv hp
      simp only [List.mem_cons, List.not_mem_nil, or_false] at hkv
      rcases hkv with rfl | rfl
      · exact ⟨[Val.atom 1, Val.atom 2], by decide, rfl⟩
      · exact absurd hp (by decide)

/-! ## C5: the dense, duplicate-free index requirement of `stack_state_dict` -/

theorem stackStep_error {P : String} {acc : StackAcc} {kv : String × Option Val}
    {e : Err} (h : stackStep P acc kv = .error e) : e = .assertionError := by
  rcases hm : matchStacked P kv.1 with _ | ⟨i, r⟩
  · rw [show kv = (kv.1, kv.2) from rfl, stackStep_none_eval hm] at h
    cases h
  · rcases hslot : (extendTens ((dictGet acc.groups r).getD []) i).getD i none with _ | w
    · rw [show kv = (kv.1, kv.2) from rfl, stackStep_some_eval hm rfl hslot] at h
      cases h
    · rw [show kv = (kv.1, kv.2) from rfl, stackStep_dup_eval hm rfl hslot] at h
      exact (Except.error.inj h).symm

theorem stackFold_error_assertion {P : String} {e : Err} :
    ∀ (es : PyDict (Option Val)) (acc₀ : StackAcc),
      es.foldlM (stackStep P) acc₀ = .error e → e = .assertionError := by
  intro es
  induction es with
  | nil =>
      intro acc₀ h
      cases h
  | cons kv es ih =>
      intro acc₀ h
      rw [List.foldlM_cons] at h
      rcases hstep : stackStep P acc₀ kv with e' | acc₁
      · rw [hstep] at h
        have h' : (Except.error e' : Except Err StackAcc) = Except.error e := h
        rw [← Except.error.inj h']
        exact stackStep_error hstep
      · rw [hstep] at h
        exact ih acc₁ h

theorem stackStep_preserves_slot {P : String} {acc acc' : StackAcc}
    {kv : String × Option Val} {i : Nat} {r : String} {w : Val}
    (hs : ((dictGet acc.groups r).getD []).getD i none = some w)
    (h : stackStep P acc kv = .ok acc') :
    ∃ w', ((dictGet acc'.groups r).getD []).getD i none = some w' := by
  rcases hm : matchStacked P kv.1 with _ | ⟨i', r'⟩
  · rw [show kv = (kv.1, kv.2) from rfl, stackStep_none_eval hm] at h
    have hg : acc'.groups = acc.groups :=
      (congrArg StackAcc.groups (Except.ok.inj h)).symm
    exact ⟨w, by rw [hg]; exact hs⟩
  · rcases hslot : (extendTens ((dictGet acc.groups r').getD []) i').getD i' none with _ | w₂
    · rw [show kv = (kv.1, kv.2) from rfl, stackStep_some_eval hm rfl hslot] at h
      have hg : acc'.groups
          = dictInsert acc.groups r'
              ((extendTens ((dictGet acc.groups r').getD []) i').set i' kv.2) :=
        (congrArg StackAcc.groups (Except.ok.inj h)).symm
      by_cases hr : r = r'
      · subst hr
        have hii : i ≠ i' := by
          intro hii
          subst hii
          rw [getD_extendTens, hs] at hslot
          cases hslot
        refine ⟨w, ?_⟩
        rw [hg, dictGet_dictInsert_self, Option.getD_some, List.getD_eq_getElem?_getD,
          List.getElem?_set_ne (Ne.symm hii), ← List.getD_eq_getElem?_getD,
          getD_extendTens]
        exact hs
      · refine ⟨w, ?_⟩
        rw [hg, dictGet_dictInsert_ne _ _ hr]
        exact hs
    · rw [show kv = (kv.1, kv.2) from rfl, stackStep_dup_eval hm rfl hslot] at h
      cases h

theorem stackFold_dup {P : String} {i : Nat} {r : String} {k₂ : String}
    {v₂ : Option Val} (h2 : matchStacked P k₂ = some (i, r)) :
    ∀ (l : List (String × Option Val)) (acc : StackAcc) (w : Val),
      ((dictGet acc.groups r).getD []).getD i none = some w →
      ∀ (tl : List (String × Option Val)),
      (l ++ (k₂, v₂) :: tl).foldlM (stackStep P) acc = .error .assertionError := by
  intro l
  induction l with
  | nil =>
      intro acc w hs tl
      rw [List.nil_append, List.foldlM_cons]
      have hslot : (extendTens ((dictGet acc.groups r).getD []) i).getD i none = some w := by
        rw [getD_extendTens]
        exact hs
      rw [stackStep_dup_eval h2 rfl hslot]
      rfl
  | cons a l ih =>
      intro acc w hs tl
      rw [List.cons_append, List.foldlM_cons]
      rcases hstep : stackStep P acc a with e' | acc₁
      · rw [stackStep_error hstep]
        rfl
      · obtain ⟨w', hs'⟩ := stackStep_preserves_slot hs hstep
        exact ih acc₁ w' hs' tl

theorem stack_dup_error {p : String} (l1 l2 l3 : PyDict (Option Val))
    {k₁ k₂ : String} (w : Val) (v₂ : Option Val) {i : Nat} {r : String}
    (h1 : matchStacked p k₁ = some (i, r)) (h2 : matchStacked p k₂ = some (i, r)) :
    stack_state_dict (l1 ++ ((k₁, some w) :: (l2 ++ ((k₂, v₂) :: l3)))) (some p)
      = .error .assertionError := by
  have hfold : (l1 ++ ((k₁, some w) :: (l2 ++ ((k₂, v₂) :: l3)))).foldlM (stackStep p)
      (⟨[], []⟩ : StackAcc) = .error .assertionError := by
    rw [List.foldlM_append]
    rcases hl1 : l1.foldlM (stackStep p) (⟨[], []⟩ : StackAcc) with e | acc₁
    · rw [stackFold_error_assertion l1 ⟨[], []⟩ hl1]
      rfl
    · show ((k₁, some w) :: (l2 ++ (k₂, v₂) :: l3)).foldlM (stackStep p) acc₁
        = .error .assertionError
      rw [List.foldlM_cons]
      rcases hslot : (extendTens ((dictGet acc₁.groups r).getD []) i).getD i none with _ | w₀
      · rw [stackStep_some_eval h1 rfl hslot]
        have hlen : i < (extendTens ((dictGet acc₁.groups r).getD []) i).length := by
          rw [length_extendTens]
          omega
        have hs : ((dictGet (dictInsert acc₁.groups r
            ((extendTens ((dictGet acc₁.groups r).getD []) i).set i (some w))) r).getD
              []).getD i none = some w := by
          rw [dictGet_dictInsert_self, Option.getD_some, List.getD_eq_getElem?_getD,
            List.getElem?_set_self hlen]
          rfl
        exact stackFold_dup h2 l2 _ w hs l3
      · rw [stackStep_dup_eval h1 rfl hslot]
        rfl
  unfold stack_state_dict
  simp only [Option.getD_some, hfold]
  rfl

theorem foldGroups_error_valueError (f : String → String) {e : Err} :
    ∀ (g : PyDict (List (Option Val))) (init : PyDict (Option Val)),
      g.foldlM (fun vd kv => do
          let v ← npStack kv.2
          pure (dictInsert vd (f kv.1) (some v))) init = .error e →
      e = .valueError := by
  intro g
  induction g with
  | nil =>
      intro init h
      cases h
  | cons a g ih =>
      intro init h
      rw [List.foldlM_cons] at h
      rcases hstep : npStack a.2 with e' | v
      · simp only [hstep] at h
        have h' : (Except.error e' : Except Err (PyDict (Option Val))) = Except.error e := h
        rw [← Except.error.inj h']
        exact npStack_error_valueError hstep
      · simp only [hstep] at h
        exact ih (dictInsert init (f a.1) (some v)) h

theorem foldGroups_must_error (f : String → String) :
    ∀ (g : PyDict (List (Option Val))) (init : PyDict (Option Val))
      (rk : String) (ts : List (Option Val)), (rk, ts) ∈ g →
      npStack ts = .error .valueError →
      ∃ e, g.foldlM (fun vd kv => do
          let v ← npStack kv.2
          pure (dictInsert vd (f kv.1) (some v))) init = .error e := by
  intro g
  induction g with
  | nil =>
      intro init rk ts hmem
      cases hmem
  | cons a g ih =>
      intro init rk ts hmem hnp
      rcases hstep : npStack a.2 with e' | v
      · exact ⟨e', by simp only [List.foldlM_cons, hstep]; rfl⟩
      · rcases List.mem_cons.mp hmem with heq | hmem'
        · have hq : npStack ts = npStack a.2 := congrArg (fun x => npStack x.2) heq
          rw [hnp, hstep] at hq
          cases hq
        · obtain ⟨e, he⟩ := ih (dictInsert init (f a.1) (some v)) rk ts hmem' hnp
          exact ⟨e, by simp only [List.foldlM_cons, hstep]; exact he⟩

theorem stack_gap_error {p : String} {sd : PyDict (Option Val)}
    (H1 : NodupKeys sd) (HD : DistinctMatches p sd)
    {r : String} {j : Nat} (hj : j < groupLen p sd r) (hnone : slotOf p sd j r = none) :
    stack_state_dict sd (some p) = .error .valueError := by
  obtain ⟨acc, hfold, hvec, hgroups, hgnd⟩ := stackFold_ok p sd H1 HD
  have hL : ¬ groupLen p sd r = 0 := by omega
  have hget : dictGet acc.groups r
      = some ((List.range (groupLen p sd r)).map (fun j => slotOf p sd j r)) := by
    rw [hgroups r, if_neg hL]
  have hmem : (r, (List.range (groupLen p sd r)).map (fun j => slotOf p sd j r)) ∈ acc.groups :=
    mem_of_dictGet_eq_some hget
  have hnone_mem : none ∈ (List.range (groupLen p sd r)).map (fun j => slotOf p sd j r) :=
    List.mem_map.mpr ⟨j, List.mem_range.mpr hj, hnone⟩
  have hnp : npStack ((List.range (groupLen p sd r)).map (fun j => slotOf p sd j r))
      = .error .valueError := npStack_of_mem_none hnone_mem
  obtain ⟨e, he⟩ := foldGroups_must_error (applyPrefixLeaf (some p)) acc.groups acc.vectorized
      r _ hmem hnp
  have hmain : stack_state_dict sd (some p)
      = acc.groups.foldlM (fun vd kv => do
          let v ← npStack kv.2
          pure (dictInsert vd (applyPrefixLeaf (some p) kv.1) (some v))) acc.vectorized := by
    unfold stack_state_dict
    simp only [Option.getD_some, hfold]
    rfl
  rw [hmain]
  rw [foldGroups_error_valueError _ _ _ he] at he
  exact he

/-- **C5.** `stack_state_dict` requires the indices found under the prefix to
form a dense, duplicate-free `0..N-1` run: a duplicate block index (two keys
parsing to the same `(index, rest)` pair, the first carrying a real tensor)
makes it fail with the fatal `AssertionError`, and a gap in the index run of
some group (a slot below the group's length that no stored tensor fills)
makes it fail with a fatal `ValueError` from `numpy.stack` rather than
silently skipping the missing index. -/
theorem C5_stack_dense_unique_indices :
    (∀ (p : String) (l1 l2 l3 : PyDict (Option Val)) (k₁ k₂ : String)
      (w : Val) (v₂ : Option Val) (i : Nat) (r : String),
      matchStacked p k₁ = some (i, r) → matchStacked p k₂ = some (i, r) →
      stack_state_dict (l1 ++ ((k₁, some w) :: (l2 ++ ((k₂, v₂) :: l3)))) (some p)
        = .error .assertionError) ∧
    (∀ (p : String) (sd : PyDict (Option Val)), NodupKeys sd → DistinctMatches p sd →
      ∀ (r : String) (j : Nat), j < groupLen p sd r → slotOf p sd j r = none →
      stack_state_dict sd (some p) = .error .valueError) :=
  ⟨fun _ l1 l2 l3 _ _ w v₂ _ _ h1 h2 => stack_dup_error l1 l2 l3 w v₂ h1 h2,
   fun _ _ H1 HD _ _ hj hnone => stack_gap_error H1 HD hj hnone⟩

/-- Witness for C5: `blocks.0.w` and `blocks.00.w` both parse to block index 0
(duplicate ⇒ `AssertionError`); indices `{0, 2}` leave a gap at 1
(⇒ `ValueError`). -/
theorem C5_stack_dense_unique_indices_witness :
    stack_state_dict [("blocks.0.w", some (Val.atom 1)), ("blocks.00.w", some (Val.atom 2))]
      (some "blocks") = .error .assertionError ∧
    stack_state_dict [("blocks.0.w", some (Val.atom 1)), ("blocks.2.w", some (Val.atom 3))]
      (some "blocks") = .error .valueError := by
  have hq0 : matchStacked "blocks" "blocks.0.w" = some (0, "w") := by decide
  have hq2 : matchStacked "blocks" "blocks.2.w" = some (2, "w") := by decide
  constructor
  · exact C5_stack_dense_unique_indices.1 "blocks" [] [] [] "blocks.0.w" "blocks.00.w"
      (Val.atom 1) (some (Val.atom 2)) 0 "w" hq0 (by decide)
  · refine C5_stack_dense_unique_indices.2 "blocks"
      [("blocks.0.w", some (Val.atom 1)), ("blocks.2.w", some (Val.atom 3))]
      ?_ ?_ "w" 1 (by decide) (by decide)
    · unfold NodupKeys dictKeys
      decide
    · intro kv₁ h₁ kv₂ h₂ pr hm₁ hm₂
      simp only [List.mem_cons, List.not_mem_nil, or_false] at h₁ h₂
      rcases h₁ with rfl | rfl <;> rcases h₂ with rfl | rfl
      · rfl
      · have e1 : pr = (0, "w") := (Option.some.inj (hq0.symm.trans hm₁)).symm
        have e2 : pr = (2, "w") := (Option.some.inj (hq2.symm.trans hm₂)).symm
        rw [e1] at e2
        exact absurd e2 (by decide)
      · have e1 : pr = (2, "w") := (Option.some.inj (hq2.symm.trans hm₁)).symm
        have e2 : pr = (0, "w") := (Option.some.inj (hq0.symm.trans hm₂)).symm
        rw [e1] at e2
        exact absurd e2 (by decide)
      · rfl

/-- **C10.** Because Python dict keys are unique, the `"Duplicate key"`
assertion in `stack_state_dict` can only fire when two distinct keys denote
the same block index through non-canonical decimal numerals; for every input
dict (with the dict invariant of unique keys) whose prefix-matching keys use
canonical decimal indices without leading zeros — i.e. every matching key is
literally `prefix.<canonical decimal>.<rest>` for its parsed pair — the
assertion branch is unreachable: the result is never `AssertionError`. -/
theorem C10_dup_assert_unreachable_for_canonical :
    ∀ (p : String) (sd : PyDict (Option Val)), NodupKeys sd →
    (∀ kv ∈ sd, ∀ pr : Nat × String, matchStacked p kv.1 = some pr →
      kv.1 = mkKey p pr.1 pr.2) →
    stack_state_dict sd (some p) ≠ .error .assertionError := by
  intro p sd H1 hcanon h
  have HD : DistinctMatches p sd := distinctMatches_of_canonical hcanon
  obtain ⟨acc, hfold, _, _, _⟩ := stackFold_ok p sd H1 HD
  have hmain : stack_state_dict sd (some p)
      = acc.groups.foldlM (fun vd kv => do
          let v ← npStack kv.2
          pure (dictInsert vd (applyPrefixLeaf (some p) kv.1) (some v))) acc.vectorized := by
    unfold stack_state_dict
    simp only [Option.getD_some, hfold]
    rfl
  rw [hmain] at h
  exact Err.noConfusion (foldGroups_error_valueError (applyPrefixLeaf (some p))
    acc.groups acc.vectorized h)

/-- Witness for C10: a canonically indexed dict (`blocks.0.w`, `blocks.1.w`
plus a passthrough key) never triggers the duplicate-key assertion. -/
theorem C10_dup_assert_unreachable_for_canonical_witness :
    stack_state_dict [("blocks.0.w", some (Val.atom 1)), ("blocks.1.w", some (Val.atom 2)),
        ("other", some (Val.atom 7))] (some "blocks") ≠ .error .assertionError := by
  have hmk1 : mkKey "blocks" 1 "w" = "blocks.1.w" := by
    norm_num [mkKey, natDigits]
    decide
  have hm0 : matchStacked "blocks" "blocks.0.w" = some (0, "w") := by decide
  have hm1 : matchStacked "blocks" "blocks.1.w" = some (1, "w") := by decide
  have hno : matchStacked "blocks" "other" = none := by decide
  apply C10_dup_assert_unreachable_for_canonical "blocks"
  · unfold NodupKeys dictKeys
    decide
  · intro kv hkv pr hm
    simp only [List.mem_cons, List.not_mem_nil, or_false] at hkv
    rcases hkv with rfl | rfl | rfl
    · have hpr : pr = (0, "w") := (Option.some.inj (hm0.symm.trans hm)).symm
      subst hpr
      decide
    · have hpr : pr = (1, "w") := (Option.some.inj (hm1.symm.trans hm)).symm
      subst hpr
      exact hmk1.symm
    · exact Option.noConfusion (hno.symm.trans hm)

/-! ## Embedding of the jax-tree ↔ state-dict codec

`jax_tree_from_state_dict` / `update_state_dict_with_jax_tree` /
`jax_tree_to_state_dict` from `torch_serialization.py`, over a universe of
module trees: eqx modules (with a `_state_dict_key_map` and per-field static
flags), lists, dicts, `NamedArray` leaves (axis names plus array), plain
tensor leaves, and `None`. -/

mutual
inductive PyTree where
  | module : PyDict (Option String) → PyFields → PyTree
  | plist : PyTrees → PyTree
  | pdict : PyDictT → PyTree
  | named : List String → Val → PyTree
  | leaf : Val → PyTree
  | pnone : PyTree
  deriving DecidableEq
inductive PyTrees where
  | nil : PyTrees
  | cons : PyTree → PyTrees → PyTrees
  deriving DecidableEq
inductive PyDictT where
  | nil : PyDictT
  | cons : String → PyTree → PyDictT → PyDictT
  deriving DecidableEq
inductive PyFields where
  | nil : PyFields
  | cons : String → Bool → PyTree → PyFields → PyFields
  deriving DecidableEq
end

/-- `key_map.get(field.name, field.name)` from the `default_eqx_module_*`
functions: the effective state-dict key of a field (`some` value in the map
may itself be `None`, meaning "serialize at the parent's prefix"). -/
def effKey (km : PyDict (Option String)) (name : String) : Option String :=
  (dictGet km name).getD (some name)

mutual
def update_state_dict_with_jax_tree :
    PyTree → PyDict Val → Option String → Except Err (PyDict Val)
  | .module km fs, sd, pfx => updateFields km fs sd pfx
  | .plist ts, sd, pfx => updateElems ts sd pfx 0
  | .pdict kvs, sd, pfx => updateDictEntries kvs sd pfx
  | .named _ v, sd, pfx =>
      match pfx with
      | some p => .ok (dictInsert sd p v)
      | none => .error .assertionError
  | .leaf v, sd, pfx =>
      match pfx with
      | some p => .ok (dictInsert sd p v)
      | none => .error .valueError
  | .pnone, sd, pfx =>
      match pfx with
      | some _ => .ok sd
      | none => .error .valueError
def updateElems : PyTrees → PyDict Val → Option String → Nat → Except Err (PyDict Val)
  | .nil, sd, _, _ => .ok sd
  | .cons t ts, sd, pfx, i => do
      let sd' ← update_state_dict_with_jax_tree t sd ( apply_prefix pfx (some (natStr i)))
      updateElems ts sd' pfx (i + 1)
def updateDictEntries : PyDictT → PyDict Val → Option String → Except Err (PyDict Val)
  | .nil, sd, _ => .ok sd
  | .cons k t kvs, sd, pfx => do
      let sd' ← update_state_dict_with_jax_tree t sd ( apply_prefix pfx (some k))
      updateDictEntries kvs sd' pfx
def updateFields :
    PyDict (Option String) → PyFields → PyDict Val → Option String → Except Err (PyDict Val)
  | _, .nil, sd, _ => .ok sd
  | km, .cons name st v fs, sd, pfx =>
      if st then updateFields km fs sd pfx
      else do
        let sd' ← update_state_dict_with_jax_tree v sd ( apply_prefix pfx (effKey km name))
        updateFields km fs sd' pfx
end

/-- `jax_tree_to_state_dict(tree, prefix)`: update an empty dict. -/
def jax_tree_to_state_dict (t : PyTree) (pfx : Option String) : Except Err (PyDict Val) :=
  update_state_dict_with_jax_tree t [] pfx

mutual
def jax_tree_from_state_dict : PyTree → PyDict Val → Option String → Except Err PyTree
  | .module km fs, sd, pfx => do
      let fs' ← fromFields km fs sd pfx
      pure (.module km fs')
  | .plist ts, sd, pfx => do
      let ts' ← fromElems ts sd pfx 0
      pure (.plist ts')
  | .pdict kvs, sd, pfx => do
      let kvs' ← fromDictEntries kvs sd pfx
      pure (.pdict kvs')
  | .named axes _, sd, pfx =>
      match pfx with
      | none => .error .valueError
      | some p =>
          match dictGet sd p with
          | some v => .ok (.named axes v)
          | none => .error .keyError
  | .leaf _, sd, pfx =>
      match pfx with
      | none => .error .valueError
      | some p =>
          match dictGet sd p with
          | some v => .ok (.leaf v)
          | none => .error .keyError
  | .pnone, sd, pfx =>
      match pfx with
      | none => .ok .pnone
      | some p =>
          match dictGet sd p with
          | some v => .ok (.leaf v)
          | none => .ok .pnone
def fromElems : PyTrees → PyDict Val → Option String → Nat → Except Err PyTrees
  | .nil, _, _, _ => .ok .nil
  | .cons t ts, sd, pfx, i => do
      let t' ← jax_tree_from_state_dict t sd ( apply_prefix pfx (some (natStr i)))
      let ts' ← fromElems ts sd pfx (i + 1)
      pure (.cons t' ts')
def fromDictEntries : PyDictT → PyDict Val → Option String → Except Err PyDictT
  | .nil, _, _ => .ok .nil
  | .cons k t kvs, sd, pfx => do
      let t' ← jax_tree_from_state_dict t sd ( apply_prefix pfx (some k))
      let kvs' ← fromDictEntries kvs sd pfx
      pure (.cons k t' kvs')
def fromFields :
    PyDict (Option String) → PyFields → PyDict Val → Option String → Except Err PyFields
  | _, .nil, _, _ => .ok .nil
  | km, .cons name st v fs, sd, pfx =>
      if st then do
        let fs' ← fromFields km fs sd pfx
        pure (.cons name st v fs')
      else do
        let v' ← jax_tree_from_state_dict v sd ( apply_prefix pfx (effKey km name))
        let fs' ← fromFields km fs sd pfx
        pure (.cons name st v' fs')
end

/-- `default_eqx_module_from_state_dict` on a module with key map `km` and
fields `fs` (the module branch of the recursion). -/
def default_eqx_module_from_state_dict (km : PyDict (Option String)) (fs : PyFields)
    (sd : PyDict Val) (pfx : Option String) : Except Err PyTree :=
  jax_tree_from_state_dict (.module km fs) sd pfx

/-- `default_update_state_dict_with_eqx_module` on a module (the module
branch of the serialize recursion). -/
def default_update_state_dict_with_eqx_module (sd : PyDict Val)
    (km : PyDict (Option String)) (fs : PyFields) (pfx : Option String) :
    Except Err (PyDict Val) :=
  update_state_dict_with_jax_tree (.module km fs) sd pfx



instance {ε α : Type} [DecidableEq ε] [DecidableEq α] : DecidableEq (Except ε α) := fun x y =>
  match x, y with
  | .ok a, .ok b =>
      if h : a = b then isTrue (by rw [h]) else isFalse (fun hx => h (Except.ok.inj hx))
  | .error e, .error f =>
      if h : e = f then isTrue (by rw [h]) else isFalse (fun hx => h (Except.error.inj hx))
  | .ok _, .error _ => isFalse (fun hx => Except.noConfusion hx)
  | .error _, .ok _ => isFalse (fun hx => Except.noConfusion hx)


/- The key/value pairs that serializing a tree under a prefix writes, in
write order (read off the recursion of `update_state_dict_with_jax_tree`). -/
mutual
def entries : PyTree → Option String → PyDict Val
  | .module km fs, pfx => entriesFields km fs pfx
  | .plist ts, pfx => entriesElems ts pfx 0
  | .pdict kvs, pfx => entriesDict kvs pfx
  | .named _ v, pfx =>
      match pfx with
      | some p => [(p, v)]
      | none => []
  | .leaf v, pfx =>
      match pfx with
      | some p => [(p, v)]
      | none => []
  | .pnone, _ => []
def entriesElems : PyTrees → Option String → Nat → PyDict Val
  | .nil, _, _ => []
  | .cons t ts, pfx, i =>
      entries t ( apply_prefix pfx (some (natStr i))) ++ entriesElems ts pfx (i + 1)
def entriesDict : PyDictT → Option String → PyDict Val
  | .nil, _ => []
  | .cons k t kvs, pfx => entries t ( apply_prefix pfx (some k)) ++ entriesDict kvs pfx
def entriesFields : PyDict (Option String) → PyFields → Option String → PyDict Val
  | _, .nil, _ => []
  | km, .cons name st v fs, pfx =>
      if st then entriesFields km fs pfx
      else entries v ( apply_prefix pfx (effKey km name)) ++ entriesFields km fs pfx
end

/-- A usable dot-free, nonempty key segment. -/
def goodSeg (s : String) : Bool := !s.data.isEmpty && s.data.all (fun c => c ≠ '.')

/-- The effective key of a field must be a present, usable segment. -/
def goodKey : Option String → Bool
  | some s => goodSeg s
  | none => false

/-- The effective keys of the non-static fields, in declaration order. -/
def fieldKeys (km : PyDict (Option String)) : PyFields → List String
  | .nil => []
  | .cons name st _ fs =>
      if st then fieldKeys km fs else ((effKey km name).getD "") :: fieldKeys km fs

def dictTKeys : PyDictT → List String
  | .nil => []
  | .cons k _ kvs => k :: dictTKeys kvs

/- Well-formedness for serialization: every module's non-static fields have
usable, pairwise-distinct effective keys, and every dict node has usable,
pairwise-distinct keys. -/
mutual
def wfT (t : PyTree) : Bool :=
  match t with
  | .module km fs => decide (fieldKeys km fs).Nodup && wfFields km fs
  | .plist ts => wfElems ts
  | .pdict kvs => decide (dictTKeys kvs).Nodup && wfDict kvs
  | .named _ _ => true
  | .leaf _ => true
  | .pnone => true
termination_by structural t
def wfElems (ts : PyTrees) : Bool :=
  match ts with
  | .nil => true
  | .cons t ts => wfT t && wfElems ts
termination_by structural ts
def wfDict (kvs : PyDictT) : Bool :=
  match kvs with
  | .nil => true
  | .cons k t kvs => goodSeg k && wfT t && wfDict kvs
termination_by structural kvs
def wfFields (km : PyDict (Option String)) (fs : PyFields) : Bool :=
  match fs with
  | .nil => true
  | .cons name st v fs =>
      if st then wfFields km fs
      else goodKey (effKey km name) && wfT v && wfFields km fs
termination_by structural fs
end

/- No `None` leaves anywhere in the serialized (non-static) part. -/
mutual
def noNoneT (t : PyTree) : Bool :=
  match t with
  | .module _ fs => noNoneFields fs
  | .plist ts => noNoneElems ts
  | .pdict kvs => noNoneDict kvs
  | .named _ _ => true
  | .leaf _ => true
  | .pnone => false
termination_by structural t
def noNoneElems (ts : PyTrees) : Bool :=
  match ts with
  | .nil => true
  | .cons t ts => noNoneT t && noNoneElems ts
termination_by structural ts
def noNoneDict (kvs : PyDictT) : Bool :=
  match kvs with
  | .nil => true
  | .cons _ t kvs => noNoneT t && noNoneDict kvs
termination_by structural kvs
def noNoneFields (fs : PyFields) : Bool :=
  match fs with
  | .nil => true
  | .cons _ st v fs => (st || noNoneT v) && noNoneFields fs
termination_by structural fs
end

/- The donor has the same shape as the template: same structure, key maps,
field names, static flags, axis names and dict keys, with static field
values equal (they are carried over verbatim), and arbitrary array leaves. -/
mutual
def sameShape (a b : PyTree) : Bool :=
  match a, b with
  | .module km fs, .module km' fs' => decide (km = km') && sameShapeFields fs fs'
  | .plist ts, .plist ts' => sameShapeElems ts ts'
  | .pdict kvs, .pdict kvs' => sameShapeDict kvs kvs'
  | .named ax _, .named ax' _ => decide (ax = ax')
  | .leaf _, .leaf _ => true
  | .pnone, .pnone => true
  | _, _ => false
termination_by structural a
def sameShapeElems (a b : PyTrees) : Bool :=
  match a, b with
  | .nil, .nil => true
  | .cons t ts, .cons t' ts' => sameShape t t' && sameShapeElems ts ts'
  | _, _ => false
termination_by structural a
def sameShapeDict (a b : PyDictT) : Bool :=
  match a, b with
  | .nil, .nil => true
  | .cons k t kvs, .cons k' t' kvs' =>
      decide (k = k') && sameShape t t' && sameShapeDict kvs kvs'
  | _, _ => false
termination_by structural a
def sameShapeFields (a b : PyFields) : Bool :=
  match a, b with
  | .nil, .nil => true
  | .cons n st v fs, .cons n' st' v' fs' =>
      decide (n = n') && decide (st = st')
        && (if st' then decide (v = v') else sameShape v v') && sameShapeFields fs fs'
  | _, _ => false
termination_by structural a
end

/-- Container nodes tolerate a `None` root prefix; bare leaves do not. -/
def isContainer : PyTree → Bool
  | .module _ _ => true
  | .plist _ => true
  | .pdict _ => true
  | _ => false

/-- `k` addresses the subtree rooted at prefix `c`: it is `c` itself or a
dot-extension of `c`. -/
def extOf (c k : String) : Prop := k = c ∨ (c.data ++ ['.']) <+: k.data

/-- The characters a prefix contributes before a child's segment. -/
def basePfx : Option String → List Char
  | none => []
  | some p => p.data ++ ['.']

theorem applyPrefixLeaf_eq_base (pfx : Option String) (s : String) :
    applyPrefixLeaf pfx s = String.mk (basePfx pfx ++ s.data) := by
  cases pfx with
  | none => rfl
  | some p =>
      rw [applyPrefixLeaf_some_eq]
      apply String.ext
      simp [basePfx]

theorem goodSeg_elim {s : String} (h : goodSeg s = true) :
    s.data ≠ [] ∧ ∀ c ∈ s.data, c ≠ '.' := by
  unfold goodSeg at h
  rw [Bool.and_eq_true] at h
  obtain ⟨h1, h2⟩ := h
  constructor
  · intro hnil
    rw [hnil] at h1
    cases h1
  · intro c hc
    exact of_decide_eq_true (List.all_eq_true.mp h2 c hc)

theorem goodKey_elim {o : Option String} (h : goodKey o = true) :
    ∃ s, o = some s ∧ goodSeg s = true := by
  cases o with
  | none => cases h
  | some s => exact ⟨s, rfl, h⟩

theorem goodSeg_natStr (i : Nat) : goodSeg (natStr i) = true := by
  unfold goodSeg natStr
  rw [Bool.and_eq_true]
  constructor
  · have := natDigits_ne_nil i
    cases hd : natDigits i with
    | nil => exact absurd hd this
    | cons a l => rfl
  · apply List.all_eq_true.mpr
    intro c hc
    exact decide_eq_true (natDigits_no_dot i c hc)

theorem extOf_cat {p s k : String}
    (h : extOf (applyPrefixLeaf (some p) s) k) : (p.data ++ ['.']) <+: k.data := by
  rw [applyPrefixLeaf_some_eq] at h
  rcases h with rfl | ⟨t, ht⟩
  · exact ⟨s.data, by simp⟩
  · refine ⟨s.data ++ '.' :: t, ?_⟩
    rw [← ht]
    simp

theorem extOf_ne {base : List Char} {s₁ s₂ : String}
    (d₁ : ∀ c ∈ s₁.data, c ≠ '.') (d₂ : ∀ c ∈ s₂.data, c ≠ '.')
    (hne : s₁ ≠ s₂) {k : String}
    (e₁ : extOf (String.mk (base ++ s₁.data)) k)
    (e₂ : extOf (String.mk (base ++ s₂.data)) k) : False := by
  have hdne : s₁.data ≠ s₂.data := fun h => hne (String.ext h)
  rcases e₁ with rfl | ⟨t₁, ht₁⟩
  · rcases e₂ with he₂ | ⟨t₂, ht₂⟩
    · have hd : base ++ s₁.data = base ++ s₂.data := congrArg String.data he₂
      exact hdne (List.append_cancel_left hd)
    · have hd : base ++ (s₂.data ++ '.' :: t₂) = base ++ s₁.data := by
        simpa using ht₂
      have hseg : s₂.data ++ '.' :: t₂ = s₁.data := List.append_cancel_left hd
      exact d₁ '.' (by rw [← hseg]; simp) rfl
  · rcases e₂ with he₂ | ⟨t₂, ht₂⟩
    · have hk : k.data = base ++ s₂.data := congrArg String.data he₂
      rw [hk] at ht₁
      have hd : base ++ (s₁.data ++ '.' :: t₁) = base ++ s₂.data := by
        simpa using ht₁
      have hseg : s₁.data ++ '.' :: t₁ = s₂.data := List.append_cancel_left hd
      exact d₂ '.' (by rw [← hseg]; simp) rfl
    · rw [← ht₂] at ht₁
      have hd : base ++ (s₁.data ++ '.' :: t₁) = base ++ (s₂.data ++ '.' :: t₂) := by
        simpa using ht₁
      have hseg : s₁.data ++ '.' :: t₁ = s₂.data ++ '.' :: t₂ :=
        List.append_cancel_left hd
      exact hdne (dotfree_append_inj s₁.data s₂.data t₁ t₂ d₁ d₂ hseg).1

theorem extOf_applyPrefixLeaf_ne {pfx : Option String} {s₁ s₂ : String}
    (g₁ : goodSeg s₁ = true) (g₂ : goodSeg s₂ = true) (hne : s₁ ≠ s₂) {k : String}
    (e₁ : extOf (applyPrefixLeaf pfx s₁) k) (e₂ : extOf (applyPrefixLeaf pfx s₂) k) :
    False := by
  rw [applyPrefixLeaf_eq_base] at e₁ e₂
  exact extOf_ne (goodSeg_elim g₁).2 (goodSeg_elim g₂).2 hne e₁ e₂

theorem natStr_injective : Function.Injective natStr :=
  fun _ _ h => natDigits_injective (congrArg String.data h)

theorem entriesFields_cons_static (km : PyDict (Option String)) (name : String)
    (v : PyTree) (fs : PyFields) (pfx : Option String) :
    entriesFields km (.cons name true v fs) pfx = entriesFields km fs pfx := by
  simp [entriesFields]

theorem entriesFields_cons_dyn (km : PyDict (Option String)) (name : String)
    (v : PyTree) (fs : PyFields) (pfx : Option String) :
    entriesFields km (.cons name false v fs) pfx
      = entries v ( apply_prefix pfx (effKey km name)) ++ entriesFields km fs pfx := by
  simp [entriesFields]

theorem wfFields_cons_static (km : PyDict (Option String)) (name : String)
    (v : PyTree) (fs : PyFields) :
    wfFields km (.cons name true v fs) = wfFields km fs := by
  simp [wfFields]

theorem wfFields_cons_dyn (km : PyDict (Option String)) (name : String)
    (v : PyTree) (fs : PyFields) :
    wfFields km (.cons name false v fs)
      = (goodKey (effKey km name) && wfT v && wfFields km fs) := by
  simp [wfFields]

theorem fieldKeys_cons_static (km : PyDict (Option String)) (name : String)
    (v : PyTree) (fs : PyFields) :
    fieldKeys km (.cons name true v fs) = fieldKeys km fs := by
  simp [fieldKeys]

theorem fieldKeys_cons_dyn (km : PyDict (Option String)) (name : String)
    (v : PyTree) (fs : PyFields) :
    fieldKeys km (.cons name false v fs)
      = ((effKey km name).getD "") :: fieldKeys km fs := by
  simp [fieldKeys]

theorem updateFields_cons_static (km : PyDict (Option String)) (name : String)
    (v : PyTree) (fs : PyFields) (sd : PyDict Val) (pfx : Option String) :
    updateFields km (.cons name true v fs) sd pfx = updateFields km fs sd pfx := by
  simp [updateFields]

theorem updateFields_cons_dyn (km : PyDict (Option String)) (name : String)
    (v : PyTree) (fs : PyFields) (sd : PyDict Val) (pfx : Option String) :
    updateFields km (.cons name false v fs) sd pfx
      = (do
          let sd' ← update_state_dict_with_jax_tree v sd ( apply_prefix pfx (effKey km name))
          updateFields km fs sd' pfx) := by
  simp [updateFields]

theorem fromFields_cons_static (km : PyDict (Option String)) (name : String)
    (v : PyTree) (fs : PyFields) (sd : PyDict Val) (pfx : Option String) :
    fromFields km (.cons name true v fs) sd pfx
      = (do
          let fs' ← fromFields km fs sd pfx
          pure (.cons name true v fs')) := by
  simp [fromFields]

theorem fromFields_cons_dyn (km : PyDict (Option String)) (name : String)
    (v : PyTree) (fs : PyFields) (sd : PyDict Val) (pfx : Option String) :
    fromFields km (.cons name false v fs) sd pfx
      = (do
          let v' ← jax_tree_from_state_dict v sd ( apply_prefix pfx (effKey km name))
          let fs' ← fromFields km fs sd pfx
          pure (.cons name false v' fs')) := by
  simp [fromFields]

theorem noNoneFields_cons (name : String) (st : Bool) (v : PyTree) (fs : PyFields) :
    noNoneFields (.cons name st v fs) = ((st || noNoneT v) && noNoneFields fs) := rfl

mutual
theorem entries_extOf : ∀ (t : PyTree) (c : String) (kv : String × Val),
    wfT t = true → kv ∈ entries t (some c) → extOf c kv.1
  | .module km fs, c, kv => fun hw hm => by
      unfold wfT at hw
      rw [Bool.and_eq_true] at hw
      exact Or.inr (entriesFields_extOf km fs c kv hw.2 hm)
  | .plist ts, c, kv => fun hw hm =>
      Or.inr (entriesElems_extOf ts c 0 kv hw hm)
  | .pdict kvs, c, kv => fun hw hm => by
      unfold wfT at hw
      rw [Bool.and_eq_true] at hw
      exact Or.inr (entriesDict_extOf kvs c kv hw.2 hm)
  | .named _ v, c, kv => fun _ hm => by
      have hkv : kv = (c, v) := List.mem_singleton.mp hm
      rw [hkv]
      exact Or.inl rfl
  | .leaf v, c, kv => fun _ hm => by
      have hkv : kv = (c, v) := List.mem_singleton.mp hm
      rw [hkv]
      exact Or.inl rfl
  | .pnone, c, kv => fun _ hm => absurd hm (List.not_mem_nil kv)
theorem entriesElems_extOf : ∀ (ts : PyTrees) (c : String) (i : Nat) (kv : String × Val),
    wfElems ts = true → kv ∈ entriesElems ts (some c) i → (c.data ++ ['.']) <+: kv.1.data
  | .nil, c, i, kv => fun _ hm => absurd hm (List.not_mem_nil kv)
  | .cons t ts, c, i, kv => fun hw hm => by
      unfold wfElems at hw
      rw [Bool.and_eq_true] at hw
      unfold entriesElems at hm
      rw [ apply_prefix_some] at hm
      rcases List.mem_append.mp hm with hl | hr
      · exact extOf_cat (entries_extOf t (applyPrefixLeaf (some c) (natStr i)) kv hw.1 hl)
      · exact entriesElems_extOf ts c (i + 1) kv hw.2 hr
theorem entriesDict_extOf : ∀ (kvs : PyDictT) (c : String) (kv : String × Val),
    wfDict kvs = true → kv ∈ entriesDict kvs (some c) → (c.data ++ ['.']) <+: kv.1.data
  | .nil, c, kv => fun _ hm => absurd hm (List.not_mem_nil kv)
  | .cons k t kvs, c, kv => fun hw hm => by
      unfold wfDict at hw
      rw [Bool.and_eq_true, Bool.and_eq_true] at hw
      unfold entriesDict at hm
      rw [ apply_prefix_some] at hm
      rcases List.mem_append.mp hm with hl | hr
      · exact extOf_cat (entries_extOf t (applyPrefixLeaf (some c) k) kv hw.1.2 hl)
      · exact entriesDict_extOf kvs c kv hw.2 hr
theorem entriesFields_extOf :
    ∀ (km : PyDict (Option String)) (fs : PyFields) (c : String) (kv : String × Val),
    wfFields km fs = true → kv ∈ entriesFields km fs (some c) → (c.data ++ ['.']) <+: kv.1.data
  | _, .nil, c, kv => fun _ hm => absurd hm (List.not_mem_nil kv)
  | km, .cons name true v fs, c, kv => fun hw hm => by
      rw [wfFields_cons_static] at hw
      rw [entriesFields_cons_static] at hm
      exact entriesFields_extOf km fs c kv hw hm
  | km, .cons name false v fs, c, kv => fun hw hm => by
      rw [wfFields_cons_dyn, Bool.and_eq_true, Bool.and_eq_true] at hw
      rw [entriesFields_cons_dyn] at hm
      obtain ⟨s, hs, hg⟩ := goodKey_elim hw.1.1
      rw [hs, apply_prefix_some] at hm
      rcases List.mem_append.mp hm with hl | hr
      · exact extOf_cat (entries_extOf v (applyPrefixLeaf (some c) s) kv hw.1.2 hl)
      · exact entriesFields_extOf km fs c kv hw.2 hr
end

theorem entriesFields_cover :
    ∀ (km : PyDict (Option String)) (fs : PyFields) (pfx : Option String) (kv : String × Val),
    wfFields km fs = true → kv ∈ entriesFields km fs pfx →
    ∃ s ∈ fieldKeys km fs, goodSeg s = true ∧ extOf (applyPrefixLeaf pfx s) kv.1
  | _, .nil, _, kv => fun _ hm => absurd hm (List.not_mem_nil kv)
  | km, .cons name true v fs, pfx, kv => fun hw hm => by
      rw [wfFields_cons_static] at hw
      rw [entriesFields_cons_static] at hm
      rw [fieldKeys_cons_static]
      exact entriesFields_cover km fs pfx kv hw hm
  | km, .cons name false v fs, pfx, kv => fun hw hm => by
      rw [wfFields_cons_dyn, Bool.and_eq_true, Bool.and_eq_true] at hw
      rw [entriesFields_cons_dyn] at hm
      rw [fieldKeys_cons_dyn]
      obtain ⟨s, hs, hg⟩ := goodKey_elim hw.1.1
      rcases List.mem_append.mp hm with hl | hr
      · refine ⟨s, ?_, hg, ?_⟩
        · rw [hs]
          exact List.mem_cons_self _ _
        · rw [hs, apply_prefix_some] at hl
          exact entries_extOf v (applyPrefixLeaf pfx s) kv hw.1.2 hl
      · obtain ⟨s', hs', hg', he'⟩ := entriesFields_cover km fs pfx kv hw.2 hr
        exact ⟨s', List.mem_cons_of_mem _ hs', hg', he'⟩

theorem entriesDict_cover :
    ∀ (kvs : PyDictT) (pfx : Option String) (kv : String × Val),
    wfDict kvs = true → kv ∈ entriesDict kvs pfx →
    ∃ s ∈ dictTKeys kvs, goodSeg s = true ∧ extOf (applyPrefixLeaf pfx s) kv.1
  | .nil, _, kv => fun _ hm => absurd hm (List.not_mem_nil kv)
  | .cons k t kvs, pfx, kv => fun hw hm => by
      unfold wfDict at hw
      rw [Bool.and_eq_true, Bool.and_eq_true] at hw
      unfold entriesDict at hm
      rcases List.mem_append.mp hm with hl | hr
      · refine ⟨k, List.mem_cons_self _ _, hw.1.1, ?_⟩
        rw [ apply_prefix_some] at hl
        exact entries_extOf t (applyPrefixLeaf pfx k) kv hw.1.2 hl
      · obtain ⟨s', hs', hg', he'⟩ := entriesDict_cover kvs pfx kv hw.2 hr
        exact ⟨s', List.mem_cons_of_mem _ hs', hg', he'⟩

theorem entriesElems_cover :
    ∀ (ts : PyTrees) (pfx : Option String) (i : Nat) (kv : String × Val),
    wfElems ts = true → kv ∈ entriesElems ts pfx i →
    ∃ j, i ≤ j ∧ extOf (applyPrefixLeaf pfx (natStr j)) kv.1
  | .nil, _, _, kv => fun _ hm => absurd hm (List.not_mem_nil kv)
  | .cons t ts, pfx, i, kv => fun hw hm => by
      unfold wfElems at hw
      rw [Bool.and_eq_true] at hw
      unfold entriesElems at hm
      rcases List.mem_append.mp hm with hl | hr
      · refine ⟨i, le_refl i, ?_⟩
        rw [ apply_prefix_some] at hl
        exact entries_extOf t (applyPrefixLeaf pfx (natStr i)) kv hw.1 hl
      · obtain ⟨j, hj, he⟩ := entriesElems_cover ts pfx (i + 1) kv hw.2 hr
        exact ⟨j, by omega, he⟩

theorem dictGet_append_none {α : Type} {d₁ d₂ : PyDict α} {k : String}
    (h₁ : dictGet d₁ k = none) (h₂ : dictGet d₂ k = none) :
    dictGet (d₁ ++ d₂) k = none := by
  rw [dictGet_append_right _ h₁]
  exact h₂

theorem not_mem_keys_of_extOf {d : PyDict Val} {pfx : Option String} {s₁ s₂ : String}
    (g₁ : goodSeg s₁ = true) (g₂ : goodSeg s₂ = true) (hne : s₁ ≠ s₂)
    (hall : ∀ kv ∈ d, extOf (applyPrefixLeaf pfx s₁) kv.1) {k : String}
    (hk : extOf (applyPrefixLeaf pfx s₂) k) : dictGet d k = none := by
  rw [dictGet_eq_none_iff]
  intro hmem
  obtain ⟨kv, hkv, hfst⟩ := List.mem_map.mp hmem
  rw [← hfst] at hk
  exact extOf_applyPrefixLeaf_ne g₁ g₂ hne (hall kv hkv) hk


theorem dictKeys_append {α : Type} (d₁ d₂ : PyDict α) :
    dictKeys (d₁ ++ d₂) = dictKeys d₁ ++ dictKeys d₂ :=
  List.map_append _ _ _

mutual
theorem update_char : ∀ (t : PyTree) (pfx : Option String) (sd : PyDict Val),
    wfT t = true → (pfx = none → isContainer t = true) →
    (∀ k ∈ dictKeys (entries t pfx), dictGet sd k = none) →
    update_state_dict_with_jax_tree t sd pfx = .ok (sd ++ entries t pfx)
  | .module km fs, pfx, sd => fun hw _ hf => by
      unfold wfT at hw
      rw [Bool.and_eq_true] at hw
      exact updateFields_char km fs pfx sd hw.2 (of_decide_eq_true hw.1) hf
  | .plist ts, pfx, sd => fun hw _ hf => updateElems_char ts pfx 0 sd hw hf
  | .pdict kvs, pfx, sd => fun hw _ hf => by
      unfold wfT at hw
      rw [Bool.and_eq_true] at hw
      exact updateDict_char kvs pfx sd hw.2 (of_decide_eq_true hw.1) hf
  | .named _ v, pfx, sd => fun _ hc hf => by
      cases pfx with
      | none => exact Bool.noConfusion (hc rfl)
      | some p =>
          show Except.ok (dictInsert sd p v) = .ok (sd ++ [(p, v)])
          rw [dictInsert_fresh v (hf p (by show p ∈ dictKeys [(p, v)]; simp [dictKeys]))]
  | .leaf v, pfx, sd => fun _ hc hf => by
      cases pfx with
      | none => exact Bool.noConfusion (hc rfl)
      | some p =>
          show Except.ok (dictInsert sd p v) = .ok (sd ++ [(p, v)])
          rw [dictInsert_fresh v (hf p (by show p ∈ dictKeys [(p, v)]; simp [dictKeys]))]
  | .pnone, pfx, sd => fun _ hc _ => by
      cases pfx with
      | none => exact Bool.noConfusion (hc rfl)
      | some p =>
          show Except.ok sd = .ok (sd ++ [])
          rw [List.append_nil]
theorem updateElems_char : ∀ (ts : PyTrees) (pfx : Option String) (i : Nat) (sd : PyDict Val),
    wfElems ts = true →
    (∀ k ∈ dictKeys (entriesElems ts pfx i), dictGet sd k = none) →
    updateElems ts sd pfx i = .ok (sd ++ entriesElems ts pfx i)
  | .nil, pfx, i, sd => fun _ _ => by
      show Except.ok sd = .ok (sd ++ [])
      rw [List.append_nil]
  | .cons t ts, pfx, i, sd => fun hw hf => by
      unfold wfElems at hw
      rw [Bool.and_eq_true] at hw
      have hcpfx : apply_prefix pfx (some (natStr i))
          = some (applyPrefixLeaf pfx (natStr i)) := apply_prefix_some pfx (natStr i)
      have hfL : ∀ k ∈ dictKeys (entries t ( apply_prefix pfx (some (natStr i)))),
          dictGet sd k = none := by
        intro k hk
        apply hf
        show k ∈ dictKeys (entries t ( apply_prefix pfx (some (natStr i)))
          ++ entriesElems ts pfx (i + 1))
        rw [dictKeys_append]
        exact List.mem_append_left _ hk
      have hupd := update_char t ( apply_prefix pfx (some (natStr i))) sd hw.1
        (fun h => by rw [hcpfx] at h; cases h) hfL
      show (do
        let sd' ← update_state_dict_with_jax_tree t sd ( apply_prefix pfx (some (natStr i)))
        updateElems ts sd' pfx (i + 1)) = _
      rw [hupd]
      show updateElems ts (sd ++ entries t ( apply_prefix pfx (some (natStr i)))) pfx (i + 1)
        = _
      have hfR : ∀ k ∈ dictKeys (entriesElems ts pfx (i + 1)),
          dictGet (sd ++ entries t ( apply_prefix pfx (some (natStr i)))) k = none := by
        intro k hk
        obtain ⟨kv, hkv, hfst⟩ := List.mem_map.mp hk
        obtain ⟨j, hj, hext⟩ := entriesElems_cover ts pfx (i + 1) kv hw.2 hkv
        refine dictGet_append_none ?_ ?_
        · apply hf
          show k ∈ dictKeys (entries t ( apply_prefix pfx (some (natStr i)))
            ++ entriesElems ts pfx (i + 1))
          rw [dictKeys_append]
          exact List.mem_append_right _ hk
        · rw [← hfst]
          refine not_mem_keys_of_extOf (goodSeg_natStr i) (goodSeg_natStr j)
            (fun h => by have := natStr_injective h; omega) ?_ hext
          · intro kv' hkv'
            rw [hcpfx] at hkv'
            exact entries_extOf t (applyPrefixLeaf pfx (natStr i)) kv' hw.1 hkv'
      rw [updateElems_char ts pfx (i + 1)
        (sd ++ entries t ( apply_prefix pfx (some (natStr i)))) hw.2 hfR]
      rw [List.append_assoc]
      rfl
theorem updateDict_char : ∀ (kvs : PyDictT) (pfx : Option String) (sd : PyDict Val),
    wfDict kvs = true → (dictTKeys kvs).Nodup →
    (∀ k ∈ dictKeys (entriesDict kvs pfx), dictGet sd k = none) →
    updateDictEntries kvs sd pfx = .ok (sd ++ entriesDict kvs pfx)
  | .nil, pfx, sd => fun _ _ _ => by
      show Except.ok sd = .ok (sd ++ [])
      rw [List.append_nil]
  | .cons k t kvs, pfx, sd => fun hw hnd hf => by
      unfold wfDict at hw
      rw [Bool.and_eq_true, Bool.and_eq_true] at hw
      have hnd' := List.nodup_cons.mp hnd
      have hcpfx : apply_prefix pfx (some k)
          = some (applyPrefixLeaf pfx k) := apply_prefix_some pfx k
      have hfL : ∀ x ∈ dictKeys (entries t ( apply_prefix pfx (some k))),
          dictGet sd x = none := by
        intro x hx
        apply hf
        show x ∈ dictKeys (entries t ( apply_prefix pfx (some k)) ++ entriesDict kvs pfx)
        rw [dictKeys_append]
        exact List.mem_append_left _ hx
      have hupd := update_char t ( apply_prefix pfx (some k)) sd hw.1.2
        (fun h => by rw [hcpfx] at h; cases h) hfL
      show (do
        let sd' ← update_state_dict_with_jax_tree t sd ( apply_prefix pfx (some k))
        updateDictEntries kvs sd' pfx) = _
      rw [hupd]
      show updateDictEntries kvs (sd ++ entries t ( apply_prefix pfx (some k))) pfx = _
      have hfR : ∀ x ∈ dictKeys (entriesDict kvs pfx),
          dictGet (sd ++ entries t ( apply_prefix pfx (some k))) x = none := by
        intro x hx
        obtain ⟨kv, hkv, hfst⟩ := List.mem_map.mp hx
        obtain ⟨s', hs', hg', hext⟩ := entriesDict_cover kvs pfx kv hw.2 hkv
        refine dictGet_append_none ?_ ?_
        · apply hf
          show x ∈ dictKeys (entries t ( apply_prefix pfx (some k)) ++ entriesDict kvs pfx)
          rw [dictKeys_append]
          exact List.mem_append_right _ hx
        · rw [← hfst]
          refine not_mem_keys_of_extOf hw.1.1 hg'
            (fun h => hnd'.1 (h ▸ hs')) ?_ hext
          · intro kv' hkv'
            rw [hcpfx] at hkv'
            exact entries_extOf t (applyPrefixLeaf pfx k) kv' hw.1.2 hkv'
      rw [updateDict_char kvs pfx (sd ++ entries t ( apply_prefix pfx (some k)))
        hw.2 hnd'.2 hfR]
      rw [List.append_assoc]
      rfl
theorem updateFields_char :
    ∀ (km : PyDict (Option String)) (fs : PyFields) (pfx : Option String) (sd : PyDict Val),
    wfFields km fs = true → (fieldKeys km fs).Nodup →
    (∀ k ∈ dictKeys (entriesFields km fs pfx), dictGet sd k = none) →
    updateFields km fs sd pfx = .ok (sd ++ entriesFields km fs pfx)
  | _, .nil, pfx, sd => fun _ _ _ => by
      show Except.ok sd = .ok (sd ++ [])
      rw [List.append_nil]
  | km, .cons name true v fs, pfx, sd => fun hw hnd hf => by
      rw [wfFields_cons_static] at hw
      rw [fieldKeys_cons_static] at hnd
      rw [updateFields_cons_static]
      rw [updateFields_char km fs pfx sd hw hnd
        (fun x hx => hf x (by rwa [entriesFields_cons_static]))]
      rw [entriesFields_cons_static]
  | km, .cons name false v fs, pfx, sd => fun hw hnd hf => by
      rw [wfFields_cons_dyn, Bool.and_eq_true, Bool.and_eq_true] at hw
      rw [fieldKeys_cons_dyn] at hnd
      have hnd' := List.nodup_cons.mp hnd
      obtain ⟨s, hs, hg⟩ := goodKey_elim hw.1.1
      have hcpfx : apply_prefix pfx (effKey km name)
          = some (applyPrefixLeaf pfx s) := by
        rw [hs, apply_prefix_some]
      have hfL : ∀ x ∈ dictKeys (entries v ( apply_prefix pfx (effKey km name))),
          dictGet sd x = none := by
        intro x hx
        apply hf
        rw [entriesFields_cons_dyn, dictKeys_append]
        exact List.mem_append_left _ hx
      have hupd := update_char v ( apply_prefix pfx (effKey km name)) sd hw.1.2
        (fun h => by rw [hcpfx] at h; cases h) hfL
      rw [updateFields_cons_dyn, hupd]
      show updateFields km fs (sd ++ entries v ( apply_prefix pfx (effKey km name))) pfx = _
      have hfR : ∀ x ∈ dictKeys (entriesFields km fs pfx),
          dictGet (sd ++ entries v ( apply_prefix pfx (effKey km name))) x = none := by
        intro x hx
        obtain ⟨kv, hkv, hfst⟩ := List.mem_map.mp hx
        obtain ⟨s', hs', hg', hext⟩ := entriesFields_cover km fs pfx kv hw.2 hkv
        refine dictGet_append_none ?_ ?_
        · apply hf
          rw [entriesFields_cons_dyn, dictKeys_append]
          exact List.mem_append_right _ hx
        · rw [← hfst]
          refine not_mem_keys_of_extOf hg hg'
            (fun h => hnd'.1 (by rw [hs, Option.getD_some, h]; exact hs')) ?_ hext
          · intro kv' hkv'
            rw [hcpfx] at hkv'
            exact entries_extOf v (applyPrefixLeaf pfx s) kv' hw.1.2 hkv'
      rw [updateFields_char km fs pfx
        (sd ++ entries v ( apply_prefix pfx (effKey km name))) hw.2
        (by rw [hs, Option.getD_some] at hnd'; exact hnd'.2) hfR]
      rw [List.append_assoc, ← entriesFields_cons_dyn]
end

mutual
theorem entries_nodupKeys : ∀ (t : PyTree) (pfx : Option String),
    wfT t = true → NodupKeys (entries t pfx)
  | .module km fs, pfx => fun hw => by
      unfold wfT at hw
      rw [Bool.and_eq_true] at hw
      exact entriesFields_nodupKeys km fs pfx hw.2 (of_decide_eq_true hw.1)
  | .plist ts, pfx => fun hw => entriesElems_nodupKeys ts pfx 0 hw
  | .pdict kvs, pfx => fun hw => by
      unfold wfT at hw
      rw [Bool.and_eq_true] at hw
      exact entriesDict_nodupKeys kvs pfx hw.2 (of_decide_eq_true hw.1)
  | .named _ v, pfx => fun _ => by
      cases pfx with
      | none => exact List.nodup_nil
      | some p =>
          show (dictKeys [(p, v)]).Nodup
          simp [dictKeys]
  | .leaf v, pfx => fun _ => by
      cases pfx with
      | none => exact List.nodup_nil
      | some p =>
          show (dictKeys [(p, v)]).Nodup
          simp [dictKeys]
  | .pnone, _ => fun _ => List.nodup_nil
theorem entriesElems_nodupKeys : ∀ (ts : PyTrees) (pfx : Option String) (i : Nat),
    wfElems ts = true → NodupKeys (entriesElems ts pfx i)
  | .nil, _, _ => fun _ => List.nodup_nil
  | .cons t ts, pfx, i => fun hw => by
      unfold wfElems at hw
      rw [Bool.and_eq_true] at hw
      show NodupKeys (entries t ( apply_prefix pfx (some (natStr i)))
        ++ entriesElems ts pfx (i + 1))
      unfold NodupKeys
      rw [dictKeys_append, List.nodup_append]
      refine ⟨entries_nodupKeys t _ hw.1, entriesElems_nodupKeys ts pfx (i + 1) hw.2, ?_⟩
      intro a ha hb
      obtain ⟨kv, hkv, hfst⟩ := List.mem_map.mp ha
      obtain ⟨kv', hkv', hfst'⟩ := List.mem_map.mp hb
      obtain ⟨j, hj, hext'⟩ := entriesElems_cover ts pfx (i + 1) kv' hw.2 hkv'
      have hexti : extOf (applyPrefixLeaf pfx (natStr i)) kv.1 := by
        rw [ apply_prefix_some] at hkv
        exact entries_extOf t _ kv hw.1 hkv
      rw [hfst] at hexti
      rw [hfst'] at hext'
      exact extOf_applyPrefixLeaf_ne (goodSeg_natStr i) (goodSeg_natStr j)
        (fun h => by have := natStr_injective h; omega) hexti hext'
theorem entriesDict_nodupKeys : ∀ (kvs : PyDictT) (pfx : Option String),
    wfDict kvs = true → (dictTKeys kvs).Nodup → NodupKeys (entriesDict kvs pfx)
  | .nil, _ => fun _ _ => List.nodup_nil
  | .cons k t kvs, pfx => fun hw hnd => by
      unfold wfDict at hw
      rw [Bool.and_eq_true, Bool.and_eq_true] at hw
      have hnd' := List.nodup_cons.mp hnd
      show NodupKeys (entries t ( apply_prefix pfx (some k)) ++ entriesDict kvs pfx)
      unfold NodupKeys
      rw [dictKeys_append, List.nodup_append]
      refine ⟨entries_nodupKeys t _ hw.1.2,
        entriesDict_nodupKeys kvs pfx hw.2 hnd'.2, ?_⟩
      intro a ha hb
      obtain ⟨kv, hkv, hfst⟩ := List.mem_map.mp ha
      obtain ⟨kv', hkv', hfst'⟩ := List.mem_map.mp hb
      obtain ⟨s', hs', hg', hext'⟩ := entriesDict_cover kvs pfx kv' hw.2 hkv'
      have hexti : extOf (applyPrefixLeaf pfx k) kv.1 := by
        rw [ apply_prefix_some] at hkv
        exact entries_extOf t _ kv hw.1.2 hkv
      rw [hfst] at hexti
      rw [hfst'] at hext'
      exact extOf_applyPrefixLeaf_ne hw.1.1 hg'
        (fun h => hnd'.1 (h ▸ hs')) hexti hext'
theorem entriesFields_nodupKeys :
    ∀ (km : PyDict (Option String)) (fs : PyFields) (pfx : Option String),
    wfFields km fs = true → (fieldKeys km fs).Nodup → NodupKeys (entriesFields km fs pfx)
  | _, .nil, _ => fun _ _ => List.nodup_nil
  | km, .cons name true v fs, pfx => fun hw hnd => by
      rw [wfFields_cons_static] at hw
      rw [fieldKeys_cons_static] at hnd
      rw [entriesFields_cons_static]
      exact entriesFields_nodupKeys km fs pfx hw hnd
  | km, .cons name false v fs, pfx => fun hw hnd => by
      rw [wfFields_cons_dyn, Bool.and_eq_true, Bool.and_eq_true] at hw
      rw [fieldKeys_cons_dyn] at hnd
      have hnd' := List.nodup_cons.mp hnd
      obtain ⟨s, hs, hg⟩ := goodKey_elim hw.1.1
      rw [entriesFields_cons_dyn]
      unfold NodupKeys
      rw [dictKeys_append, List.nodup_append]
      refine ⟨?_, entriesFields_nodupKeys km fs pfx hw.2 ?_, ?_⟩
      · exact entries_nodupKeys v _ hw.1.2
      · rw [hs, Option.getD_some] at hnd'
        exact hnd'.2
      · intro a ha hb
        obtain ⟨kv, hkv, hfst⟩ := List.mem_map.mp ha
        obtain ⟨kv', hkv', hfst'⟩ := List.mem_map.mp hb
        obtain ⟨s', hs', hg', hext'⟩ := entriesFields_cover km fs pfx kv' hw.2 hkv'
        have hexti : extOf (applyPrefixLeaf pfx s) kv.1 := by
          rw [hs, apply_prefix_some] at hkv
          exact entries_extOf v _ kv hw.1.2 hkv
        rw [hfst] at hexti
        rw [hfst'] at hext'
        exact extOf_applyPrefixLeaf_ne hg hg'
          (fun h => hnd'.1 (by rw [hs, Option.getD_some, h]; exact hs')) hexti hext'
end


mutual
theorem from_char : ∀ (t d : PyTree) (pfx : Option String) (sd : PyDict Val),
    wfT t = true → noNoneT t = true → sameShape d t = true →
    (pfx = none → isContainer t = true) →
    (∀ kv ∈ entries t pfx, dictGet sd kv.1 = some kv.2) →
    jax_tree_from_state_dict d sd pfx = .ok t
  | .module km fs, d, pfx, sd => fun hw hn hsh _ hget => by
      cases d with
      | module km' fs' =>
          unfold sameShape at hsh
          rw [Bool.and_eq_true] at hsh
          have hkm : km' = km := of_decide_eq_true hsh.1
          subst hkm
          unfold wfT at hw
          rw [Bool.and_eq_true] at hw
          unfold noNoneT at hn
          show (do
            let fs'' ← fromFields km' fs' sd pfx
            pure (PyTree.module km' fs'')) = .ok (.module km' fs)
          rw [fromFields_char km' fs fs' pfx sd hw.2 hn hsh.2 hget]
          rfl
      | plist ts' => simp [sameShape] at hsh
      | pdict kvs' => simp [sameShape] at hsh
      | named ax' v' => simp [sameShape] at hsh
      | leaf v' => simp [sameShape] at hsh
      | pnone => simp [sameShape] at hsh
  | .plist ts, d, pfx, sd => fun hw hn hsh _ hget => by
      cases d with
      | plist ts' =>
          unfold sameShape at hsh
          have hsh' : sameShapeElems ts' ts = true := hsh
          show (do
            let ts'' ← fromElems ts' sd pfx 0
            pure (PyTree.plist ts'')) = .ok (.plist ts)
          rw [fromElems_char ts ts' pfx 0 sd hw hn hsh' hget]
          rfl
      | module km' fs' => simp [sameShape] at hsh
      | pdict kvs' => simp [sameShape] at hsh
      | named ax' v' => simp [sameShape] at hsh
      | leaf v' => simp [sameShape] at hsh
      | pnone => simp [sameShape] at hsh
  | .pdict kvs, d, pfx, sd => fun hw hn hsh _ hget => by
      cases d with
      | pdict kvs' =>
          unfold sameShape at hsh
          have hsh' : sameShapeDict kvs' kvs = true := hsh
          unfold wfT at hw
          rw [Bool.and_eq_true] at hw
          unfold noNoneT at hn
          show (do
            let kvs'' ← fromDictEntries kvs' sd pfx
            pure (PyTree.pdict kvs'')) = .ok (.pdict kvs)
          rw [fromDict_char kvs kvs' pfx sd hw.2 hn hsh' hget]
          rfl
      | module km' fs' => simp [sameShape] at hsh
      | plist ts' => simp [sameShape] at hsh
      | named ax' v' => simp [sameShape] at hsh
      | leaf v' => simp [sameShape] at hsh
      | pnone => simp [sameShape] at hsh
  | .named ax v, d, pfx, sd => fun _ _ hsh hc hget => by
      cases d with
      | named ax' v' =>
          unfold sameShape at hsh
          have hax : ax' = ax := of_decide_eq_true hsh
          subst hax
          cases pfx with
          | none =>
              have hcc := hc rfl
              simp [isContainer] at hcc
          | some p =>
              have hg : dictGet sd p = some v :=
                hget (p, v) (List.mem_singleton.mpr rfl)
              simp only [jax_tree_from_state_dict]
              rw [hg]
      | module km' fs' => simp [sameShape] at hsh
      | plist ts' => simp [sameShape] at hsh
      | pdict kvs' => simp [sameShape] at hsh
      | leaf v' => simp [sameShape] at hsh
      | pnone => simp [sameShape] at hsh
  | .leaf v, d, pfx, sd => fun _ _ hsh hc hget => by
      cases d with
      | leaf v' =>
          cases pfx with
          | none =>
              have hcc := hc rfl
              simp [isContainer] at hcc
          | some p =>
              have hg : dictGet sd p = some v :=
                hget (p, v) (List.mem_singleton.mpr rfl)
              simp only [jax_tree_from_state_dict]
              rw [hg]
      | module km' fs' => simp [sameShape] at hsh
      | plist ts' => simp [sameShape] at hsh
      | pdict kvs' => simp [sameShape] at hsh
      | named ax' v' => simp [sameShape] at hsh
      | pnone => simp [sameShape] at hsh
  | .pnone, _, _, _ => fun _ hn _ _ _ => by simp [noNoneT] at hn
theorem fromElems_char :
    ∀ (ts ts' : PyTrees) (pfx : Option String) (i : Nat) (sd : PyDict Val),
    wfElems ts = true → noNoneElems ts = true → sameShapeElems ts' ts = true →
    (∀ kv ∈ entriesElems ts pfx i, dictGet sd kv.1 = some kv.2) →
    fromElems ts' sd pfx i = .ok ts
  | .nil, ts', _, _, _ => fun _ _ hsh _ => by
      cases ts' with
      | nil => rfl
      | cons t' ts₂ => simp [sameShapeElems] at hsh
  | .cons t ts, ts', pfx, i, sd => fun hw hn hsh hget => by
      cases ts' with
      | nil => simp [sameShapeElems] at hsh
      | cons t' ts₂ =>
          unfold wfElems at hw
          unfold noNoneElems at hn
          unfold sameShapeElems at hsh
          rw [Bool.and_eq_true] at hw hn hsh
          have hgetL : ∀ kv ∈ entries t ( apply_prefix pfx (some (natStr i))),
              dictGet sd kv.1 = some kv.2 := by
            intro kv hkv
            apply hget
            show kv ∈ entries t ( apply_prefix pfx (some (natStr i)))
              ++ entriesElems ts pfx (i + 1)
            exact List.mem_append_left _ hkv
          have hgetR : ∀ kv ∈ entriesElems ts pfx (i + 1),
              dictGet sd kv.1 = some kv.2 := by
            intro kv hkv
            apply hget
            show kv ∈ entries t ( apply_prefix pfx (some (natStr i)))
              ++ entriesElems ts pfx (i + 1)
            exact List.mem_append_right _ hkv
          have hfrom := from_char t t' ( apply_prefix pfx (some (natStr i))) sd
            hw.1 hn.1 hsh.1
            (fun h => by rw [ apply_prefix_some] at h; cases h) hgetL
          show (do
            let t'' ← jax_tree_from_state_dict t' sd ( apply_prefix pfx (some (natStr i)))
            let ts'' ← fromElems ts₂ sd pfx (i + 1)
            pure (PyTrees.cons t'' ts'')) = .ok (.cons t ts)
          rw [hfrom, fromElems_char ts ts₂ pfx (i + 1) sd hw.2 hn.2 hsh.2 hgetR]
          rfl
theorem fromDict_char :
    ∀ (kvs kvs' : PyDictT) (pfx : Option String) (sd : PyDict Val),
    wfDict kvs = true → noNoneDict kvs = true → sameShapeDict kvs' kvs = true →
    (∀ kv ∈ entriesDict kvs pfx, dictGet sd kv.1 = some kv.2) →
    fromDictEntries kvs' sd pfx = .ok kvs
  | .nil, kvs', _, _ => fun _ _ hsh _ => by
      cases kvs' with
      | nil => rfl
      | cons k' t' kvs₂ => simp [sameShapeDict] at hsh
  | .cons k t kvs, kvs', pfx, sd => fun hw hn hsh hget => by
      cases kvs' with
      | nil => simp [sameShapeDict] at hsh
      | cons k' t' kvs₂ =>
          unfold wfDict at hw
          unfold noNoneDict at hn
          unfold sameShapeDict at hsh
          rw [Bool.and_eq_true, Bool.and_eq_true] at hw
          rw [Bool.and_eq_true] at hn
          rw [Bool.and_eq_true, Bool.and_eq_true] at hsh
          have hk : k' = k := of_decide_eq_true hsh.1.1
          subst hk
          have hgetL : ∀ kv ∈ entries t ( apply_prefix pfx (some k')),
              dictGet sd kv.1 = some kv.2 := by
            intro kv hkv
            apply hget
            show kv ∈ entries t ( apply_prefix pfx (some k')) ++ entriesDict kvs pfx
            exact List.mem_append_left _ hkv
          have hgetR : ∀ kv ∈ entriesDict kvs pfx, dictGet sd kv.1 = some kv.2 := by
            intro kv hkv
            apply hget
            show kv ∈ entries t ( apply_prefix pfx (some k')) ++ entriesDict kvs pfx
            exact List.mem_append_right _ hkv
          have hfrom := from_char t t' ( apply_prefix pfx (some k')) sd
            hw.1.2 hn.1 hsh.1.2
            (fun h => by rw [ apply_prefix_some] at h; cases h) hgetL
          show (do
            let t'' ← jax_tree_from_state_dict t' sd ( apply_prefix pfx (some k'))
            let kvs'' ← fromDictEntries kvs₂ sd pfx
            pure (PyDictT.cons k' t'' kvs'')) = .ok (.cons k' t kvs)
          rw [hfrom, fromDict_char kvs kvs₂ pfx sd hw.2 hn.2 hsh.2 hgetR]
          rfl
theorem fromFields_char :
    ∀ (km : PyDict (Option String)) (fs fs' : PyFields) (pfx : Option String)
      (sd : PyDict Val),
    wfFields km fs = true → noNoneFields fs = true → sameShapeFields fs' fs = true →
    (∀ kv ∈ entriesFields km fs pfx, dictGet sd kv.1 = some kv.2) →
    fromFields km fs' sd pfx = .ok fs
  | _, .nil, fs', _, _ => fun _ _ hsh _ => by
      cases fs' with
      | nil => rfl
      | cons n' st' v' fs₂ => simp [sameShapeFields] at hsh
  | km, .cons name st v fs, fs', pfx, sd => fun hw hn hsh hget => by
      cases fs' with
      | nil => simp [sameShapeFields] at hsh
      | cons name' st' v' fs₂ =>
          unfold sameShapeFields at hsh
          rw [Bool.and_eq_true, Bool.and_eq_true, Bool.and_eq_true] at hsh
          have hname : name' = name := of_decide_eq_true hsh.1.1.1
          have hst : st' = st := of_decide_eq_true hsh.1.1.2
          subst hname
          subst hst
          rw [noNoneFields_cons, Bool.and_eq_true] at hn
          cases st' with
          | true =>
              rw [wfFields_cons_static] at hw
              have hv : v' = v := of_decide_eq_true (by simpa using hsh.1.2)
              subst hv
              rw [fromFields_cons_static,
                fromFields_char km fs fs₂ pfx sd hw hn.2 hsh.2
                  (fun kv hkv => hget kv (by rwa [entriesFields_cons_static]))]
              rfl
          | false =>
              rw [wfFields_cons_dyn, Bool.and_eq_true, Bool.and_eq_true] at hw
              have hnv : noNoneT v = true := by simpa using hn.1
              have hshv : sameShape v' v = true := by simpa using hsh.1.2
              have hgetL : ∀ kv ∈ entries v ( apply_prefix pfx (effKey km name')),
                  dictGet sd kv.1 = some kv.2 := by
                intro kv hkv
                apply hget
                rw [entriesFields_cons_dyn]
                exact List.mem_append_left _ hkv
              have hgetR : ∀ kv ∈ entriesFields km fs pfx,
                  dictGet sd kv.1 = some kv.2 := by
                intro kv hkv
                apply hget
                rw [entriesFields_cons_dyn]
                exact List.mem_append_right _ hkv
              obtain ⟨s, hs, hg⟩ := goodKey_elim hw.1.1
              have hfrom := from_char v v' ( apply_prefix pfx (effKey km name')) sd
                hw.1.2 hnv hshv
                (fun h => by rw [hs, apply_prefix_some] at h; cases h) hgetL
              rw [fromFields_cons_dyn, hfrom,
                fromFields_char km fs fs₂ pfx sd hw.2 hn.2 hsh.2 hgetR]
              rfl
end


/-- **C1.** Round-trip identity of the codec: for every module tree `T` with
no `None` leaves (any combination of nested lists, dicts and modules under
the default structural traversal, with usable distinct keys at every node),
and every donor tree of the same shape as the template, serializing `T` and
deserializing into the donor reproduces `T` exactly:
`from_state_dict(T_donor, to_state_dict(T)) == T`. -/
theorem C1_round_trip :
    ∀ (T D : PyTree) (pfx : Option String),
    wfT T = true → noNoneT T = true → sameShape D T = true →
    (pfx = none → isContainer T = true) →
    ∃ sd, jax_tree_to_state_dict T pfx = .ok sd ∧
      jax_tree_from_state_dict D sd pfx = .ok T := by
  intro T D pfx hw hn hsh hc
  have hupd := update_char T pfx [] hw hc (fun k _ => rfl)
  refine ⟨entries T pfx, ?_, ?_⟩
  · show update_state_dict_with_jax_tree T [] pfx = _
    rw [hupd]
    rfl
  · apply from_char T D pfx (entries T pfx) hw hn hsh hc
    intro kv hkv
    exact dictGet_eq_some_of_mem (entries_nodupKeys T pfx hw) hkv

/-- Witness for C1: a module with a renamed `NamedArray` field, a static
field, and a nested list of plain leaves, serialized under prefix `m` and
read back into a donor with different leaf values. -/
theorem C1_round_trip_witness :
    ∃ sd, jax_tree_to_state_dict
        (.module [("w", some "weight")]
          (.cons "w" false (.named ["x"] (.atom 3))
            (.cons "cfg" true (.leaf (.atom 9))
              (.cons "sub" false
                (.plist (.cons (.leaf (.atom 1)) (.cons (.leaf (.atom 2)) .nil)))
                .nil)))) (some "m") = .ok sd ∧
      jax_tree_from_state_dict
        (.module [("w", some "weight")]
          (.cons "w" false (.named ["x"] (.atom 0))
            (.cons "cfg" true (.leaf (.atom 9))
              (.cons "sub" false
                (.plist (.cons (.leaf (.atom 7)) (.cons (.leaf (.atom 8)) .nil)))
                .nil)))) sd (some "m")
        = .ok (.module [("w", some "weight")]
          (.cons "w" false (.named ["x"] (.atom 3))
            (.cons "cfg" true (.leaf (.atom 9))
              (.cons "sub" false
                (.plist (.cons (.leaf (.atom 1)) (.cons (.leaf (.atom 2)) .nil)))
                .nil)))) :=
  C1_round_trip _ _ (some "m") (by decide) (by decide) (by decide) (fun h => by cases h)

/-- **C6.** In `from_state_dict`, a tensor-template leaf (plain or
`NamedArray`) whose computed key is absent from the state dict raises a
lookup error (`KeyError`, no silent defaulting); a `None` template leaf
instead yields `None` for an absent key and the stored value (as a tensor
leaf) for a present key. -/
theorem C6_missing_key_lookup_error :
    ∀ (sd : PyDict Val) (p : String),
    (∀ v : Val, dictGet sd p = none →
      jax_tree_from_state_dict (.leaf v) sd (some p) = .error .keyError) ∧
    (∀ (ax : List String) (v : Val), dictGet sd p = none →
      jax_tree_from_state_dict (.named ax v) sd (some p) = .error .keyError) ∧
    (dictGet sd p = none → jax_tree_from_state_dict .pnone sd (some p) = .ok .pnone) ∧
    (∀ w : Val, dictGet sd p = some w →
      jax_tree_from_state_dict .pnone sd (some p) = .ok (.leaf w)) := by
  intro sd p
  refine ⟨?_, ?_, ?_, ?_⟩
  · intro v h
    simp only [jax_tree_from_state_dict]
    rw [h]
  · intro ax v h
    simp only [jax_tree_from_state_dict]
    rw [h]
  · intro h
    simp only [jax_tree_from_state_dict]
    rw [h]
  · intro w h
    simp only [jax_tree_from_state_dict]
    rw [h]

/-- Witness for C6 on the dict `{"a": 1}`: missing key `b` raises `KeyError`
for both leaf kinds; a `None` template yields `None` at `b` and the stored
tensor at `a`. -/
theorem C6_missing_key_lookup_error_witness :
    (jax_tree_from_state_dict (.leaf (.atom 0)) [("a", Val.atom 1)] (some "b")
      = .error .keyError) ∧
    (jax_tree_from_state_dict (.named ["x"] (.atom 0)) [("a", Val.atom 1)] (some "b")
      = .error .keyError) ∧
    (jax_tree_from_state_dict .pnone [("a", Val.atom 1)] (some "b") = .ok .pnone) ∧
    (jax_tree_from_state_dict .pnone [("a", Val.atom 1)] (some "a")
      = .ok (.leaf (.atom 1))) := by
  refine ⟨?_, ?_, ?_, ?_⟩
  · exact (C6_missing_key_lookup_error [("a", Val.atom 1)] "b").1 (Val.atom 0) (by decide)
  · exact (C6_missing_key_lookup_error [("a", Val.atom 1)] "b").2.1 ["x"] (Val.atom 0)
      (by decide)
  · exact (C6_missing_key_lookup_error [("a", Val.atom 1)] "b").2.2.1 (by decide)
  · exact (C6_missing_key_lookup_error [("a", Val.atom 1)] "a").2.2.2 (Val.atom 1)
      (by decide)

/-- **C9.** Addressing a bare (non-`None`) leaf tensor with a null prefix is
always an error, in both directions: serializing a plain leaf with no prefix
raises `ValueError`, a `NamedArray` leaf trips the `assert prefix is not
None`, and deserializing either leaf kind with no prefix raises
`ValueError`. -/
theorem C9_null_prefix_bare_leaf_error :
    ∀ (sd : PyDict Val) (v : Val) (ax : List String),
    update_state_dict_with_jax_tree (.leaf v) sd none = .error .valueError ∧
    update_state_dict_with_jax_tree (.named ax v) sd none = .error .assertionError ∧
    jax_tree_from_state_dict (.leaf v) sd none = .error .valueError ∧
    jax_tree_from_state_dict (.named ax v) sd none = .error .valueError :=
  fun _ _ _ => ⟨rfl, rfl, rfl, rfl⟩

/-- **C8.** Key-map renaming: a module declaring `{"field_a": "foreign_name"}`
serializes `field_a`'s value under key `prefix.foreign_name` and deserializes
it from that same key; the key map of the module at each level is applied at
every level of the recursion (an inner module's map renames inside the outer
module's renamed prefix), not only at the root. -/
theorem C8_key_map_renaming :
    ∀ (p : String) (km₁ km₂ : PyDict (Option String)) (n₁ n₂ f₁ f₂ : String)
      (v w : Val),
    dictGet km₁ n₁ = some (some f₁) →
    dictGet km₂ n₂ = some (some f₂) →
    (update_state_dict_with_jax_tree
        (.module km₁ (.cons n₁ false
          (.module km₂ (.cons n₂ false (.leaf v) .nil)) .nil)) [] (some p)
      = .ok [((p ++ "." ++ f₁) ++ "." ++ f₂, v)]) ∧
    (jax_tree_from_state_dict
        (.module km₁ (.cons n₁ false
          (.module km₂ (.cons n₂ false (.leaf w) .nil)) .nil))
        [((p ++ "." ++ f₁) ++ "." ++ f₂, v)] (some p)
      = .ok (.module km₁ (.cons n₁ false
          (.module km₂ (.cons n₂ false (.leaf v) .nil)) .nil))) := by
  intro p km₁ km₂ n₁ n₂ f₁ f₂ v w h₁ h₂
  have he₁ : effKey km₁ n₁ = some f₁ := by
    unfold effKey
    rw [h₁]
    rfl
  have he₂ : effKey km₂ n₂ = some f₂ := by
    unfold effKey
    rw [h₂]
    rfl
  constructor
  · have hinner : update_state_dict_with_jax_tree
        (.module km₂ (.cons n₂ false (.leaf v) .nil)) [] (some (p ++ "." ++ f₁))
        = .ok [((p ++ "." ++ f₁) ++ "." ++ f₂, v)] := by
      show updateFields km₂ (.cons n₂ false (.leaf v) .nil) [] (some (p ++ "." ++ f₁)) = _
      rw [updateFields_cons_dyn, he₂]
      rfl
    show updateFields km₁ (.cons n₁ false
      (.module km₂ (.cons n₂ false (.leaf v) .nil)) .nil) [] (some p) = _
    rw [updateFields_cons_dyn, he₁,
      show apply_prefix (some p) (some f₁) = some (p ++ "." ++ f₁) from rfl, hinner]
    rfl
  · have hgetK : dictGet [((p ++ "." ++ f₁) ++ "." ++ f₂, v)]
        ((p ++ "." ++ f₁) ++ "." ++ f₂) = some v := by
      simp [dictGet]
    have hleaf : jax_tree_from_state_dict (.leaf w)
        [((p ++ "." ++ f₁) ++ "." ++ f₂, v)] (some ((p ++ "." ++ f₁) ++ "." ++ f₂))
        = .ok (.leaf v) := by
      simp only [jax_tree_from_state_dict]
      rw [hgetK]
    have hinner : jax_tree_from_state_dict
        (.module km₂ (.cons n₂ false (.leaf w) .nil))
        [((p ++ "." ++ f₁) ++ "." ++ f₂, v)] (some (p ++ "." ++ f₁))
        = .ok (.module km₂ (.cons n₂ false (.leaf v) .nil)) := by
      show (do
        let fs' ← fromFields km₂ (.cons n₂ false (.leaf w) .nil)
          [((p ++ "." ++ f₁) ++ "." ++ f₂, v)] (some (p ++ "." ++ f₁))
        pure (PyTree.module km₂ fs')) = _
      rw [fromFields_cons_dyn, he₂,
        show apply_prefix (some (p ++ "." ++ f₁)) (some f₂)
          = some ((p ++ "." ++ f₁) ++ "." ++ f₂) from rfl, hleaf]
      rfl
    show (do
      let fs' ← fromFields km₁ (.cons n₁ false
        (.module km₂ (.cons n₂ false (.leaf w) .nil)) .nil)
        [((p ++ "." ++ f₁) ++ "." ++ f₂, v)] (some p)
      pure (PyTree.module km₁ fs')) = _
    rw [fromFields_cons_dyn, he₁,
      show apply_prefix (some p) (some f₁) = some (p ++ "." ++ f₁) from rfl, hinner]
    rfl

/-- Witness for C8 at the spec's own example: key map
`{"field_a": "foreign_name"}` at the outer level and `{"w": "weight"}` at the
inner level store the leaf under `model.foreign_name.weight`. -/
theorem C8_key_map_renaming_witness :
    (update_state_dict_with_jax_tree
        (.module [("field_a", some "foreign_name")] (.cons "field_a" false
          (.module [("w", some "weight")] (.cons "w" false (.leaf (.atom 4)) .nil)) .nil))
        [] (some "model")
      = .ok [(("model" ++ "." ++ "foreign_name") ++ "." ++ "weight", Val.atom 4)]) ∧
    (jax_tree_from_state_dict
        (.module [("field_a", some "foreign_name")] (.cons "field_a" false
          (.module [("w", some "weight")] (.cons "w" false (.leaf (.atom 0)) .nil)) .nil))
        [(("model" ++ "." ++ "foreign_name") ++ "." ++ "weight", Val.atom 4)]
        (some "model")
      = .ok (.module [("field_a", some "foreign_name")] (.cons "field_a" false
          (.module [("w", some "weight")]
            (.cons "w" false (.leaf (.atom 4)) .nil)) .nil))) :=
  C8_key_map_renaming "model" [("field_a", some "foreign_name")] [("w", some "weight")]
    "field_a" "w" "foreign_name" "weight" (Val.atom 4) (Val.atom 0)
    (by decide) (by decide)

/-! ## Embedding of `flatten_linear_layers` / `unflatten_linear_layers`

`hnn.Linear` weights carry axes `extra ++ Out ++ In` (when `out_first`, the
default) or `extra ++ In ++ Out`; the bias carries `extra ++ Out`.  Arrays
are modelled as row-major flat integer lists.  The haliax primitives used by
the two functions are modelled on the shapes at which they are called:
`flatten_axes` merges a contiguous, in-order axis group (a row-major reshape,
which leaves the flat data unchanged), `rearrange (..., a, b)` moves the two
named trailing axes into the requested order (a transpose of the last two
dimensions), `unflatten_axis` splits a merged axis back into its group (again
a pure reshape), and `hax.named` attaches axis names to a raw array of the
matching shape. -/

structure Axis where
  name : String
  size : Nat
deriving DecidableEq, Repr

def prodSizes (l : List Axis) : Nat := (l.map Axis.size).prod

/-- A raw `numpy`/`jax` array as stored in a state dict. -/
structure RawArray where
  shape : List Nat
  data : List Int
deriving DecidableEq, Repr

structure NamedArray where
  axes : List Axis
  data : List Int
deriving DecidableEq, Repr

def NamedArray.array (arr : NamedArray) : RawArray :=
  ⟨arr.axes.map Axis.size, arr.data⟩

/-- Transpose of the last two dimensions of a row-major `[E][m][n]` array:
the result is laid out `[E][n][m]` with `new[e][b][a] = old[e][a][b]`. -/
def transpose2 (E m n : Nat) (d : List Int) : List Int :=
  (List.range E).flatMap (fun e =>
    (List.range n).flatMap (fun b =>
      (List.range m).map (fun a => d.getD ((e * m + a) * n + b) 0)))

/-- Split `axs` around the first contiguous, in-order occurrence of `grp`. -/
def splitOnSublist : List Axis → List Axis → Option (List Axis × List Axis)
  | [], grp => if grp.isEmpty then some ([], []) else none
  | a :: rest, grp =>
      if grp.isPrefixOf (a :: rest) then some ([], (a :: rest).drop grp.length)
      else (splitOnSublist rest grp).map (fun pr => (a :: pr.1, pr.2))

/-- `arr.flatten_axes(grp, nm)` for a contiguous in-order group: replace the
group by one merged axis; the row-major data is unchanged. -/
def flatten_axes (arr : NamedArray) (grp : List Axis) (nm : String) :
    Option NamedArray :=
  (splitOnSublist arr.axes grp).map
    (fun pr => ⟨pr.1 ++ ⟨nm, prodSizes grp⟩ :: pr.2, arr.data⟩)

/-- `arr.rearrange((..., a, b))` for an array whose two trailing axes are
named `{a, b}` in some order: identity, or a transpose of the last two
dimensions. -/
def rearrange2 (arr : NamedArray) (a b : String) : Option NamedArray :=
  match arr.axes.reverse with
  | y :: x :: rest =>
      if x.name = a ∧ y.name = b then some arr
      else if x.name = b ∧ y.name = a then
        some ⟨rest.reverse ++ [y, x],
          transpose2 (prodSizes rest.reverse) x.size y.size arr.data⟩
      else none
  | _ => none

def replaceAxis : List Axis → String → List Axis → Option (List Axis)
  | [], _, _ => none
  | ax :: rest, nm, grp =>
      if ax.name = nm then
        if ax.size = prodSizes grp then some (grp ++ rest) else none
      else (replaceAxis rest nm grp).map (fun axs => ax :: axs)

/-- `arr.unflatten_axis(nm, grp)`: split the merged axis back into its group
(row-major reshape, data unchanged). -/
def unflatten_axis (arr : NamedArray) (nm : String) (grp : List Axis) :
    Option NamedArray :=
  (replaceAxis arr.axes nm grp).map (fun axs => ⟨axs, arr.data⟩)

/-- `hax.named(raw, axes)`: attach axis names to a raw array of the matching
shape. -/
def hax_named (r : RawArray) (axs : List Axis) : Option NamedArray :=
  if r.shape = axs.map Axis.size then some (⟨axs, r.data⟩ : NamedArray) else none

/-- `hnn.Linear`: axis groups `In`/`Out`, extra (vmapped) leading axes, the
`out_first` layout flag, the flat weight data and the optional flat bias
data (bias axes are `extra ++ Out`). -/
structure Linear where
  Out : List Axis
  In : List Axis
  extra : List Axis
  out_first : Bool
  wdata : List Int
  bias : Option (List Int)
deriving DecidableEq, Repr

def Linear.weightAxes (l : Linear) : List Axis :=
  l.extra ++ (if l.out_first then l.Out ++ l.In else l.In ++ l.Out)

def Linear.weight (l : Linear) : NamedArray := ⟨l.weightAxes, l.wdata⟩

def Linear.biasArr (l : Linear) : Option NamedArray :=
  l.bias.map (fun b => ⟨l.extra ++ l.Out, b⟩)

/-- The bias half of `flatten_linear_layers`: flatten the bias's `Out` group
(when a bias is present). -/
def flattenBias (layer : Linear) : Option (Option NamedArray) :=
  match layer.biasArr with
  | some barr => (flatten_axes barr layer.Out "__OUT__").map some
  | none => some none

/-- `flatten_linear_layers` on one linear layer: flatten `Out` to `__OUT__`
then `In` to `__IN__`, reorder the two synthetic axes according to
`out_dims_first_in_dict` (`none` leaves them as the flattening produced
them), and store the raw weight (and bias) arrays. -/
def flatten_linear_layers (layer : Linear) (odf : Option Bool) :
    Option (RawArray × Option RawArray) := do
  let w₁ ← flatten_axes layer.weight layer.Out "__OUT__"
  let w₂ ← flatten_axes w₁ layer.In "__IN__"
  let w₃ ←
    match odf with
    | some true => rearrange2 w₂ "__OUT__" "__IN__"
    | some false => rearrange2 w₂ "__IN__" "__OUT__"
    | none => some w₂
  let b ← flattenBias layer
  some (w₃.array, b.map NamedArray.array)

/-- The bias half of `unflatten_linear_layers`. -/
def unflattenBias (layer : Linear) (b : Option RawArray) : Option (Option RawArray) :=
  match b with
  | some braw => do
      let b₁ ← hax_named braw (layer.extra ++ [⟨"__OUT__", prodSizes layer.Out⟩])
      let b₂ ← unflatten_axis b₁ "__OUT__" layer.Out
      some (some b₂.array)
  | none => some none

/-- `unflatten_linear_layers` on one linear layer: name the stored raw weight
with the synthetic axes in `out_dims_first_in_dict` order (defaulting to the
exemplar's `out_first`), rearrange into the exemplar's order, and unflatten
`__OUT__` and `__IN__` back into the exemplar's axis groups. -/
def unflatten_linear_layers (layer : Linear) (w : RawArray) (b : Option RawArray)
    (odf : Option Bool) : Option (RawArray × Option RawArray) := do
  let w₁ ← hax_named w (layer.extra ++
    (if odf.getD layer.out_first then
      [⟨"__OUT__", prodSizes layer.Out⟩, ⟨"__IN__", prodSizes layer.In⟩]
     else
      [⟨"__IN__", prodSizes layer.In⟩, ⟨"__OUT__", prodSizes layer.Out⟩]))
  let w₂ ←
    if layer.out_first then rearrange2 w₁ "__OUT__" "__IN__"
    else rearrange2 w₁ "__IN__" "__OUT__"
  let w₃ ← unflatten_axis w₂ "__OUT__" layer.Out
  let w₄ ← unflatten_axis w₃ "__IN__" layer.In
  let bout ← unflattenBias layer b
  some (w₄.array, bout)

def biasOk (l : Linear) : Bool :=
  match l.bias with
  | some b => decide (b.length = prodSizes (l.extra ++ l.Out))
  | none => true

/-- Well-formedness of a linear layer: nonempty axis groups, globally
distinct axis names, the synthetic names unused, and array data of the
right lengths. -/
def wfLinear (l : Linear) : Prop :=
  l.Out ≠ [] ∧ l.In ≠ [] ∧
  ((l.extra ++ l.Out ++ l.In).map Axis.name).Nodup ∧
  "__OUT__" ∉ (l.extra ++ l.Out ++ l.In).map Axis.name ∧
  "__IN__" ∉ (l.extra ++ l.Out ++ l.In).map Axis.name ∧
  l.wdata.length = prodSizes l.weightAxes ∧
  biasOk l = true

theorem prodSizes_append (a b : List Axis) :
    prodSizes (a ++ b) = prodSizes a * prodSizes b := by
  simp [prodSizes, List.prod_append]

theorem splitOnSublist_fresh :
    ∀ (pre : List Axis) (g : Axis) (grp' post : List Axis),
    (∀ a ∈ pre, a.name ≠ g.name) →
    splitOnSublist (pre ++ (g :: grp') ++ post) (g :: grp') = some (pre, post)
  | [], g, grp', post => fun _ => by
      show splitOnSublist (g :: (grp' ++ post)) (g :: grp') = some ([], post)
      have hpre : (g :: grp').isPrefixOf (g :: (grp' ++ post)) = true :=
        List.isPrefixOf_iff_prefix.mpr ⟨post, by simp⟩
      unfold splitOnSublist
      rw [if_pos hpre]
      show some ([], (g :: (grp' ++ post)).drop (g :: grp').length) = _
      have hdrop : (g :: (grp' ++ post)).drop (g :: grp').length = post := by
        show ((g :: grp') ++ post).drop (g :: grp').length = post
        exact List.drop_left _ _
      rw [hdrop]
  | a :: pre, g, grp', post => fun hfr => by
      show splitOnSublist (a :: (pre ++ (g :: grp') ++ post)) (g :: grp') = _
      have hnp : ¬ (g :: grp').isPrefixOf (a :: (pre ++ (g :: grp') ++ post)) = true := by
        intro hp
        obtain ⟨t, ht⟩ := List.isPrefixOf_iff_prefix.mp hp
        have hga : g = a := (List.cons.inj ht).1
        exact hfr a (List.mem_cons_self _ _) (congrArg Axis.name hga.symm)
      unfold splitOnSublist
      rw [if_neg hnp,
        splitOnSublist_fresh pre g grp' post (fun x hx => hfr x (List.mem_cons_of_mem _ hx))]
      rfl

theorem rearrange2_id {pre : List Axis} {x y : Axis} {d : List Int} {a b : String}
    (hx : x.name = a) (hy : y.name = b) :
    rearrange2 ⟨pre ++ [x, y], d⟩ a b = some ⟨pre ++ [x, y], d⟩ := by
  have hrev : (pre ++ [x, y]).reverse = y :: x :: pre.reverse := by simp
  unfold rearrange2
  simp only [hrev]
  rw [if_pos ⟨hx, hy⟩]

theorem rearrange2_swap {pre : List Axis} {x y : Axis} {d : List Int} {a b : String}
    (hx : x.name = b) (hy : y.name = a) (hne : a ≠ b) :
    rearrange2 ⟨pre ++ [x, y], d⟩ a b
      = some ⟨pre ++ [y, x], transpose2 (prodSizes pre) x.size y.size d⟩ := by
  have hrev : (pre ++ [x, y]).reverse = y :: x :: pre.reverse := by simp
  unfold rearrange2
  simp only [hrev]
  rw [if_neg (fun hc => hne (hc.1.symm.trans hx)), if_pos ⟨hx, hy⟩]
  simp

theorem replaceAxis_fresh :
    ∀ (pre : List Axis) (ax : Axis) (post grp : List Axis),
    (∀ a ∈ pre, a.name ≠ ax.name) → ax.size = prodSizes grp →
    replaceAxis (pre ++ ax :: post) ax.name grp = some (pre ++ (grp ++ post))
  | [], ax, post, grp => fun _ hsz => by
      show replaceAxis (ax :: post) ax.name grp = some (grp ++ post)
      unfold replaceAxis
      rw [if_pos rfl, if_pos hsz]
  | a :: pre, ax, post, grp => fun hfr hsz => by
      show replaceAxis (a :: (pre ++ ax :: post)) ax.name grp = _
      unfold replaceAxis
      rw [if_neg (hfr a (List.mem_cons_self _ _)),
        replaceAxis_fresh pre ax post grp
          (fun x hx => hfr x (List.mem_cons_of_mem _ hx)) hsz]
      rfl

theorem length_transpose2 (E m n : Nat) (d : List Int) :
    (transpose2 E m n d).length = E * (n * m) := by
  unfold transpose2
  rw [List.length_flatMap]
  have h1 : ∀ e, ((List.range n).flatMap
      (fun b => (List.range m).map (fun a => d.getD ((e * m + a) * n + b) 0))).length
      = n * m := by
    intro e
    rw [List.length_flatMap]
    calc ((List.range n).map (List.length ∘ fun b =>
            (List.range m).map (fun a => d.getD ((e * m + a) * n + b) 0))).sum
        = ((List.range n).map (fun _ => m)).sum := by
          congr 1
          apply List.map_congr_left
          intro b _
          simp
      _ = n * m := by
          rw [List.map_const', List.sum_replicate, smul_eq_mul]
          simp
  calc ((List.range E).map (List.length ∘ fun e => (List.range n).flatMap
          (fun b => (List.range m).map (fun a => d.getD ((e * m + a) * n + b) 0)))).sum
      = ((List.range E).map (fun _ => n * m)).sum := by
        congr 1
        apply List.map_congr_left
        intro e _
        simpa using h1 e
    _ = E * (n * m) := by
        rw [List.map_const', List.sum_replicate, smul_eq_mul]
        simp

theorem flatMap_range_getD {α : Type} (dflt : α) :
    ∀ (E : Nat) (f : Nat → List α) (L : Nat), (∀ i, (f i).length = L) →
    ∀ (e k : Nat), e < E → k < L →
    ((List.range E).flatMap f).getD (e * L + k) dflt = (f e).getD k dflt := by
  intro E
  induction E with
  | zero =>
      intro f L _ e k he _
      exact absurd he (Nat.not_lt_zero e)
  | succ E ih =>
      intro f L hlen e k he hk
      rw [List.range_succ_eq_map, List.flatMap_cons, List.flatMap_map]
      cases e with
      | zero =>
          rw [Nat.zero_mul, Nat.zero_add]
          exact List.getD_append _ _ _ _ (by rw [hlen 0]; exact hk)
      | succ e =>
          have hidx : (e + 1) * L + k = (f 0).length + (e * L + k) := by
            rw [hlen 0]
            ring
          rw [hidx, List.getD_append_right _ _ _ _ (Nat.le_add_right _ _),
            Nat.add_sub_cancel_left]
          exact ih (fun i => f (i + 1)) L (fun i => hlen (i + 1)) e k
            (Nat.lt_of_succ_lt_succ he) hk

theorem transpose2_getD (E m n : Nat) (d : List Int) {e a b : Nat}
    (he : e < E) (ha : a < m) (hb : b < n) :
    (transpose2 E m n d).getD ((e * n + b) * m + a) 0
      = d.getD ((e * m + a) * n + b) 0 := by
  unfold transpose2
  have hidx : (e * n + b) * m + a = e * (n * m) + (b * m + a) := by ring
  rw [hidx,
    flatMap_range_getD 0 E _ (n * m)
      (fun i => by
        rw [List.length_flatMap]
        calc ((List.range n).map (List.length ∘ fun b =>
                (List.range m).map (fun a => d.getD ((i * m + a) * n + b) 0))).sum
            = ((List.range n).map (fun _ => m)).sum := by
              congr 1
              apply List.map_congr_left
              intro b _
              simp
          _ = n * m := by
              rw [List.map_const', List.sum_replicate, smul_eq_mul]
              simp)
      e (b * m + a) he
      (by calc b * m + a < b * m + m := by omega
            _ = (b + 1) * m := by ring
            _ ≤ n * m := Nat.mul_le_mul_right m hb),
    flatMap_range_getD 0 n _ m (fun i => by simp) b a hb ha,
    List.getD_eq_getElem?_getD, List.getElem?_map, List.getElem?_range ha]
  rfl

theorem transpose2_transpose2 (E m n : Nat) (d : List Int)
    (hd : d.length = E * (m * n)) :
    transpose2 E n m (transpose2 E m n d) = d := by
  apply List.ext_getElem?
  intro i
  have hlen : (transpose2 E n m (transpose2 E m n d)).length = E * (m * n) := by
    rw [length_transpose2]
  by_cases hi : i < E * (m * n)
  · have h₁ : i < (transpose2 E n m (transpose2 E m n d)).length := by omega
    have h₂ : i < d.length := by omega
    rw [List.getElem?_eq_getElem h₁, List.getElem?_eq_getElem h₂]
    congr 1
    rw [← List.getD_eq_getElem _ (0 : Int) h₁, ← List.getD_eq_getElem _ (0 : Int) h₂]
    have hmn : 0 < m * n := by
      rcases Nat.eq_zero_or_pos (m * n) with h | h
      · rw [h, Nat.mul_zero] at hi
        exact absurd hi (Nat.not_lt_zero i)
      · exact h
    have hm : 0 < m := by
      rcases Nat.eq_zero_or_pos m with h | h
      · rw [h, Nat.zero_mul] at hmn
        exact absurd hmn (lt_irrefl 0)
      · exact h
    have hn : 0 < n := by
      rcases Nat.eq_zero_or_pos n with h | h
      · rw [h, Nat.mul_zero] at hmn
        exact absurd hmn (lt_irrefl 0)
      · exact h
    have hE : 0 < E := by
      rcases Nat.eq_zero_or_pos E with h | h
      · rw [h, Nat.zero_mul] at hi
        exact absurd hi (Nat.not_lt_zero i)
      · exact h
    have h1 := Nat.div_add_mod i (m * n)
    have h2 := Nat.div_add_mod (i % (m * n)) n
    have he : i / (m * n) < E := Nat.div_lt_of_lt_mul (by rw [Nat.mul_comm]; exact hi)
    have hr : i % (m * n) < m * n := Nat.mod_lt i hmn
    have ha : i % (m * n) / n < m := Nat.div_lt_of_lt_mul (by rw [Nat.mul_comm n m]; exact hr)
    have hb : i % (m * n) % n < n := Nat.mod_lt _ hn
    have hidx : (i / (m * n) * m + i % (m * n) / n) * n + i % (m * n) % n = i := by
      calc (i / (m * n) * m + i % (m * n) / n) * n + i % (m * n) % n
          = m * n * (i / (m * n)) + (n * (i % (m * n) / n) + i % (m * n) % n) := by ring
        _ = m * n * (i / (m * n)) + i % (m * n) := by rw [h2]
        _ = i := h1
    rw [← hidx, transpose2_getD E n m _ he hb ha]
    have hidx2 : (i / (m * n) * n + i % (m * n) % n) * m + i % (m * n) / n
        = (i / (m * n) * n + i % (m * n) % n) * m + i % (m * n) / n := rfl
    rw [transpose2_getD E m n d he ha hb]
  · have h₁ : ¬ i < (transpose2 E n m (transpose2 E m n d)).length := by omega
    have h₂ : ¬ i < d.length := by omega
    rw [List.getElem?_eq_none (by omega), List.getElem?_eq_none (by omega)]

theorem nodup_names_disjoint {l₁ l₂ : List Axis}
    (hnd : ((l₁ ++ l₂).map Axis.name).Nodup) :
    ∀ x ∈ l₁, ∀ y ∈ l₂, x.name ≠ y.name := by
  rw [List.map_append, List.nodup_append] at hnd
  intro x hx y hy heq
  exact hnd.2.2 (List.mem_map_of_mem _ hx) (heq ▸ List.mem_map_of_mem _ hy)

theorem name_ne_of_not_mem {l : List Axis} {nm : String}
    (h : nm ∉ l.map Axis.name) : ∀ x ∈ l, x.name ≠ nm := by
  intro x hx heq
  exact h (heq ▸ List.mem_map_of_mem _ hx)

theorem flatten_axes_middle {extra G' post : List Axis} {g : Axis} {d : List Int}
    {nm : String} (hfr : ∀ x ∈ extra, x.name ≠ g.name) :
    flatten_axes ⟨extra ++ (g :: G') ++ post, d⟩ (g :: G') nm
      = some ⟨extra ++ ⟨nm, prodSizes (g :: G')⟩ :: post, d⟩ := by
  show (splitOnSublist (extra ++ (g :: G') ++ post) (g :: G')).map _ = _
  rw [splitOnSublist_fresh extra g G' post hfr]
  rfl

theorem flatten_axes_last {pre G' : List Axis} {g : Axis} {d : List Int}
    {nm : String} (hfr : ∀ x ∈ pre, x.name ≠ g.name) :
    flatten_axes ⟨pre ++ (g :: G'), d⟩ (g :: G') nm
      = some ⟨pre ++ [⟨nm, prodSizes (g :: G')⟩], d⟩ := by
  rw [show (⟨pre ++ (g :: G'), d⟩ : NamedArray) = ⟨pre ++ (g :: G') ++ [], d⟩ by simp,
    flatten_axes_middle hfr]

theorem unflatten_axis_eval {pre post grp : List Axis} {nm : String} {sz : Nat}
    {d : List Int} (hfr : ∀ x ∈ pre, x.name ≠ nm) (hsz : sz = prodSizes grp) :
    unflatten_axis ⟨pre ++ ⟨nm, sz⟩ :: post, d⟩ nm grp = some ⟨pre ++ (grp ++ post), d⟩ := by
  show (replaceAxis (pre ++ ⟨nm, sz⟩ :: post) nm grp).map _ = _
  rw [show (nm : String) = Axis.name ⟨nm, sz⟩ from rfl] at hfr ⊢
  rw [replaceAxis_fresh pre ⟨nm, sz⟩ post grp hfr hsz]
  rfl

theorem hax_named_eval (axs : List Axis) (d : List Int) :
    hax_named ⟨axs.map Axis.size, d⟩ axs = some ⟨axs, d⟩ := by
  unfold hax_named
  rw [if_pos rfl]

theorem flattenBias_eval (gO : Axis) (Out' In extra : List Axis) (of : Bool)
    (wdata : List Int) (bias : Option (List Int))
    (hfr : ∀ x ∈ extra, x.name ≠ gO.name) :
    flattenBias ⟨gO :: Out', In, extra, of, wdata, bias⟩
      = some (bias.map (fun bb =>
          (⟨extra ++ [⟨"__OUT__", prodSizes (gO :: Out')⟩], bb⟩ : NamedArray))) := by
  cases bias with
  | none => rfl
  | some bb =>
      show (flatten_axes ⟨extra ++ (gO :: Out'), bb⟩ (gO :: Out') "__OUT__").map some = _
      rw [flatten_axes_last hfr]
      rfl

theorem unflattenBias_eval (gO : Axis) (Out' In extra : List Axis) (of : Bool)
    (wdata : List Int) (bias : Option (List Int))
    (hfrO : ∀ x ∈ extra, x.name ≠ "__OUT__") :
    unflattenBias ⟨gO :: Out', In, extra, of, wdata, bias⟩
        (bias.map (fun bb =>
          NamedArray.array ⟨extra ++ [⟨"__OUT__", prodSizes (gO :: Out')⟩], bb⟩))
      = some ((Linear.biasArr ⟨gO :: Out', In, extra, of, wdata, bias⟩).map
          NamedArray.array) := by
  cases bias with
  | none => rfl
  | some bb =>
      simp only [Option.map_some']
      unfold unflattenBias
      simp only [NamedArray.array]
      rw [hax_named_eval]
      simp only [Option.bind_eq_bind, Option.some_bind]
      rw [unflatten_axis_eval hfrO rfl]
      simp only [Option.bind_eq_bind, Option.some_bind]
      simp [Linear.biasArr, NamedArray.array]

/-- **C3.** For every linear layer with nonempty `In`/`Out` groups (and
consistent extra axes), `unflatten_linear_layers` applied to the output of
`flatten_linear_layers` with the same layer as exemplar and the same
`out_dims_first_in_dict` value reproduces the original weight (and bias,
when present) exactly, for both `out_dims_first_in_dict = true` and
`= false`, whatever the layer's own `out_first` layout. -/
theorem C3_flatten_unflatten_roundtrip :
    ∀ (layer : Linear) (b : Bool), wfLinear layer →
    ∃ (w : RawArray) (bias' : Option RawArray),
      flatten_linear_layers layer (some b) = some (w, bias') ∧
      unflatten_linear_layers layer w bias' (some b)
        = some (layer.weight.array, layer.biasArr.map NamedArray.array) := by
  intro layer b hwf
  obtain ⟨Out, In, extra, of, wdata, bias⟩ := layer
  obtain ⟨hOut, hIn, hnd, hnoO, hnoI, hwlen, hblen⟩ := hwf
  cases Out with
  | nil => exact absurd rfl hOut
  | cons gO Out' =>
  cases In with
  | nil => exact absurd rfl hIn
  | cons gI In' =>
  have hstr : ("__IN__" : String) ≠ "__OUT__" := by decide
  have hstr' : ("__OUT__" : String) ≠ "__IN__" := by decide
  have hnd' : (((extra ++ (gO :: Out')).map Axis.name)
      ++ ((gI :: In').map Axis.name)).Nodup := by
    rw [← List.map_append]
    exact hnd
  have hEO : ∀ x ∈ extra, ∀ y ∈ (gO :: Out'), x.name ≠ y.name :=
    nodup_names_disjoint (List.nodup_append.mp hnd').1
  have hEOI : ∀ x ∈ extra ++ (gO :: Out'), ∀ y ∈ (gI :: In'), x.name ≠ y.name :=
    nodup_names_disjoint hnd
  have hallO : ∀ x ∈ extra ++ (gO :: Out') ++ (gI :: In'), x.name ≠ "__OUT__" :=
    name_ne_of_not_mem hnoO
  have hallI : ∀ x ∈ extra ++ (gO :: Out') ++ (gI :: In'), x.name ≠ "__IN__" :=
    name_ne_of_not_mem hnoI
  have hfrEgO : ∀ x ∈ extra, x.name ≠ gO.name :=
    fun x hx => hEO x hx gO (List.mem_cons_self _ _)
  have hfrEgI : ∀ x ∈ extra, x.name ≠ gI.name :=
    fun x hx => hEOI x (List.mem_append_left _ hx) gI (List.mem_cons_self _ _)
  have hgIO : gI.name ≠ "__OUT__" :=
    hallO gI (List.mem_append_right _ (List.mem_cons_self _ _))
  have hgOI : gO.name ≠ "__IN__" :=
    hallI gO (List.mem_append_left _ (List.mem_append_right _ (List.mem_cons_self _ _)))
  have hfrEOgI : ∀ x ∈ extra ++ [(⟨"__OUT__", prodSizes (gO :: Out')⟩ : Axis)],
      x.name ≠ gI.name := by
    intro x hx
    rcases List.mem_append.mp hx with hx | hx
    · exact hfrEgI x hx
    · rw [List.mem_singleton.mp hx]
      exact fun hc => hgIO hc.symm
  have hfrEIgO : ∀ x ∈ extra ++ (gI :: In'), x.name ≠ gO.name := by
    intro x hx
    rcases List.mem_append.mp hx with hx | hx
    · exact hfrEgO x hx
    · exact fun hc =>
        hEOI gO (List.mem_append_right _ (List.mem_cons_self _ _)) x hx hc.symm
  have hfrEIgO2 : ∀ x ∈ extra ++ [(⟨"__IN__", prodSizes (gI :: In')⟩ : Axis)],
      x.name ≠ gO.name := by
    intro x hx
    rcases List.mem_append.mp hx with hx | hx
    · exact hfrEgO x hx
    · rw [List.mem_singleton.mp hx]
      exact fun hc => hgOI hc.symm
  have hEfrO : ∀ x ∈ extra, x.name ≠ "__OUT__" :=
    fun x hx => hallO x (List.mem_append_left _ (List.mem_append_left _ hx))
  have hEfrI : ∀ x ∈ extra, x.name ≠ "__IN__" :=
    fun x hx => hallI x (List.mem_append_left _ (List.mem_append_left _ hx))
  have hEOutfrI : ∀ x ∈ extra ++ (gO :: Out'), x.name ≠ "__IN__" :=
    fun x hx => hallI x (List.mem_append_left _ hx)
  have hEInfrO : ∀ x ∈ extra ++ [(⟨"__IN__", prodSizes (gI :: In')⟩ : Axis)],
      x.name ≠ "__OUT__" := by
    intro x hx
    rcases List.mem_append.mp hx with hx | hx
    · exact hEfrO x hx
    · rw [List.mem_singleton.mp hx]
      exact fun hc => hstr hc
  have hEOutfrI2 : ∀ x ∈ extra ++ [(⟨"__OUT__", prodSizes (gO :: Out')⟩ : Axis)],
      x.name ≠ "__IN__" := by
    intro x hx
    rcases List.mem_append.mp hx with hx | hx
    · exact hEfrI x hx
    · rw [List.mem_singleton.mp hx]
      exact fun hc => hstr' hc
  have hfB := flattenBias_eval gO Out' (gI :: In') extra of wdata bias hfrEgO
  have huB := unflattenBias_eval gO Out' (gI :: In') extra of wdata bias hEfrO
  simp only [NamedArray.array] at huB
  cases of with
  | true =>
      have hflat : flatten_linear_layers
          ⟨gO :: Out', gI :: In', extra, true, wdata, bias⟩ (some b)
          = some (NamedArray.array
              ⟨extra ++ (if b then
                  [(⟨"__OUT__", prodSizes (gO :: Out')⟩ : Axis),
                   (⟨"__IN__", prodSizes (gI :: In')⟩ : Axis)]
                else
                  [(⟨"__IN__", prodSizes (gI :: In')⟩ : Axis),
                   (⟨"__OUT__", prodSizes (gO :: Out')⟩ : Axis)]),
                if b then wdata
                else transpose2 (prodSizes extra) (prodSizes (gO :: Out'))
                  (prodSizes (gI :: In')) wdata⟩,
              bias.map (fun bb' => NamedArray.array
                ⟨extra ++ [⟨"__OUT__", prodSizes (gO :: Out')⟩], bb'⟩)) := by
        unfold flatten_linear_layers
        simp only [Linear.weight, Linear.weightAxes, if_true]
        rw [← List.append_assoc extra (gO :: Out') (gI :: In'),
          flatten_axes_middle hfrEgO]
        simp only [Option.bind_eq_bind, Option.some_bind]
        rw [show extra ++ (⟨"__OUT__", prodSizes (gO :: Out')⟩ : Axis) :: (gI :: In')
            = (extra ++ [(⟨"__OUT__", prodSizes (gO :: Out')⟩ : Axis)]) ++ (gI :: In')
            from by simp,
          flatten_axes_last hfrEOgI]
        simp only [Option.bind_eq_bind, Option.some_bind]
        rw [show (extra ++ [(⟨"__OUT__", prodSizes (gO :: Out')⟩ : Axis)])
              ++ [(⟨"__IN__", prodSizes (gI :: In')⟩ : Axis)]
            = extra ++ [(⟨"__OUT__", prodSizes (gO :: Out')⟩ : Axis),
                (⟨"__IN__", prodSizes (gI :: In')⟩ : Axis)] from by simp]
        cases b with
        | true =>
            dsimp only
            rw [rearrange2_id rfl rfl]
            simp only [Option.bind_eq_bind, Option.some_bind]
            rw [hfB]
            simp only [Option.bind_eq_bind, Option.some_bind, Option.map_map]
            rfl
        | false =>
            dsimp only
            rw [rearrange2_swap rfl rfl hstr]
            simp only [Option.bind_eq_bind, Option.some_bind]
            rw [hfB]
            simp only [Option.bind_eq_bind, Option.some_bind, Option.map_map]
            rfl
      have hlen1 : wdata.length
          = prodSizes extra * (prodSizes (gO :: Out') * prodSizes (gI :: In')) := by
        simp only [Linear.weightAxes, if_true] at hwlen
        rw [hwlen, prodSizes_append, prodSizes_append]
      refine ⟨_, _, hflat, ?_⟩
      unfold unflatten_linear_layers
      simp only [Option.getD_some]
      cases b with
      | true =>
          rw [if_pos rfl, if_pos rfl]
          simp only [NamedArray.array]
          rw [hax_named_eval]
          simp only [Option.bind_eq_bind, Option.some_bind]
          simp only [if_true]
          rw [rearrange2_id rfl rfl]
          simp only [Option.bind_eq_bind, Option.some_bind]
          rw [unflatten_axis_eval hEfrO rfl]
          simp only [Option.bind_eq_bind, Option.some_bind]
          rw [show extra ++ ((gO :: Out') ++ [(⟨"__IN__", prodSizes (gI :: In')⟩ : Axis)])
              = (extra ++ (gO :: Out')) ++ (⟨"__IN__", prodSizes (gI :: In')⟩ : Axis) :: []
              from by simp,
            unflatten_axis_eval hEOutfrI rfl]
          simp only [Option.bind_eq_bind, Option.some_bind]
          rw [huB]
          simp only [Option.bind_eq_bind, Option.some_bind]
          simp [NamedArray.array, Linear.weight, Linear.weightAxes]
      | false =>
          rw [if_neg Bool.false_ne_true, if_neg Bool.false_ne_true]
          simp only [NamedArray.array]
          rw [hax_named_eval]
          simp only [Option.bind_eq_bind, Option.some_bind]
          simp only [if_true]
          rw [rearrange2_swap rfl rfl hstr']
          dsimp only
          rw [transpose2_transpose2 _ _ _ _ hlen1]
          simp only [Option.bind_eq_bind, Option.some_bind]
          rw [unflatten_axis_eval hEfrO rfl]
          simp only [Option.bind_eq_bind, Option.some_bind]
          rw [show extra ++ ((gO :: Out') ++ [(⟨"__IN__", prodSizes (gI :: In')⟩ : Axis)])
              = (extra ++ (gO :: Out')) ++ (⟨"__IN__", prodSizes (gI :: In')⟩ : Axis) :: []
              from by simp,
            unflatten_axis_eval hEOutfrI rfl]
          simp only [Option.bind_eq_bind, Option.some_bind]
          rw [huB]
          simp only [Option.bind_eq_bind, Option.some_bind]
          simp [NamedArray.array, Linear.weight, Linear.weightAxes]
  | false =>
      have hflat : flatten_linear_layers
          ⟨gO :: Out', gI :: In', extra, false, wdata, bias⟩ (some b)
          = some (NamedArray.array
              ⟨extra ++ (if b then
                  [(⟨"__OUT__", prodSizes (gO :: Out')⟩ : Axis),
                   (⟨"__IN__", prodSizes (gI :: In')⟩ : Axis)]
                else
                  [(⟨"__IN__", prodSizes (gI :: In')⟩ : Axis),
                   (⟨"__OUT__", prodSizes (gO :: Out')⟩ : Axis)]),
                if b then transpose2 (prodSizes extra) (prodSizes (gI :: In'))
                  (prodSizes (gO :: Out')) wdata
                else wdata⟩,
              bias.map (fun bb' => NamedArray.array
                ⟨extra ++ [⟨"__OUT__", prodSizes (gO :: Out')⟩], bb'⟩)) := by
        unfold flatten_linear_layers
        simp only [Linear.weight, Linear.weightAxes, Bool.false_eq_true, if_false]
        rw [← List.append_assoc extra (gI :: In') (gO :: Out'),
          flatten_axes_last hfrEIgO]
        simp only [Option.bind_eq_bind, Option.some_bind]
        rw [flatten_axes_middle hfrEgI]
        simp only [Option.bind_eq_bind, Option.some_bind]
        cases b with
        | true =>
            dsimp only
            rw [rearrange2_swap rfl rfl hstr']
            simp only [Option.bind_eq_bind, Option.some_bind]
            rw [hfB]
            simp only [Option.bind_eq_bind, Option.some_bind, Option.map_map]
            rfl
        | false =>
            dsimp only
            rw [rearrange2_id rfl rfl]
            simp only [Option.bind_eq_bind, Option.some_bind]
            rw [hfB]
            simp only [Option.bind_eq_bind, Option.some_bind, Option.map_map]
            rfl
      have hlen2 : wdata.length
          = prodSizes extra * (prodSizes (gI :: In') * prodSizes (gO :: Out')) := by
        simp only [Linear.weightAxes, Bool.false_eq_true, if_false] at hwlen
        rw [hwlen, prodSizes_append, prodSizes_append]
      refine ⟨_, _, hflat, ?_⟩
      unfold unflatten_linear_layers
      simp only [Option.getD_some]
      cases b with
      | true =>
          rw [if_pos rfl, if_pos rfl]
          simp only [NamedArray.array]
          rw [hax_named_eval]
          simp only [Option.bind_eq_bind, Option.some_bind, Bool.false_eq_true, if_false]
          rw [rearrange2_swap rfl rfl hstr]
          dsimp only
          rw [transpose2_transpose2 _ _ _ _ hlen2]
          simp only [Option.bind_eq_bind, Option.some_bind]
          rw [show extra ++ [(⟨"__IN__", prodSizes (gI :: In')⟩ : Axis),
                (⟨"__OUT__", prodSizes (gO :: Out')⟩ : Axis)]
              = (extra ++ [(⟨"__IN__", prodSizes (gI :: In')⟩ : Axis)])
                ++ (⟨"__OUT__", prodSizes (gO :: Out')⟩ : Axis) :: []
              from by simp,
            unflatten_axis_eval hEInfrO rfl]
          simp only [Option.bind_eq_bind, Option.some_bind]
          rw [show (extra ++ [(⟨"__IN__", prodSizes (gI :: In')⟩ : Axis)])
                ++ ((gO :: Out') ++ [])
              = extra ++ (⟨"__IN__", prodSizes (gI :: In')⟩ : Axis) :: ((gO :: Out') ++ [])
              from by simp,
            unflatten_axis_eval hEfrI rfl]
          simp only [Option.bind_eq_bind, Option.some_bind]
          rw [huB]
          simp only [Option.bind_eq_bind, Option.some_bind]
          simp [NamedArray.array, Linear.weight, Linear.weightAxes]
      | false =>
          rw [if_neg Bool.false_ne_true, if_neg Bool.false_ne_true]
          simp only [NamedArray.array]
          rw [hax_named_eval]
          simp only [Option.bind_eq_bind, Option.some_bind, Bool.false_eq_true, if_false]
          rw [rearrange2_id rfl rfl]
          simp only [Option.bind_eq_bind, Option.some_bind]
          rw [show extra ++ [(⟨"__IN__", prodSizes (gI :: In')⟩ : Axis),
                (⟨"__OUT__", prodSizes (gO :: Out')⟩ : Axis)]
              = (extra ++ [(⟨"__IN__", prodSizes (gI :: In')⟩ : Axis)])
                ++ (⟨"__OUT__", prodSizes (gO :: Out')⟩ : Axis) :: []
              from by simp,
            unflatten_axis_eval hEInfrO rfl]
          simp only [Option.bind_eq_bind, Option.some_bind]
          rw [show (extra ++ [(⟨"__IN__", prodSizes (gI :: In')⟩ : Axis)])
                ++ ((gO :: Out') ++ [])
              = extra ++ (⟨"__IN__", prodSizes (gI :: In')⟩ : Axis) :: ((gO :: Out') ++ [])
              from by simp,
            unflatten_axis_eval hEfrI rfl]
          simp only [Option.bind_eq_bind, Option.some_bind]
          rw [huB]
          simp only [Option.bind_eq_bind, Option.some_bind]
          simp [NamedArray.array, Linear.weight, Linear.weightAxes]

/-- Witness for C3: a layer with `Out = [c:3]`, `In = [a:2]`, `out_first`,
a bias, and `out_dims_first_in_dict = false` (the transposing path). -/
theorem C3_flatten_unflatten_roundtrip_witness :
    ∃ (w : RawArray) (bias' : Option RawArray),
      flatten_linear_layers
        ⟨[⟨"c", 3⟩], [⟨"a", 2⟩], [], true, [0, 1, 2, 3, 4, 5], some [10, 11, 12]⟩
        (some false) = some (w, bias') ∧
      unflatten_linear_layers
        ⟨[⟨"c", 3⟩], [⟨"a", 2⟩], [], true, [0, 1, 2, 3, 4, 5], some [10, 11, 12]⟩
        w bias' (some false)
        = some ((Linear.weight
            ⟨[⟨"c", 3⟩], [⟨"a", 2⟩], [], true, [0, 1, 2, 3, 4, 5], some [10, 11, 12]⟩).array,
          (Linear.biasArr
            ⟨[⟨"c", 3⟩], [⟨"a", 2⟩], [], true, [0, 1, 2, 3, 4, 5], some [10, 11, 12]⟩).map
            NamedArray.array) :=
  C3_flatten_unflatten_roundtrip
    ⟨[⟨"c", 3⟩], [⟨"a", 2⟩], [], true, [0, 1, 2, 3, 4, 5], some [10, 11, 12]⟩ false
    (by refine ⟨by decide, by decide, by decide, by decide, by decide, by decide, by decide⟩)

/-- The spec's words for `flatten_linear_layers` with
`out_dims_first_in_dict = None`: "leave as produced by step 2, i.e.
output-major" — the stored weight matrix is claimed to always have the
output group's total size as its first (non-extra) dimension. -/
def flattenedWeightShape_spec (layer : Linear) : List Nat :=
  layer.extra.map Axis.size ++ [prodSizes layer.Out, prodSizes layer.In]

/-- Counterexample to C7's `None ⇒ output-major` clause: for a layer with
`out_first = false` (weight laid out `In × Out`), flattening with
`out_dims_first_in_dict = None` stores the weight with shape `[2, 3]`
(input-major, exactly as the collapse step produced it), not the
output-major `[3, 2]` the spec's words predict. -/
theorem C7_counterexample :
    flatten_linear_layers
        ⟨[⟨"c", 3⟩], [⟨"a", 2⟩], [], false, [0, 1, 2, 3, 4, 5], none⟩ none
      = some (⟨[2, 3], [0, 1, 2, 3, 4, 5]⟩, none) ∧
    (⟨[2, 3], [0, 1, 2, 3, 4, 5]⟩ : RawArray).shape
      ≠ flattenedWeightShape_spec
          ⟨[⟨"c", 3⟩], [⟨"a", 2⟩], [], false, [0, 1, 2, 3, 4, 5], none⟩ :=
  ⟨by decide, by decide⟩

/-- **C7 (amended).** `flatten_linear_layers` collapses the output axis
group into `__OUT__` and then the input group into `__IN__`, each merged
axis taking the position of its group in the layer's own layout (so the
collapse result is output-major exactly when the layer's `out_first` is
set, input-major otherwise); the two synthetic axes are then ordered
output-major when `out_dims_first_in_dict` is `true`, input-major when it
is `false`, and left exactly as the collapse produced them — the layer's
own order, not necessarily output-major — when it is `None`; the flat data
is transposed exactly when the requested order differs from the layer's. -/
theorem C7_flatten_collapse_and_order :
    ∀ (layer : Linear) (odf : Option Bool), wfLinear layer →
    flatten_linear_layers layer odf
      = some (⟨layer.extra.map Axis.size ++
          (if odf.getD layer.out_first then
            [prodSizes layer.Out, prodSizes layer.In]
          else [prodSizes layer.In, prodSizes layer.Out]),
          if odf.getD layer.out_first = layer.out_first then layer.wdata
          else if layer.out_first then
            transpose2 (prodSizes layer.extra) (prodSizes layer.Out)
              (prodSizes layer.In) layer.wdata
          else
            transpose2 (prodSizes layer.extra) (prodSizes layer.In)
              (prodSizes layer.Out) layer.wdata⟩,
        layer.bias.map (fun bb =>
          (⟨layer.extra.map Axis.size ++ [prodSizes layer.Out], bb⟩ : RawArray))) := by
  intro layer odf hwf
  obtain ⟨Out, In, extra, of, wdata, bias⟩ := layer
  obtain ⟨hOut, hIn, hnd, hnoO, hnoI, hwlen, hblen⟩ := hwf
  cases Out with
  | nil => exact absurd rfl hOut
  | cons gO Out' =>
  cases In with
  | nil => exact absurd rfl hIn
  | cons gI In' =>
  have hstr : ("__IN__" : String) ≠ "__OUT__" := by decide
  have hstr' : ("__OUT__" : String) ≠ "__IN__" := by decide
  have hnd' : (((extra ++ (gO :: Out')).map Axis.name)
      ++ ((gI :: In').map Axis.name)).Nodup := by
    rw [← List.map_append]
    exact hnd
  have hEO : ∀ x ∈ extra, ∀ y ∈ (gO :: Out'), x.name ≠ y.name :=
    nodup_names_disjoint (List.nodup_append.mp hnd').1
  have hEOI : ∀ x ∈ extra ++ (gO :: Out'), ∀ y ∈ (gI :: In'), x.name ≠ y.name :=
    nodup_names_disjoint hnd
  have hallO : ∀ x ∈ extra ++ (gO :: Out') ++ (gI :: In'), x.name ≠ "__OUT__" :=
    name_ne_of_not_mem hnoO
  have hallI : ∀ x ∈ extra ++ (gO :: Out') ++ (gI :: In'), x.name ≠ "__IN__" :=
    name_ne_of_not_mem hnoI
  have hfrEgO : ∀ x ∈ extra, x.name ≠ gO.name :=
    fun x hx => hEO x hx gO (List.mem_cons_self _ _)
  have hfrEgI : ∀ x ∈ extra, x.name ≠ gI.name :=
    fun x hx => hEOI x (List.mem_append_left _ hx) gI (List.mem_cons_self _ _)
  have hgIO : gI.name ≠ "__OUT__" :=
    hallO gI (List.mem_append_right _ (List.mem_cons_self _ _))
  have hfrEOgI : ∀ x ∈ extra ++ [(⟨"__OUT__", prodSizes (gO :: Out')⟩ : Axis)],
      x.name ≠ gI.name := by
    intro x hx
    rcases List.mem_append.mp hx with hx | hx
    · exact hfrEgI x hx
    · rw [List.mem_singleton.mp hx]
      exact fun hc => hgIO hc.symm
  have hfrEIgO : ∀ x ∈ extra ++ (gI :: In'), x.name ≠ gO.name := by
    intro x hx
    rcases List.mem_append.mp hx with hx | hx
    · exact hfrEgO x hx
    · exact fun hc =>
        hEOI gO (List.mem_append_right _ (List.mem_cons_self _ _)) x hx hc.symm
  have hfB := flattenBias_eval gO Out' (gI :: In') extra of wdata bias hfrEgO
  cases of with
  | true =>
      unfold flatten_linear_layers
      simp only [Linear.weight, Linear.weightAxes, if_true]
      rw [← List.append_assoc extra (gO :: Out') (gI :: In'),
        flatten_axes_middle hfrEgO]
      simp only [Option.bind_eq_bind, Option.some_bind]
      rw [show extra ++ (⟨"__OUT__", prodSizes (gO :: Out')⟩ : Axis) :: (gI :: In')
          = (extra ++ [(⟨"__OUT__", prodSizes (gO :: Out')⟩ : Axis)]) ++ (gI :: In')
          from by simp,
        flatten_axes_last hfrEOgI]
      simp only [Option.bind_eq_bind, Option.some_bind]
      rw [show (extra ++ [(⟨"__OUT__", prodSizes (gO :: Out')⟩ : Axis)])
            ++ [(⟨"__IN__", prodSizes (gI :: In')⟩ : Axis)]
          = extra ++ [(⟨"__OUT__", prodSizes (gO :: Out')⟩ : Axis),
              (⟨"__IN__", prodSizes (gI :: In')⟩ : Axis)] from by simp]
      cases odf with
      | none =>
          dsimp only
          rw [hfB]
          simp only [Option.bind_eq_bind, Option.some_bind, Option.map_map]
          refine congrArg some (Prod.ext ?_ ?_)
          · simp [NamedArray.array]
          · exact congrArg (fun h => Option.map h bias)
              (funext fun bb => by simp [NamedArray.array, Function.comp])
      | some b =>
          cases b with
          | true =>
              dsimp only
              rw [rearrange2_id rfl rfl]
              simp only [Option.bind_eq_bind, Option.some_bind]
              rw [hfB]
              simp only [Option.bind_eq_bind, Option.some_bind, Option.map_map]
              refine congrArg some (Prod.ext ?_ ?_)
              · simp [NamedArray.array]
              · exact congrArg (fun h => Option.map h bias)
                  (funext fun bb => by simp [NamedArray.array, Function.comp])
          | false =>
              dsimp only
              rw [rearrange2_swap rfl rfl hstr]
              simp only [Option.bind_eq_bind, Option.some_bind]
              rw [hfB]
              simp only [Option.bind_eq_bind, Option.some_bind, Option.map_map]
              refine congrArg some (Prod.ext ?_ ?_)
              · simp [NamedArray.array]
              · exact congrArg (fun h => Option.map h bias)
                  (funext fun bb => by simp [NamedArray.array, Function.comp])
  | false =>
      unfold flatten_linear_layers
      simp only [Linear.weight, Linear.weightAxes, Bool.false_eq_true, if_false]
      rw [← List.append_assoc extra (gI :: In') (gO :: Out'),
        flatten_axes_last hfrEIgO]
      simp only [Option.bind_eq_bind, Option.some_bind]
      rw [flatten_axes_middle hfrEgI]
      simp only [Option.bind_eq_bind, Option.some_bind]
      cases odf with
      | none =>
          dsimp only
          rw [hfB]
          simp only [Option.bind_eq_bind, Option.some_bind, Option.map_map]
          refine congrArg some (Prod.ext ?_ ?_)
          · simp [NamedArray.array]
          · exact congrArg (fun h => Option.map h bias)
              (funext fun bb => by simp [NamedArray.array, Function.comp])
      | some b =>
          cases b with
          | true =>
              dsimp only
              rw [rearrange2_swap rfl rfl hstr']
              simp only [Option.bind_eq_bind, Option.some_bind]
              rw [hfB]
              simp only [Option.bind_eq_bind, Option.some_bind, Option.map_map]
              refine congrArg some (Prod.ext ?_ ?_)
              · simp [NamedArray.array]
              · exact congrArg (fun h => Option.map h bias)
                  (funext fun bb => by simp [NamedArray.array, Function.comp])
          | false =>
              dsimp only
              rw [rearrange2_id rfl rfl]
              simp only [Option.bind_eq_bind, Option.some_bind]
              rw [hfB]
              simp only [Option.bind_eq_bind, Option.some_bind, Option.map_map]
              refine congrArg some (Prod.ext ?_ ?_)
              · simp [NamedArray.array]
              · exact congrArg (fun h => Option.map h bias)
                  (funext fun bb => by simp [NamedArray.array, Function.comp])

/-- Witness for the amended C7 at a concrete `out_first = false` layer with
`out_dims_first_in_dict = None`. -/
theorem C7_flatten_collapse_and_order_witness :
    flatten_linear_layers
        ⟨[⟨"c", 3⟩], [⟨"a", 2⟩], [⟨"e", 2⟩], false,
          [0, 1, 2, 3, 4, 5, 6, 7, 8, 9, 10, 11], some [20, 21, 22, 23, 24, 25]⟩ none
      = some (⟨([(⟨"e", 2⟩ : Axis)]).map Axis.size ++
          (if (none : Option Bool).getD false then
            [prodSizes [(⟨"c", 3⟩ : Axis)], prodSizes [(⟨"a", 2⟩ : Axis)]]
          else [prodSizes [(⟨"a", 2⟩ : Axis)], prodSizes [(⟨"c", 3⟩ : Axis)]]),
          if (none : Option Bool).getD false = false then
            [0, 1, 2, 3, 4, 5, 6, 7, 8, 9, 10, 11]
          else if false then
            transpose2 (prodSizes [(⟨"e", 2⟩ : Axis)]) (prodSizes [(⟨"c", 3⟩ : Axis)])
              (prodSizes [(⟨"a", 2⟩ : Axis)]) [0, 1, 2, 3, 4, 5, 6, 7, 8, 9, 10, 11]
          else
            transpose2 (prodSizes [(⟨"e", 2⟩ : Axis)]) (prodSizes [(⟨"a", 2⟩ : Axis)])
              (prodSizes [(⟨"c", 3⟩ : Axis)]) [0, 1, 2, 3, 4, 5, 6, 7, 8, 9, 10, 11]⟩,
        (some [20, 21, 22, 23, 24, 25]).map (fun bb =>
          (⟨([(⟨"e", 2⟩ : Axis)]).map Axis.size ++ [prodSizes [(⟨"c", 3⟩ : Axis)]], bb⟩
            : RawArray))) :=
  C7_flatten_collapse_and_order
    ⟨[⟨"c", 3⟩], [⟨"a", 2⟩], [⟨"e", 2⟩], false,
      [0, 1, 2, 3, 4, 5, 6, 7, 8, 9, 10, 11], some [20, 21, 22, 23, 24, 25]⟩ none
    (by refine ⟨by decide, by decide, by decide, by decide, by decide, by decide, by decide⟩)

/-
C2: gradient accumulation.  `accumulate_gradients_sharded` is modelled from
the spec text, since the repository snapshot holds only its test
(`test_grad_accum.py`), not its implementation file.
-/

/-- Modelled from the spec: split a batch (a list of examples) into
sequential micro-batches of size `P`; the last micro-batch may be smaller.
`fuel` bounds the recursion by the length of the list. -/
def chunksAux {α : Type} (P fuel : Nat) (xs : List α) : List (List α) :=
  match fuel, xs with
  | 0, _ => []
  | _, [] => []
  | f + 1, x :: t => (x :: t).take P :: chunksAux P f ((x :: t).drop P)
termination_by structural fuel

/-- Modelled from the spec: the micro-batches of a batch under per-device
parallelism `P`. -/
def microbatches {α : Type} (P : Nat) (xs : List α) : List (List α) :=
  chunksAux P xs.length xs

/-- Concatenation of a list of micro-batches back into one batch. -/
def joinL {α : Type} : List (List α) → List α
  | [] => []
  | l :: ls => l ++ joinL ls

/-- Mean of a per-example function over a batch (the value `f` returns for a
batch, and likewise each coordinate of its gradient). -/
def meanLoss {α : Type} (f : α → ℚ) (xs : List α) : ℚ :=
  (xs.map f).sum / (xs.length : ℚ)

/-- Modelled from the spec: one sequential accumulation step, adding the
micro-batch's value and gradient weighted by its size, and its size itself. -/
def accumStep {α : Type} (lossF gradF : α → ℚ) (acc : ℚ × ℚ × ℚ)
    (mb : List α) : ℚ × ℚ × ℚ :=
  (acc.1 + (mb.length : ℚ) * meanLoss lossF mb,
   acc.2.1 + (mb.length : ℚ) * meanLoss gradF mb,
   acc.2.2 + (mb.length : ℚ))

/-- Modelled from the spec: compute `(value_i, grad_i)` for each micro-batch
sequentially and return the batch-size-weighted mean value and gradient. -/
def accumulate_gradients_sharded {α : Type} (lossF gradF : α → ℚ) (P : Nat)
    (xs : List α) : ℚ × ℚ :=
  (((microbatches P xs).foldl (accumStep lossF gradF) (0, 0, 0)).1 /
     ((microbatches P xs).foldl (accumStep lossF gradF) (0, 0, 0)).2.2,
   ((microbatches P xs).foldl (accumStep lossF gradF) (0, 0, 0)).2.1 /
     ((microbatches P xs).foldl (accumStep lossF gradF) (0, 0, 0)).2.2)

lemma chunksAux_nil {α : Type} (P fuel : Nat) :
    chunksAux (α := α) P fuel [] = [] := by
  cases fuel <;> rfl

lemma chunksAux_join {α : Type} (P : Nat) (hP : 0 < P) :
    ∀ (fuel : Nat) (xs : List α), xs.length ≤ fuel →
      joinL (chunksAux P fuel xs) = xs := by
  intro fuel
  induction fuel with
  | zero =>
      intro xs hlen
      have hxs : xs = [] := List.length_eq_zero.mp (Nat.le_zero.mp hlen)
      subst hxs
      rfl
  | succ f ih =>
      intro xs hlen
      cases xs with
      | nil => rfl
      | cons x t =>
          have hlen' : ((x :: t).drop P).length ≤ f := by
            rw [List.length_drop]
            simp only [List.length_cons] at hlen ⊢
            omega
          show (x :: t).take P ++ joinL (chunksAux P f ((x :: t).drop P)) = x :: t
          rw [ih _ hlen', List.take_append_drop]

lemma chunksAux_length {α : Type} (P : Nat) (hP : 0 < P) :
    ∀ (fuel : Nat) (xs : List α), xs.length ≤ fuel →
      (chunksAux P fuel xs).length = (xs.length + P - 1) / P := by
  intro fuel
  induction fuel with
  | zero =>
      intro xs hlen
      have hxs : xs = [] := List.length_eq_zero.mp (Nat.le_zero.mp hlen)
      subst hxs
      have h0 : (P - 1) / P = 0 := Nat.div_eq_of_lt (by omega)
      simp [chunksAux, h0]
  | succ f ih =>
      intro xs hlen
      cases xs with
      | nil =>
          have h0 : (P - 1) / P = 0 := Nat.div_eq_of_lt (by omega)
          simp [chunksAux, h0]
      | cons x t =>
          have hlen' : ((x :: t).drop P).length ≤ f := by
            rw [List.length_drop]
            simp only [List.length_cons] at hlen ⊢
            omega
          show ((x :: t).take P :: chunksAux P f ((x :: t).drop P)).length = _
          rw [List.length_cons, ih _ hlen', List.length_drop]
          simp only [List.length_cons]
          have hrw : t.length + 1 + P - 1 = t.length + P := by omega
          rw [hrw, Nat.add_div_right _ hP]
          have key : (t.length + 1 - P + P - 1) / P = t.length / P := by
            rcases le_or_lt (t.length + 1) P with hNP | hNP
            · have h1 : t.length + 1 - P = 0 := by omega
              rw [h1, Nat.div_eq_of_lt (by omega), Nat.div_eq_of_lt (by omega)]
            · have h2 : t.length + 1 - P + P - 1 = t.length := by omega
              rw [h2]
          rw [key]

lemma chunksAux_mem {α : Type} (P : Nat) (hP : 0 < P) :
    ∀ (fuel : Nat) (xs : List α) (mb : List α), mb ∈ chunksAux P fuel xs →
      mb ≠ [] ∧ mb.length ≤ P := by
  intro fuel
  induction fuel with
  | zero =>
      intro xs mb h
      simp [chunksAux] at h
  | succ f ih =>
      intro xs mb h
      cases xs with
      | nil => simp [chunksAux] at h
      | cons x t =>
          have hstep : chunksAux P (f + 1) (x :: t)
              = (x :: t).take P :: chunksAux P f ((x :: t).drop P) := rfl
          rw [hstep] at h
          rcases List.mem_cons.mp h with h1 | h2
          · subst h1
            constructor
            · cases P with
              | zero => exact absurd hP (by omega)
              | succ p =>
                  rw [List.take_succ_cons]
                  exact List.cons_ne_nil _ _
            · rw [List.length_take]
              exact min_le_left _ _
          · exact ih _ mb h2

lemma chunksAux_full {α : Type} (P : Nat) (hP : 0 < P) :
    ∀ (fuel : Nat) (xs : List α) (i : Nat),
      i + 1 < (chunksAux P fuel xs).length →
      ((chunksAux P fuel xs).getD i []).length = P := by
  intro fuel
  induction fuel with
  | zero =>
      intro xs i h
      simp [chunksAux] at h
  | succ f ih =>
      intro xs i h
      cases xs with
      | nil => simp [chunksAux] at h
      | cons x t =>
          have hstep : chunksAux P (f + 1) (x :: t)
              = (x :: t).take P :: chunksAux P f ((x :: t).drop P) := rfl
          rw [hstep] at h ⊢
          cases i with
          | zero =>
              rw [List.getD_cons_zero]
              rw [List.length_cons] at h
              have hlen1 : 0 < (chunksAux P f ((x :: t).drop P)).length := by
                omega
              have hdrop : (x :: t).drop P ≠ [] := by
                intro hnil
                rw [hnil, chunksAux_nil] at hlen1
                exact absurd hlen1 (by simp)
              have hlt : P < (x :: t).length := by
                by_contra hle
                exact hdrop (List.drop_eq_nil_of_le (by omega))
              rw [List.length_take]
              omega
          | succ j =>
              rw [List.getD_cons_succ]
              rw [List.length_cons] at h
              exact ih ((x :: t).drop P) j (by omega)

lemma weighted_mean_sum {α : Type} (f : α → ℚ) :
    ∀ (mbs : List (List α)), (∀ mb ∈ mbs, mb ≠ []) →
      (mbs.map (fun mb => (mb.length : ℚ) * meanLoss f mb)).sum
        = ((joinL mbs).map f).sum := by
  intro mbs
  induction mbs with
  | nil => intro _; rfl
  | cons mb rest ih =>
      intro hne
      have hmb : mb ≠ [] := hne mb (List.mem_cons_self _ _)
      have hlen0 : mb.length ≠ 0 := fun h => hmb (List.length_eq_zero.mp h)
      have hlen : (mb.length : ℚ) ≠ 0 := Nat.cast_ne_zero.mpr hlen0
      rw [List.map_cons, List.sum_cons]
      show _ = ((mb ++ joinL rest).map f).sum
      rw [List.map_append, List.sum_append,
        ih (fun m hm => hne m (List.mem_cons_of_mem _ hm))]
      congr 1
      unfold meanLoss
      rw [mul_comm, div_mul_cancel₀ _ hlen]

lemma joinL_length_sum {α : Type} :
    ∀ (mbs : List (List α)),
      (mbs.map (fun mb => (mb.length : ℚ))).sum = ((joinL mbs).length : ℚ) := by
  intro mbs
  induction mbs with
  | nil => simp [joinL]
  | cons mb rest ih =>
      rw [List.map_cons, List.sum_cons, ih]
      show _ = ((mb ++ joinL rest).length : ℚ)
      rw [List.length_append]
      push_cast
      ring

lemma accumFold {α : Type} (lossF gradF : α → ℚ) :
    ∀ (mbs : List (List α)) (a b c : ℚ),
      mbs.foldl (accumStep lossF gradF) (a, b, c)
        = (a + (mbs.map (fun mb => (mb.length : ℚ) * meanLoss lossF mb)).sum,
           b + (mbs.map (fun mb => (mb.length : ℚ) * meanLoss gradF mb)).sum,
           c + (mbs.map (fun mb => (mb.length : ℚ))).sum) := by
  intro mbs
  induction mbs with
  | nil => intro a b c; simp
  | cons mb rest ih =>
      intro a b c
      rw [List.foldl_cons]
      have hstep : accumStep lossF gradF (a, b, c) mb
          = (a + (mb.length : ℚ) * meanLoss lossF mb,
             b + (mb.length : ℚ) * meanLoss gradF mb,
             c + (mb.length : ℚ)) := rfl
      rw [hstep, ih]
      simp only [List.map_cons, List.sum_cons]
      refine Prod.ext ?_ (Prod.ext ?_ ?_) <;> dsimp <;> ring

/-- C2: for positive per-device parallelism `P` and a nonempty batch, the
spec-modelled `accumulate_gradients_sharded` partitions the batch into
`ceil(N/P)` sequential micro-batches whose concatenation is the whole batch,
each micro-batch is nonempty (no crash or drop on a partial one) and of size
at most `P`, every micro-batch but the last has size exactly `P`, and the
batch-size-weighted mean value and gradient equal the single-shot value and
gradient over the full batch (exactly, over `ℚ`). -/
theorem C2_grad_accumulation {α : Type} (lossF gradF : α → ℚ) (P : Nat)
    (xs : List α) (hP : 0 < P) (hne : xs ≠ []) :
    (microbatches P xs).length = (xs.length + P - 1) / P ∧
    joinL (microbatches P xs) = xs ∧
    (∀ mb ∈ microbatches P xs, mb ≠ [] ∧ mb.length ≤ P) ∧
    (∀ i : Nat, i + 1 < (microbatches P xs).length →
      ((microbatches P xs).getD i []).length = P) ∧
    accumulate_gradients_sharded lossF gradF P xs
      = (meanLoss lossF xs, meanLoss gradF xs) := by
  refine ⟨chunksAux_length P hP _ _ le_rfl, chunksAux_join P hP _ _ le_rfl,
    fun mb hmb => chunksAux_mem P hP _ _ mb hmb,
    fun i h => chunksAux_full P hP _ _ i h, ?_⟩
  have hjoin : joinL (microbatches P xs) = xs := chunksAux_join P hP _ _ le_rfl
  have hne' : ∀ mb ∈ microbatches P xs, mb ≠ [] :=
    fun mb hmb => (chunksAux_mem P hP _ _ mb hmb).1
  have hfold := accumFold lossF gradF (microbatches P xs) 0 0 0
  have hL := weighted_mean_sum lossF (microbatches P xs) hne'
  have hG := weighted_mean_sum gradF (microbatches P xs) hne'
  have hN := joinL_length_sum (microbatches P xs)
  rw [hjoin] at hL hG hN
  have hacc : accumulate_gradients_sharded lossF gradF P xs
      = (((microbatches P xs).foldl (accumStep lossF gradF) (0, 0, 0)).1 /
          ((microbatches P xs).foldl (accumStep lossF gradF) (0, 0, 0)).2.2,
         ((microbatches P xs).foldl (accumStep lossF gradF) (0, 0, 0)).2.1 /
          ((microbatches P xs).foldl (accumStep lossF gradF) (0, 0, 0)).2.2) := rfl
  rw [hacc, hfold]
  dsimp only
  simp only [zero_add]
  rw [hL, hG, hN]
  rfl

/-- Witness for C2 at the spec's uneven example: batch size 10 with
parallelism 4 gives micro-batches of sizes 4, 4, 2. -/
theorem C2_grad_accumulation_witness :
    0 < 4 ∧ ([0, 1, 2, 3, 4, 5, 6, 7, 8, 9] : List Nat) ≠ [] ∧
    ((microbatches 4 ([0, 1, 2, 3, 4, 5, 6, 7, 8, 9] : List Nat)).length
        = (([0, 1, 2, 3, 4, 5, 6, 7, 8, 9] : List Nat).length + 4 - 1) / 4 ∧
      joinL (microbatches 4 ([0, 1, 2, 3, 4, 5, 6, 7, 8, 9] : List Nat))
        = [0, 1, 2, 3, 4, 5, 6, 7, 8, 9] ∧
      (∀ mb ∈ microbatches 4 ([0, 1, 2, 3, 4, 5, 6, 7, 8, 9] : List Nat),
        mb ≠ [] ∧ mb.length ≤ 4) ∧
      (∀ i : Nat,
        i + 1 < (microbatches 4 ([0, 1, 2, 3, 4, 5, 6, 7, 8, 9] : List Nat)).length →
        ((microbatches 4 ([0, 1, 2, 3, 4, 5, 6, 7, 8, 9] : List Nat)).getD i
            []).length = 4) ∧
      accumulate_gradients_sharded (fun n : Nat => (n : ℚ))
          (fun n : Nat => (n : ℚ) * (n : ℚ)) 4 [0, 1, 2, 3, 4, 5, 6, 7, 8, 9]
        = (meanLoss (fun n : Nat => (n : ℚ)) [0, 1, 2, 3, 4, 5, 6, 7, 8, 9],
           meanLoss (fun n : Nat => (n : ℚ) * (n : ℚ))
             [0, 1, 2, 3, 4, 5, 6, 7, 8, 9])) :=
  ⟨by decide, by decide,
    C2_grad_accumulation (fun n : Nat => (n : ℚ))
      (fun n : Nat => (n : ℚ) * (n : ℚ)) 4 [0, 1, 2, 3, 4, 5, 6, 7, 8, 9]
      (by decide) (by decide)⟩
